import Mathlib

/-! WAV recorder (`mic.cpp`): a shallow embedding and its verified properties.

The embedding follows `src/src/mic.cpp` and `src/src/mic.h`.

* Machine integers are natural numbers with an explicit reduction modulo `2^32`
  (`uint32_t`, `size_t` on the 32-bit target) or `2^16` (`uint16_t`) wherever the
  C arithmetic can wrap.
* `float` values are elements of an arbitrary linearly ordered field `K` with a floor
  function (`ℚ` for evaluation, `ℝ` for the mathematical reading). The signal functions
  come twice: in exact arithmetic (`dcBlocker`, `applyFixedGain`, `agc_update_gain`), and
  with the result of every `float` operation passed through a rounding `rnd`
  (`dcBlockerR`, `applyFixedGainR`, `agc_update_gainR`), where `rnd = f32`, rounding to
  binary32 to nearest with ties to even, is the arithmetic of the target and `rnd = id`
  gives the exact functions back. Overflow to infinity and NaN are not modelled.
* The C library functions `powf`, `expf`, `sqrtf` are parameters (`Libm`).
* The capture device and the storage card are scripts of outcomes (`Env`): whether the
  file opens, how many bytes each write accepts, what each `i2s_channel_read` returns.
-/

namespace Mic

/-! ## Machine integers and bytes -/

/-- Reduction to `uint32_t`. -/
def u32 (n : Nat) : Nat := n % 2 ^ 32

/-- Reduction to `uint16_t`. -/
def u16 (n : Nat) : Nat := n % 2 ^ 16

/-- The ASCII bytes of a string literal, as `memcpy` copies them. -/
def ascii (s : String) : List Nat := s.toList.map Char.toNat

/-- The two bytes of a `uint16_t` in memory (little-endian target). -/
def le16 (n : Nat) : List Nat := [n % 256, n / 256 % 256]

/-- The four bytes of a `uint32_t` in memory (little-endian target). -/
def le32 (n : Nat) : List Nat :=
  [n % 256, n / 256 % 256, n / 65536 % 256, n / 16777216 % 256]

/-- The number a little-endian byte string denotes (the parser's view of a field). -/
def leValue : List Nat → Nat
  | [] => 0
  | b :: rest => b + 256 * leValue rest

/-- Bytes `off .. off + len - 1` of a byte string. -/
def slice (h : List Nat) (off len : Nat) : List Nat := (h.drop off).take len

/-- The `int16_t` stored little-endian in two bytes (two's complement). -/
def decodeS16 (b0 b1 : Nat) : Int :=
  let v := b0 % 256 + 256 * (b1 % 256)
  if 32768 ≤ v then (v : Int) - 65536 else (v : Int)

/-- The two bytes of an `int16_t` in memory. -/
def encodeS16 (x : Int) : List Nat := le16 (x % 65536).toNat

/-- The `int16_t` view of a byte buffer: `br / sizeof(int16_t)` whole samples. -/
def bytesToSamples : List Nat → List Int
  | b0 :: b1 :: rest => decodeS16 b0 b1 :: bytesToSamples rest
  | _ => []

/-- The bytes of a block of samples. -/
def samplesToBytes : List Int → List Nat
  | [] => []
  | x :: rest => encodeS16 x ++ samplesToBytes rest

/-! ## Configuration (`mic.h`) -/

/-- The result codes of `enum class RecResult`. -/
inductive RecResult
  | Success
  | FileOpenError
  | HeaderPlaceWriteError
  | I2sReadError
  | SdWriteError
  deriving DecidableEq

/-- `struct SessionConfig`. The external buffer fields only select which memory the block
buffer lives in (`bufBytes` is `blockSamples * sizeof(int16_t)` either way), so they are
not part of the model. -/
structure SessionConfig where
  sampleRate : Nat := 16000
  bitsPerSamp : Nat := 16
  channels : Nat := 1
  dropHeadMs : Nat := 700
  blockSamples : Nat := 1024
  dir : String := "/audio"
  deriving DecidableEq

/-- `struct FixedGainConfig`. -/
structure FixedGainConfig (K : Type) where
  gainDb : K

/-- `struct AgcConfig`. -/
structure AgcConfig (K : Type) where
  targetPeakDbFS : K
  maxGainDb : K
  minGainDb : K
  attackMs : K
  releaseMs : K
  noiseGateDbFS : K
  gateReleaseMs : K

/-- The C library functions the signal chain calls. -/
structure Libm (K : Type) where
  powf : K → K → K
  expf : K → K
  sqrtf : K → K

section Dsp

variable {K : Type} [LinearOrderedField K] [FloorRing K]

/-! ## Signal chain (exact arithmetic)

The functions of the signal chain with the `float` operations read as exact operations of
the field `K`. The same functions with every operation rounded follow under "Signal chain
in `float` arithmetic". -/

/-- `db2lin`: `powf(10, db / 20)`. -/
def db2lin (m : Libm K) (db : K) : K := m.powf 10 (db / 20)

/-- The conversion `(int16_t)v` of an in-range value: truncation toward zero. -/
def truncToInt (v : K) : Int := if 0 ≤ v then ⌊v⌋ else ⌈v⌉

/-- `saturate_s16`. -/
def saturate_s16 (v : K) : Int :=
  if v > 32767 then 32767
  else if v < -32768 then -32768
  else truncToInt v

/-- The file-scope DC blocker memory `dc_x1`, `dc_y1`. -/
structure DcState (K : Type) where
  x1 : K
  y1 : K

/-- `dcReset`. -/
def dcReset : DcState K := ⟨0, 0⟩

/-- `dc_alpha_for`. -/
def dc_alpha_for (fs : Nat) : K :=
  if fs ≤ 8000 then 990 / 1000
  else if fs ≥ 48000 then 9975 / 10000
  else 995 / 1000

/-- `dcBlocker`: the block after the in-place filter, and the memory written back. -/
def dcBlocker (alpha : K) : DcState K → List Int → List Int × DcState K
  | st, [] => ([], st)
  | st, s :: rest =>
    let x : K := (s : K)
    let y : K := (x - st.x1) + alpha * st.y1
    let r := dcBlocker alpha ⟨x, y⟩ rest
    (saturate_s16 y :: r.1, r.2)

/-- The first loop of `applyFixedGain`: the peak of the block under the gain. -/
def gainPeak (gainLin : K) : List Int → K → K
  | [], peak => peak
  | s :: rest, peak =>
    let a : K := |(s : K) * gainLin|
    gainPeak gainLin rest (if a > peak then a else peak)

/-- The limiter threshold `PCM16_MAX_F * 0.98f`. -/
def LIMIT_THRESH : K := 32767 * (98 / 100)

/-- The gain `applyFixedGain` applies after its peak check. -/
def limitedGain (io : List Int) (gainLin : K) : K :=
  let peak := gainPeak gainLin io 0
  if peak > LIMIT_THRESH then gainLin * (LIMIT_THRESH / (peak + 1 / 10 ^ 12)) else gainLin

/-- `applyFixedGain`. -/
def applyFixedGain (io : List Int) (gainLin : K) : List Int :=
  let g := limitedGain io gainLin
  io.map (fun (s : Int) => saturate_s16 ((s : K) * g))

/-- The accumulator loop of `block_rms`. -/
def sumSquares : List Int → K → K
  | [], acc => acc
  | s :: rest, acc => sumSquares rest (acc + (s : K) * (s : K))

/-- `block_rms`. -/
def block_rms (m : Libm K) (p : List Int) : K :=
  if p.length = 0 then 0 else m.sqrtf (sumSquares p 0 / (p.length : K))

/-- `one_pole_coeff_ms`. -/
def one_pole_coeff_ms (m : Libm K) (ms fs : K) (blockSamples : Nat) : K :=
  let blockTms : K := (blockSamples : K) / fs * 1000
  let tau : K := if ms ≤ 0 then 1 / 1000 else ms
  let a : K := m.expf (-blockTms / tau)
  let a : K := if a < 0 then 0 else a
  if a > 1 then 1 else a

/-- The gain the block asks for in `agc_update_gain`, after the clamp to the bounds. -/
def agcNeeded (m : Libm K) (blockRms : K) (agc : AgcConfig K) : K :=
  let targetPeak : K := db2lin m agc.targetPeakDbFS * 32767
  let needed : K := if blockRms > 1 then targetPeak / blockRms else db2lin m agc.maxGainDb
  let maxLin : K := db2lin m agc.maxGainDb
  let minLin : K := db2lin m agc.minGainDb
  let needed : K := if needed > maxLin then maxLin else needed
  if needed < minLin then minLin else needed

/-- The smoothing coefficient `a` of `agc_update_gain`. -/
def agcCoeff (m : Libm K) (currentLinGain blockRms : K) (agc : AgcConfig K)
    (blockSamples fs : Nat) : K :=
  let gateThresh : K := db2lin m agc.noiseGateDbFS * 32767
  let gated : Bool := decide (blockRms < gateThresh)
  let needed : K := agcNeeded m blockRms agc
  let a_att : K := one_pole_coeff_ms m agc.attackMs (fs : K) blockSamples
  let a_rel : K := one_pole_coeff_ms m agc.releaseMs (fs : K) blockSamples
  let a_gate : K := one_pole_coeff_ms m agc.gateReleaseMs (fs : K) blockSamples
  let a : K := if needed < currentLinGain then a_att else a_rel
  if gated then (if a > a_gate then a else a_gate) else a

/-- `agc_update_gain`. -/
def agc_update_gain (m : Libm K) (currentLinGain blockRms : K) (agc : AgcConfig K)
    (blockSamples fs : Nat) : K :=
  let maxLin : K := db2lin m agc.maxGainDb
  let minLin : K := db2lin m agc.minGainDb
  let needed : K := agcNeeded m blockRms agc
  let a : K := agcCoeff m currentLinGain blockRms agc blockSamples fs
  let next : K := a * currentLinGain + (1 - a) * needed
  let next : K := if next > maxLin then maxLin else next
  if next < minLin then minLin else next

end Dsp

/-- A stand-in for the C library over the rationals, used to evaluate the model:
`powf b e` is `b ^ ⌊e⌋`, `expf x` is `1 / (1 - x)` for `x ≤ 0`, `sqrtf` is the integer
square root of the floor. -/
def qLibm : Libm ℚ where
  powf := fun b e => b ^ ⌊e⌋
  expf := fun x => if x ≤ 0 then 1 / (1 - x) else 1
  sqrtf := fun x => (Nat.sqrt ⌊x⌋.toNat : ℚ)

/-! ## Storage -/

/-- An open `File` of the storage library: its bytes, the write position, and whether the
handle is still open. -/
structure File where
  data : List Nat
  pos : Nat
  isOpen : Bool
  deriving DecidableEq

/-- `f.size()`. -/
def File.size (f : File) : Nat := f.data.length

/-- `f.seek(p)`. -/
def File.seek (f : File) (p : Nat) : File := { f with pos := p }

/-- `f.close()`. -/
def File.close (f : File) : File := { f with isOpen := false }

/-- `f.write(buf, buf.length)` when the card accepts at most `accept` bytes: the bytes
that reach the file replace what is at the write position (extending the file at its
end), and the call returns how many were written. -/
def File.write (f : File) (buf : List Nat) (accept : Nat) : File × Nat :=
  let w := min buf.length accept
  ({ f with data := f.data.take f.pos ++ buf.take w ++ f.data.drop (f.pos + w),
            pos := f.pos + w }, w)

/-- `SD.open(path, FILE_WRITE)` on success: a fresh, empty file. -/
def File.create : File := { data := [], pos := 0, isOpen := true }

/-! ## WAV header -/

/-- `memcpy(h + off, src, src.length)` on a byte array. -/
def memcpy (h : List Nat) (off : Nat) (src : List Nat) : List Nat :=
  h.take off ++ src ++ h.drop (off + src.length)

/-- The array `h[44]` that `writeWavHeader` assembles for a file of `fileSize` bytes. -/
def wavHeader (fileSize sr bits ch : Nat) : List Nat :=
  let total := u32 fileSize
  let total := if total < 44 then 44 else total
  let dataBytes := total - 44
  let byteRate := u32 (u32 (sr * ch) * (bits / 8))
  let blockAlign := u16 (ch * (bits / 8))
  let h := List.replicate 44 0
  let h := memcpy h 0 (ascii "RIFF")
  let cs := u32 (36 + dataBytes)
  let h := memcpy h 4 (le32 cs)
  let h := memcpy h 8 (ascii "WAVE")
  let h := memcpy h 12 (ascii "fmt ")
  let sc1 := 16
  let h := memcpy h 16 (le32 sc1)
  let af := 1
  let h := memcpy h 20 (le16 af)
  let h := memcpy h 22 (le16 ch)
  let h := memcpy h 24 (le32 sr)
  let h := memcpy h 28 (le32 byteRate)
  let h := memcpy h 32 (le16 blockAlign)
  let h := memcpy h 34 (le16 bits)
  let h := memcpy h 36 (ascii "data")
  memcpy h 40 (le32 dataBytes)

/-- `writeWavHeader`: the header for the current file size is written at offset 0. The
source discards the result of this write; the model has the card accept it whole. -/
def writeWavHeader (f : File) (sr bits ch : Nat) : File :=
  let h := wavHeader f.size sr bits ch
  let f := f.seek 0
  (f.write h 44).1

/-! ## Recording -/

/-- One `i2s_channel_read` and what the card does with the write that follows it:
`err` is `err != ESP_OK`, `bytes` is what the device delivers (the driver copies at most
`bufBytes` of it), `accept` bounds the bytes the card takes on the block's `f.write`. -/
structure ReadEvent where
  err : Bool
  bytes : List Nat
  accept : Nat
  deriving DecidableEq

/-- The collaborators of one recording call: the path `nextWavPath` picks, whether
`SD.open` succeeds, how many bytes of the 44-byte placeholder the card accepts, and the
capture reads in the order they are issued. -/
structure Env where
  path : String
  openOk : Bool
  hdrAccept : Nat
  reads : List ReadEvent
  deriving DecidableEq

/-- The local variables of the block loop: the file, `written`, `dropBytes` and the
filter state (`dc_x1`, `dc_y1`, and `agc_lin_gain` for the AGC recorder). -/
structure LoopState (σ : Type) where
  f : File
  written : Nat
  dropBytes : Nat
  sig : σ

/-- How the block loop stands when the script of reads ends: still waiting for a read
(`running`), left through its condition (`finished`), or left through a `return`
(`failed`, the file already closed). -/
inductive LoopOut (σ : Type) where
  | running (st : LoopState σ)
  | finished (st : LoopState σ)
  | failed (r : RecResult) (st : LoopState σ)

/-- The block buffer after steps (A) and (B): the `br / 2` whole samples are processed in
place, a trailing odd byte stays as the device delivered it. -/
def inPlace {σ : Type} (stage : σ → List Int → List Int × σ) (sig : σ) (raw : List Nat) :
    List Nat × σ :=
  let r := stage sig (bytesToSamples raw)
  (samplesToBytes r.1 ++ raw.drop (2 * (raw.length / 2)), r.2)

/-- How one pass through the loop body ends: at the closing brace or a `continue`
(`next`), or at a `return` (`stop`, the file already closed). -/
inductive BodyOut (σ : Type) where
  | next (st : LoopState σ)
  | stop (r : RecResult) (st : LoopState σ)

/-- The head-drop step of the loop body: `advance`, the bytes of a `br`-byte block that
the pending budget `dropBytes` consumes. -/
def advanceOf (br dropBytes : Nat) : Nat :=
  if dropBytes > 0 then (if br ≤ dropBytes then br else dropBytes) else 0

/-- The end-cut step of the loop body: `to_write`. -/
def toWriteOf (avail remain : Nat) : Nat := if avail > remain then remain else avail

/-- The second half of the loop body, after the signal stage left the block `buf` (of
`br` bytes) and the filter state `sig`: head drop, cut at the end, write, count. -/
def trimAndWrite {σ : Type} (totalBytes accept br : Nat) (buf : List Nat) (sig : σ)
    (st : LoopState σ) : BodyOut σ :=
  let advance := advanceOf br st.dropBytes
  let dropBytes := st.dropBytes - advance
  let p := buf.drop advance
  let avail := br - advance
  let remain := totalBytes - st.written
  let to_write := toWriteOf avail remain
  if to_write > 0 then
    let fw := st.f.write (p.take to_write) accept
    if fw.2 ≠ to_write then
      .stop .SdWriteError { f := fw.1.close, written := st.written,
                            dropBytes := dropBytes, sig := sig }
    else
      .next { f := fw.1, written := u32 (st.written + fw.2), dropBytes := dropBytes,
              sig := sig }
  else
    .next { f := st.f, written := st.written, dropBytes := dropBytes, sig := sig }

/-- The body of the `while (written < totalBytes)` loop, shared by
`doRecordingFixedSeconds` and `doRecordingAutoSeconds`, which differ only in the signal
`stage` of the block: read, give up on a hard error, skip a zero-length read, process the
block in place, then trim and write it. -/
def loopBody {σ : Type} (stage : σ → List Int → List Int × σ) (bufBytes totalBytes : Nat)
    (ev : ReadEvent) (st : LoopState σ) : BodyOut σ :=
  if ev.err then .stop .I2sReadError { st with f := st.f.close }
  else
    let raw := ev.bytes.take bufBytes
    let br := raw.length
    if br = 0 then .next st
    else
      let r := inPlace stage st.sig raw
      trimAndWrite totalBytes ev.accept br r.1 r.2 st

/-- The `while (written < totalBytes)` loop over a script of capture reads. -/
def recordLoop {σ : Type} (stage : σ → List Int → List Int × σ) (bufBytes totalBytes : Nat) :
    List ReadEvent → LoopState σ → LoopOut σ
  | [], st => if st.written < totalBytes then .running st else .finished st
  | ev :: rest, st =>
    if st.written < totalBytes then
      match loopBody stage bufBytes totalBytes ev st with
      | .next st1 => recordLoop stage bufBytes totalBytes rest st1
      | .stop r st1 => .failed r st1
    else .finished st

/-- What a recording call leaves behind: the result code, the file on the card (`none`
when none was created), the caller's `outPath` and `outBytes` cells (`none` for a null
pointer), and the DC blocker memory. -/
structure Outcome (K : Type) where
  result : RecResult
  file : Option File
  outPath : Option String
  outBytes : Option Nat
  dc : DcState K

/-- `totalBytes` of the recorders: `sampleRate * recSeconds * channels * bytesPerSample`
in `uint32_t`. -/
def totalBytes (s : SessionConfig) (recSeconds : Nat) : Nat :=
  u32 (u32 (u32 (s.sampleRate * recSeconds) * s.channels) * (s.bitsPerSamp / 8))

/-- The initial `dropBytes` of the recorders:
`(dropHeadMs * sampleRate / 1000) * channels * bytesPerSample` in `uint32_t`. -/
def dropBytes (s : SessionConfig) : Nat :=
  u32 (u32 (u32 (s.dropHeadMs * s.sampleRate) / 1000 * s.channels) * (s.bitsPerSamp / 8))

/-- `bufBytes` of the recorders: `blockSamples * sizeof(int16_t)`. -/
def bufBytes (s : SessionConfig) : Nat := u32 (s.blockSamples * 2)

section Recorders

variable {K : Type} [LinearOrderedField K] [FloorRing K]

/-- Steps (A) and (B) of `doRecordingFixedSeconds` on one block. -/
def fixedStage (m : Libm K) (alpha : K) (g : FixedGainConfig K) :
    DcState K → List Int → List Int × DcState K :=
  fun dc io =>
    let r := dcBlocker alpha dc io
    (applyFixedGain r.1 (db2lin m g.gainDb), r.2)

/-- Steps (A) to (C) of `doRecordingAutoSeconds` on one block; the state is the DC memory
and `agc_lin_gain`. -/
def autoStage (m : Libm K) (alpha : K) (a : AgcConfig K) (fs : Nat) :
    DcState K × K → List Int → List Int × (DcState K × K) :=
  fun st io =>
    let r := dcBlocker alpha st.1 io
    let rms := block_rms m r.1
    let gain := agc_update_gain m st.2 rms a io.length fs
    (applyFixedGain r.1 gain, (r.2, gain))

/-- `doRecordingFixedSeconds`. The result is `none` when the script of reads ends while
the loop still waits for data. `dcPrior` is the DC blocker memory before the call. -/
def doRecordingFixedSeconds (m : Libm K) (env : Env) (dcPrior : DcState K) (recSeconds : Nat)
    (s : SessionConfig) (g : FixedGainConfig K) (outPath : Option String)
    (outBytes : Option Nat) : Option (Outcome K) :=
  if !env.openOk then some ⟨.FileOpenError, none, outPath, outBytes, dcPrior⟩
  else
    let fw := File.create.write (List.replicate 44 0) env.hdrAccept
    if fw.2 ≠ 44 then some ⟨.HeaderPlaceWriteError, some fw.1.close, outPath, outBytes, dcPrior⟩
    else
      let dcAlpha : K := dc_alpha_for s.sampleRate
      match recordLoop (fixedStage m dcAlpha g) (bufBytes s) (totalBytes s recSeconds)
          env.reads ⟨fw.1, 0, dropBytes s, dcReset⟩ with
      | .running _ => none
      | .failed r st => some ⟨r, some st.f, outPath, outBytes, st.sig⟩
      | .finished st =>
        let f := writeWavHeader st.f s.sampleRate s.bitsPerSamp s.channels
        some ⟨.Success, some f.close, outPath.map (fun _ => env.path),
              outBytes.map (fun _ => st.written), st.sig⟩

/-- `doRecordingAutoSeconds`. The result is `none` when the script of reads ends while
the loop still waits for data. `dcPrior` is the DC blocker memory before the call. -/
def doRecordingAutoSeconds (m : Libm K) (env : Env) (dcPrior : DcState K) (recSeconds : Nat)
    (s : SessionConfig) (a : AgcConfig K) (outPath : Option String)
    (outBytes : Option Nat) : Option (Outcome K) :=
  if !env.openOk then some ⟨.FileOpenError, none, outPath, outBytes, dcPrior⟩
  else
    let fw := File.create.write (List.replicate 44 0) env.hdrAccept
    if fw.2 ≠ 44 then some ⟨.HeaderPlaceWriteError, some fw.1.close, outPath, outBytes, dcPrior⟩
    else
      let agc_lin_gain : K := 1
      let dcAlpha : K := dc_alpha_for s.sampleRate
      match recordLoop (autoStage m dcAlpha a s.sampleRate) (bufBytes s)
          (totalBytes s recSeconds) env.reads ⟨fw.1, 0, dropBytes s, (dcReset, agc_lin_gain)⟩ with
      | .running _ => none
      | .failed r st => some ⟨r, some st.f, outPath, outBytes, st.sig.1⟩
      | .finished st =>
        let f := writeWavHeader st.f s.sampleRate s.bitsPerSamp s.channels
        some ⟨.Success, some f.close, outPath.map (fun _ => env.path),
              outBytes.map (fun _ => st.written), st.sig.1⟩

/-- The process-wide defaults `g_defSession`, `g_defFixedGain`, `g_defAgc`. -/
structure Defaults (K : Type) where
  session : SessionConfig
  fixedGain : FixedGainConfig K
  agc : AgcConfig K

/-- `recordingFixedEx(recSeconds, sessionOpt, gainOpt, outPath, outBytes)`. -/
def recordingFixedEx (m : Libm K) (env : Env) (d : Defaults K) (dcPrior : DcState K)
    (recSeconds : Nat) (sessionOpt : Option SessionConfig)
    (gainOpt : Option (FixedGainConfig K)) (outPath : Option String)
    (outBytes : Option Nat) : Option (Outcome K) :=
  let s := match sessionOpt with | some x => x | none => d.session
  let g := match gainOpt with | some x => x | none => d.fixedGain
  doRecordingFixedSeconds m env dcPrior recSeconds s g outPath outBytes

/-- `recordingAutoEx`. -/
def recordingAutoEx (m : Libm K) (env : Env) (d : Defaults K) (dcPrior : DcState K)
    (recSeconds : Nat) (sessionOpt : Option SessionConfig)
    (agcOpt : Option (AgcConfig K)) (outPath : Option String)
    (outBytes : Option Nat) : Option (Outcome K) :=
  let s := match sessionOpt with | some x => x | none => d.session
  let a := match agcOpt with | some x => x | none => d.agc
  doRecordingAutoSeconds m env dcPrior recSeconds s a outPath outBytes

/-- `recordingAuto`. -/
def recordingAuto (m : Libm K) (env : Env) (d : Defaults K) (dcPrior : DcState K)
    (recSeconds : Nat) (outPath : Option String) (outBytes : Option Nat) :
    Option (Outcome K) :=
  doRecordingAutoSeconds m env dcPrior recSeconds d.session d.agc outPath outBytes

/-- `recording(recSeconds, outPath, outBytes)`. -/
def recording (m : Libm K) (env : Env) (d : Defaults K) (dcPrior : DcState K)
    (recSeconds : Nat) (outPath : Option String) (outBytes : Option Nat) :
    Option (Outcome K) :=
  recordingAuto m env d dcPrior recSeconds outPath outBytes

/-- `recording(recSeconds)`. -/
def recording1 (m : Libm K) (env : Env) (d : Defaults K) (dcPrior : DcState K)
    (recSeconds : Nat) : Option (Outcome K) :=
  recording m env d dcPrior recSeconds none none

/-- The four-argument overload `recordingFixedEx(sessionOpt, gainOpt, outPath, outBytes)`
(`mic.cpp` lines 273-330): it checks the format, opens the file, writes the placeholder
and returns (the handle is closed when it goes out of scope). It is the one place where
the format is checked. -/
def recordingFixedEx4 (env : Env) (d : Defaults K) (dcPrior : DcState K)
    (sessionOpt : Option SessionConfig) (outPath : Option String) (outBytes : Option Nat) :
    Outcome K :=
  let s := match sessionOpt with | some x => x | none => d.session
  if s.bitsPerSamp ≠ 16 ∨ s.channels ≠ 1 then
    ⟨.HeaderPlaceWriteError, none, outPath, outBytes, dcPrior⟩
  else if !env.openOk then ⟨.FileOpenError, none, outPath, outBytes, dcPrior⟩
  else
    let fw := File.create.write (List.replicate 44 0) env.hdrAccept
    if fw.2 ≠ 44 then ⟨.HeaderPlaceWriteError, some fw.1.close, outPath, outBytes, dcPrior⟩
    else ⟨.Success, some fw.1.close, outPath, outBytes, dcReset⟩

end Recorders

/-! ## The byte stream of a script (specification side) -/

/-- The processed byte stream of a script of reads: the in-place processed blocks of the
non-empty reads, in order, with the filter state carried from block to block. The stream
ends at a read that reports a hard error. -/
def processedStream {σ : Type} (stage : σ → List Int → List Int × σ) (bufBytes : Nat) :
    σ → List ReadEvent → List Nat
  | _, [] => []
  | sig, ev :: rest =>
    if ev.err then []
    else if (ev.bytes.take bufBytes).length = 0 then processedStream stage bufBytes sig rest
    else
      let r := inPlace stage sig (ev.bytes.take bufBytes)
      r.1 ++ processedStream stage bufBytes r.2 rest

/-- A signal stage maps a block of samples to a block of the same length. -/
def LengthPreserving {σ : Type} (stage : σ → List Int → List Int × σ) : Prop :=
  ∀ sig xs, (stage sig xs).1.length = xs.length

/-- The block a read contributes to the stream, and the filter state after it: nothing
and the state unchanged for a zero-length read. -/
def blockOf {σ : Type} (stage : σ → List Int → List Int × σ) (bufBytes : Nat) (sig : σ)
    (ev : ReadEvent) : List Nat × σ :=
  if (ev.bytes.take bufBytes).length = 0 then ([], sig)
  else inPlace stage sig (ev.bytes.take bufBytes)

/-- The invariant of the block loop: the write position is the end of the file, the file
is the 44-byte zero placeholder followed by the `written` data bytes, `written` does not
exceed the target, and the handle is open. -/
structure LoopInv {σ : Type} (total : Nat) (st : LoopState σ) : Prop where
  pos_end : st.f.pos = st.f.data.length
  len : st.f.data.length = 44 + st.written
  le : st.written ≤ total
  hdr : st.f.data.take 44 = List.replicate 44 0
  opened : st.f.isOpen = true

/-- The file right after the 44-byte placeholder went in whole. -/
def placeholderFile : File := { data := List.replicate 44 0, pos := 44, isOpen := true }

/-- The filter as the specification words it: `y[i] = (x[i] - x[i-1]) + alpha * y[i-1]`
with `x[-1] = x1` and `y[-1] = y1`, over the samples of a block (unclamped). -/
def dcSpecY {K : Type} [LinearOrderedField K] (alpha x1 y1 : K) (x : List Int) : Nat → K
  | 0 => ((x.getD 0 0 : Int) : K) - x1 + alpha * y1
  | i + 1 => ((x.getD (i + 1) 0 : Int) : K) - ((x.getD i 0 : Int) : K) +
      alpha * dcSpecY alpha x1 y1 x i

/-- The loop state a loop outcome carries. -/
def LoopOut.state {σ : Type} : LoopOut σ → LoopState σ
  | .running st => st
  | .finished st => st
  | .failed _ st => st

/-- The filter state after the reads of a script, carried from block to block without a
reset (a zero-length read leaves it as it is). -/
def sigAfter {σ : Type} (stage : σ → List Int → List Int × σ) (bufBytes : Nat) :
    σ → List ReadEvent → σ
  | sig, [] => sig
  | sig, ev :: rest => sigAfter stage bufBytes (blockOf stage bufBytes sig ev).2 rest

/-- All samples the reads of a script deliver, in order, as one block. -/
def samplesOf (bufBytes : Nat) : List ReadEvent → List Int
  | [] => []
  | ev :: rest => bytesToSamples (ev.bytes.take bufBytes) ++ samplesOf bufBytes rest

/-! ## binary32 rounding

The `float` of the target is IEEE 754 binary32: 24 significant bits, exponents from -126
to 127, subnormal values below `2^-126`. `f32` rounds a rational to the nearest such
value, ties to the one with an even significand; the finite range is assumed (a value
beyond the largest binary32 value is rounded on the same grid, not sent to infinity). -/

/-- Rounding of a rational to the nearest integer, ties to the even one. -/
def rne (q : ℚ) : ℤ :=
  if q - ⌊q⌋ < 1 / 2 then ⌊q⌋
  else if 1 / 2 < q - ⌊q⌋ then ⌊q⌋ + 1
  else if ⌊q⌋ % 2 = 0 then ⌊q⌋ else ⌊q⌋ + 1

/-- The floor of the base-2 logarithm of a natural number by repeated halving, with a
bound on the number of steps. -/
def log2Fuel : Nat → Nat → Nat
  | 0, _ => 0
  | fuel + 1, n => if n < 2 then 0 else log2Fuel fuel (n / 2) + 1

/-- The floor of the base-2 logarithm of a natural number (0 at 0). -/
def nlog2 (n : Nat) : Nat := log2Fuel n n

/-- The floor of the base-2 logarithm of a positive rational. -/
def ilog2 (x : ℚ) : ℤ :=
  let e0 : ℤ := (nlog2 x.num.toNat : ℤ) - (nlog2 x.den : ℤ)
  if (2 : ℚ) ^ e0 ≤ x then e0 else e0 - 1

/-- The binary32 exponent of a non-negative rational: subnormals share the exponent -126. -/
def expo32 (x : ℚ) : ℤ := max (-126) (ilog2 x)

/-- The spacing of binary32 values around a non-negative rational. -/
def ulp32 (x : ℚ) : ℚ := (2 : ℚ) ^ (expo32 x - 23)

/-- Rounding of a non-negative rational to binary32. -/
def rpos32 (x : ℚ) : ℚ := (rne (x / ulp32 x) : ℚ) * ulp32 x

/-- Rounding to binary32, to nearest, ties to even (finite range). -/
def f32 (x : ℚ) : ℚ := if 0 ≤ x then rpos32 x else -rpos32 (-x)

/-- The laws of a rounding `rnd` with unit roundoff `u` and underflow threshold `tiny`
that the theorems on the rounded signal chain use: rounding is monotone, odd and
idempotent, it enlarges a magnitude by at most the factor `1 + u` (or keeps it below
`tiny`), and it shrinks a non-negative value by at most the factor `1 - u` (up to
`tiny`). The identity is such a rounding with `u = tiny = 0`, binary32 rounding is one
with `u = 2^-24`, `tiny = 2^-126`. -/
structure RoundsLike {K : Type} [LinearOrderedField K] (rnd : K → K) (u tiny : K) :
    Prop where
  mono : Monotone rnd
  odd : ∀ x, rnd (-x) = -rnd x
  idem : ∀ x, rnd (rnd x) = rnd x
  rel : ∀ x, |rnd x| ≤ max ((1 + u) * |x|) tiny
  low : ∀ x, 0 ≤ x → (1 - u) * x - tiny ≤ rnd x
  u_nonneg : 0 ≤ u
  tiny_nonneg : 0 ≤ tiny

section DspRounded

variable {K : Type} [LinearOrderedField K] [FloorRing K]

/-! ## Signal chain in `float` arithmetic

The functions of the signal chain once more, now with the result of every `float`
operation of the source passed through a rounding `rnd`: with `rnd = f32` this is the
arithmetic of the target (each operation rounded on its own, no fused multiply-add),
with `rnd = id` it is the exact arithmetic of the definitions above. The samples
`(float)io[i]` and the integer constants (`32767.0f`, `1000.0f`, `20.0f`, `1.0f`) are
binary32 values and carry no rounding (`f32_intCast`); negation and `fabsf` are exact. -/

/-- `db2lin` in `float` arithmetic: `powf(10.0f, db / 20.0f)`. -/
def db2linR (rnd : K → K) (m : Libm K) (db : K) : K := m.powf 10 (rnd (db / 20))

/-- `dc_alpha_for` in `float` arithmetic: the literals `0.990f`, `0.9975f`, `0.995f`. -/
def dc_alpha_forR (rnd : K → K) (fs : Nat) : K :=
  if fs ≤ 8000 then rnd (990 / 1000)
  else if fs ≥ 48000 then rnd (9975 / 10000)
  else rnd (995 / 1000)

/-- `dcBlocker` in `float` arithmetic: `y = (x - x1) + alpha * y1` is a rounded
difference, a rounded product and a rounded sum. -/
def dcBlockerR (rnd : K → K) (alpha : K) : DcState K → List Int → List Int × DcState K
  | st, [] => ([], st)
  | st, s :: rest =>
    let x : K := (s : K)
    let y : K := rnd (rnd (x - st.x1) + rnd (alpha * st.y1))
    let r := dcBlockerR rnd alpha ⟨x, y⟩ rest
    (saturate_s16 y :: r.1, r.2)

/-- The first loop of `applyFixedGain` in `float` arithmetic:
`fabsf((float)io[i] * gainLin)`. -/
def gainPeakR (rnd : K → K) (gainLin : K) : List Int → K → K
  | [], peak => peak
  | s :: rest, peak =>
    let a : K := |rnd ((s : K) * gainLin)|
    gainPeakR rnd gainLin rest (if a > peak then a else peak)

/-- The limiter threshold `PCM16_MAX_F * 0.98f` as a `float`. -/
def LIMIT_THRESH_R (rnd : K → K) : K := rnd (32767 * rnd (98 / 100))

/-- The gain `applyFixedGain` applies after its peak check, in `float` arithmetic:
`gainLin *= (LIMIT_THRESH / (peak + 1e-12f))`. -/
def limitedGainR (rnd : K → K) (io : List Int) (gainLin : K) : K :=
  let peak := gainPeakR rnd gainLin io 0
  if peak > LIMIT_THRESH_R rnd then
    rnd (gainLin * rnd (LIMIT_THRESH_R rnd / rnd (peak + rnd (1 / 10 ^ 12))))
  else gainLin

/-- `applyFixedGain` in `float` arithmetic: `saturate_s16((float)io[i] * gainLin)`. -/
def applyFixedGainR (rnd : K → K) (io : List Int) (gainLin : K) : List Int :=
  let g := limitedGainR rnd io gainLin
  io.map (fun (s : Int) => saturate_s16 (rnd ((s : K) * g)))

/-- `one_pole_coeff_ms` in `float` arithmetic; `fs` is the `float` the caller passes. -/
def one_pole_coeff_msR (rnd : K → K) (m : Libm K) (ms fs : K) (blockSamples : Nat) : K :=
  let blockTms : K := rnd (rnd (rnd (blockSamples : K) / fs) * 1000)
  let tau : K := if ms ≤ 0 then rnd (1 / 1000) else ms
  let a : K := m.expf (rnd (-blockTms / tau))
  let a : K := if a < 0 then 0 else a
  if a > 1 then 1 else a

/-- The gain the block asks for in `agc_update_gain`, after the clamp to the bounds, in
`float` arithmetic. -/
def agcNeededR (rnd : K → K) (m : Libm K) (blockRms : K) (agc : AgcConfig K) : K :=
  let targetPeak : K := rnd (db2linR rnd m agc.targetPeakDbFS * 32767)
  let needed : K :=
    if blockRms > 1 then rnd (targetPeak / blockRms) else db2linR rnd m agc.maxGainDb
  let maxLin : K := db2linR rnd m agc.maxGainDb
  let minLin : K := db2linR rnd m agc.minGainDb
  let needed : K := if needed > maxLin then maxLin else needed
  if needed < minLin then minLin else needed

/-- The smoothing coefficient `a` of `agc_update_gain` in `float` arithmetic. -/
def agcCoeffR (rnd : K → K) (m : Libm K) (currentLinGain blockRms : K) (agc : AgcConfig K)
    (blockSamples fs : Nat) : K :=
  let gateThresh : K := rnd (db2linR rnd m agc.noiseGateDbFS * 32767)
  let gated : Bool := decide (blockRms < gateThresh)
  let needed : K := agcNeededR rnd m blockRms agc
  let a_att : K := one_pole_coeff_msR rnd m agc.attackMs (rnd (fs : K)) blockSamples
  let a_rel : K := one_pole_coeff_msR rnd m agc.releaseMs (rnd (fs : K)) blockSamples
  let a_gate : K := one_pole_coeff_msR rnd m agc.gateReleaseMs (rnd (fs : K)) blockSamples
  let a : K := if needed < currentLinGain then a_att else a_rel
  if gated then (if a > a_gate then a else a_gate) else a

/-- The blend `a * currentLinGain + (1.0f - a) * needed` in `float` arithmetic: two
rounded products, a rounded difference and a rounded sum. -/
def agcBlendR (rnd : K → K) (a currentLinGain needed : K) : K :=
  rnd (rnd (a * currentLinGain) + rnd (rnd (1 - a) * needed))

/-- `agc_update_gain` in `float` arithmetic. -/
def agc_update_gainR (rnd : K → K) (m : Libm K) (currentLinGain blockRms : K)
    (agc : AgcConfig K) (blockSamples fs : Nat) : K :=
  let maxLin : K := db2linR rnd m agc.maxGainDb
  let minLin : K := db2linR rnd m agc.minGainDb
  let needed : K := agcNeededR rnd m blockRms agc
  let a : K := agcCoeffR rnd m currentLinGain blockRms agc blockSamples fs
  let next : K := agcBlendR rnd a currentLinGain needed
  let next : K := if next > maxLin then maxLin else next
  if next < minLin then minLin else next

/-- The filter recurrence as the code computes it:
`y[i] = rnd (rnd (x[i] - x[i-1]) + rnd (alpha * y[i-1]))` with `x[-1] = x1` and
`y[-1] = y1`, over the samples of a block (unclamped). With `rnd = id` it is `dcSpecY`. -/
def dcSpecYR (rnd : K → K) (alpha x1 y1 : K) (x : List Int) : Nat → K
  | 0 => rnd (rnd (((x.getD 0 0 : Int) : K) - x1) + rnd (alpha * y1))
  | i + 1 => rnd (rnd (((x.getD (i + 1) 0 : Int) : K) - ((x.getD i 0 : Int) : K)) +
      rnd (alpha * dcSpecYR rnd alpha x1 y1 x i))

/-- The filter outputs on a constant input `c` from the reset state as the code computes
them: `y[0] = rnd c` and `y[i+1] = rnd (alpha * y[i])`. With `rnd = id` this is
`alpha^i * c`. -/
def dcConstY (rnd : K → K) (alpha : K) (c : Int) : Nat → K
  | 0 => rnd (c : K)
  | i + 1 => rnd (alpha * dcConstY rnd alpha c i)

end DspRounded

/-! ## Sample data for evaluating the model -/

/-- A fixed gain of 0 dB. -/
def qFixed : FixedGainConfig ℚ := ⟨0⟩

/-- The default AGC configuration of `mic.h`. -/
def qAgc : AgcConfig ℚ := ⟨-3, 36, 0, 50, 500, -60, 1000⟩

/-- A successful capture read of the given bytes, followed by a write the card accepts
whole. -/
def okRead (bs : List Nat) : ReadEvent := ⟨false, bs, bs.length⟩

/-- A successful capture read of `n` zero bytes. -/
def silence (n : Nat) : ReadEvent := okRead (List.replicate n 0)

/-- A card on which the file opens and the placeholder goes in whole. -/
def okEnv (reads : List ReadEvent) : Env := ⟨"/audio/REC0001.WAV", true, 44, reads⟩

/-- An AGC configuration whose levels are whole powers of ten: target peak 0 dBFS, gain
bounds 0 dB and 40 dB, noise gate -60 dBFS, and the time constants of `mic.h`. -/
def qAgc0 : AgcConfig ℚ := ⟨0, 40, 0, 50, 500, -60, 1000⟩

/-- The C library in binary32 at the arguments the examples use. `powf 10 e` is the
binary32 value nearest to `10^e` at every integer `e` (`b ^ ⌊e⌋` rounded elsewhere, a
stand-in). `expf` is tabulated at `-5/2`, `-1/4` and `-1/8` with the binary32 values
nearest to `e^(-5/2) = 0.0820849986...`, `e^(-1/4) = 0.7788007830...` and
`e^(-1/8) = 0.8824969025...`; elsewhere it is a stand-in. `sqrtf` is the integer square
root of the floor, a stand-in. -/
def f32Libm : Libm ℚ where
  powf := fun b e => f32 (b ^ ⌊e⌋)
  expf := fun x =>
    if x = -5 / 2 then 5508631 / 67108864
    else if x = -1 / 4 then 13066109 / 16777216
    else if x = -1 / 8 then 14805841 / 16777216
    else if x ≤ 0 then f32 (1 / (1 - x)) else 1
  sqrtf := fun x => (Nat.sqrt ⌊x⌋.toNat : ℚ)

/-- The C library in binary32 at the arguments of the default AGC configuration `qAgc`:
as `f32Libm`, with `powf 10` tabulated at `-0.15f` (`-3 / 20` rounded) and at `1.8f`
(`36 / 20` rounded) with the binary32 values nearest to `10^(-0.15f) = 0.7079457746...`
and `10^(1.8f) = 63.0957275...`. -/
def f32LibmDb : Libm ℚ where
  powf := fun b e =>
    if b = 10 ∧ e = -5033165 / 33554432 then 11877359 / 16777216
    else if b = 10 ∧ e = 7549747 / 4194304 then 8270083 / 131072
    else f32Libm.powf b e
  expf := f32Libm.expf
  sqrtf := f32Libm.sqrtf

/-! ## Lemmas: bytes and blocks -/

theorem samplesToBytes_length (xs : List Int) : (samplesToBytes xs).length = 2 * xs.length := by
  induction xs with
  | nil => rfl
  | cons x rest ih =>
    simp only [samplesToBytes, List.length_append, ih, encodeS16, le16, List.length_cons,
      List.length_nil]
    omega

theorem bytesToSamples_length : ∀ bs : List Nat, (bytesToSamples bs).length = bs.length / 2
  | [] => rfl
  | [_] => by simp [bytesToSamples]
  | _ :: _ :: rest => by
    simp only [bytesToSamples, List.length_cons, bytesToSamples_length rest]
    omega

theorem inPlace_length {σ : Type} {stage : σ → List Int → List Int × σ}
    (hlen : LengthPreserving stage) (sig : σ) (raw : List Nat) :
    (inPlace stage sig raw).1.length = raw.length := by
  simp only [inPlace, List.length_append, samplesToBytes_length, hlen sig,
    bytesToSamples_length, List.length_drop]
  omega

section StageLemmas

variable {K : Type} [LinearOrderedField K] [FloorRing K]

theorem dcBlocker_length (alpha : K) :
    ∀ (xs : List Int) (st : DcState K), (dcBlocker alpha st xs).1.length = xs.length
  | [], _ => rfl
  | _ :: rest, _ => by
    simp only [dcBlocker, List.length_cons, dcBlocker_length alpha rest]

theorem applyFixedGain_length (io : List Int) (g : K) :
    (applyFixedGain io g).length = io.length := by
  simp [applyFixedGain]

theorem fixedStage_lengthPreserving (m : Libm K) (alpha : K) (g : FixedGainConfig K) :
    LengthPreserving (fixedStage m alpha g) := by
  intro sig xs
  simp [fixedStage, applyFixedGain_length, dcBlocker_length]

theorem autoStage_lengthPreserving (m : Libm K) (alpha : K) (a : AgcConfig K) (fs : Nat) :
    LengthPreserving (autoStage m alpha a fs) := by
  intro sig xs
  simp [autoStage, applyFixedGain_length, dcBlocker_length]

end StageLemmas

/-! ## Lemmas: storage -/

theorem File.write_at_end (f : File) (buf : List Nat) (accept : Nat)
    (hpos : f.pos = f.data.length) :
    (f.write buf accept).1.data = f.data ++ buf.take (min buf.length accept) ∧
    (f.write buf accept).1.pos = (f.write buf accept).1.data.length ∧
    (f.write buf accept).1.isOpen = f.isOpen ∧
    (f.write buf accept).2 = min buf.length accept := by
  simp only [File.write, hpos, List.take_length, List.length_append, List.length_take,
    and_true, true_and]
  have h : List.drop (f.data.length + min buf.length accept) f.data = [] :=
    List.drop_eq_nil_of_le (Nat.le_add_right _ _)
  rw [h]
  simp

/-- The chunk of a block that reaches the file: what is left of the block after the
pending head-drop budget `drop`, cut to the `remain` bytes still missing. -/
theorem take_drop_block (blk rest : List Nat) (drop remain : Nat) :
    ((blk ++ rest).drop drop).take remain =
      (blk.drop drop).take remain ++
        ((rest.drop (drop - blk.length)).take (remain - ((blk.drop drop).take remain).length)) := by
  rw [List.drop_append_eq_append_drop, List.take_append_eq_append_take]
  congr 2
  simp only [List.length_take, List.length_drop]
  omega

/-! ## Lemmas: the block loop -/

theorem processedStream_cons {σ : Type} (stage : σ → List Int → List Int × σ) (bufBytes : Nat)
    (sig : σ) (ev : ReadEvent) (rest : List ReadEvent) (h : ev.err = false) :
    processedStream stage bufBytes sig (ev :: rest) =
      (blockOf stage bufBytes sig ev).1 ++
        processedStream stage bufBytes (blockOf stage bufBytes sig ev).2 rest := by
  rw [processedStream]
  by_cases hz : (ev.bytes.take bufBytes).length = 0
  · simp only [h, blockOf, if_pos hz, Bool.false_eq_true, if_false, List.nil_append]
  · simp only [h, blockOf, if_neg hz, Bool.false_eq_true, if_false]

theorem advanceOf_eq_min (br d : Nat) : advanceOf br d = min br d := by
  unfold advanceOf
  split_ifs <;> omega

theorem toWriteOf_eq_min (a r : Nat) : toWriteOf a r = min a r := by
  unfold toWriteOf
  split_ifs <;> omega

/-- What the trim steps select from a block is the block without the pending head drop,
cut to the bytes still missing. -/
theorem trim_chunk (buf : List Nat) (d r : Nat) :
    List.take (min (buf.length - min buf.length d) r) (List.drop (min buf.length d) buf) =
      List.take r (List.drop d buf) := by
  by_cases hd : d ≤ buf.length
  · rw [Nat.min_eq_right hd, List.take_eq_take, List.length_drop]
    omega
  · have h1 : buf.length ≤ d := by omega
    rw [Nat.min_eq_left h1, List.drop_eq_nil_of_le (Nat.le_refl _), List.drop_eq_nil_of_le h1]
    simp

theorem trim_chunk_length (buf : List Nat) (d r : Nat) :
    (List.take r (List.drop d buf)).length = min (buf.length - min buf.length d) r := by
  simp only [List.length_take, List.length_drop]
  omega

theorem trimAndWrite_next {σ : Type} {total accept : Nat} (htot : total < 2 ^ 32)
    (buf : List Nat) (sig : σ) (st st1 : LoopState σ) (hinv : LoopInv total st)
    (h : trimAndWrite total accept buf.length buf sig st = .next st1) :
    st1.sig = sig ∧
    st1.dropBytes = st.dropBytes - buf.length ∧
    st1.f.data = st.f.data ++ ((buf.drop st.dropBytes).take (total - st.written)) ∧
    st1.written = st.written + ((buf.drop st.dropBytes).take (total - st.written)).length ∧
    st1.f.pos = st1.f.data.length ∧ st1.f.isOpen = st.f.isOpen := by
  unfold trimAndWrite at h
  simp only [advanceOf_eq_min, toWriteOf_eq_min, trim_chunk] at h
  have hlenc := trim_chunk_length buf st.dropBytes (total - st.written)
  obtain ⟨hw1, hw2, hw3, hw4⟩ := File.write_at_end st.f
    (List.take (total - st.written) (List.drop st.dropBytes buf)) accept hinv.pos_end
  have hle := hinv.le
  split_ifs at h with h0 h1
  · injection h with h
    subst h
    simp only [hw1, hw2, hw3, true_and]
    have h2 : (st.f.write (List.take (total - st.written) (List.drop st.dropBytes buf))
        accept).2 = min (buf.length - min buf.length st.dropBytes) (total - st.written) := by
      by_contra hc
      exact h1 hc
    have h3 : min (List.take (total - st.written) (List.drop st.dropBytes buf)).length accept
        = (List.take (total - st.written) (List.drop st.dropBytes buf)).length := by
      rw [hw4] at h2
      omega
    rw [h3, List.take_length]
    refine ⟨by omega, rfl, ?_, trivial⟩
    rw [hw4, h3, u32]
    apply Nat.mod_eq_of_lt
    rw [hlenc]
    omega
  · injection h with h
    subst h
    have h2 : (List.take (total - st.written) (List.drop st.dropBytes buf)).length = 0 := by
      omega
    have h3 : List.take (total - st.written) (List.drop st.dropBytes buf) = [] :=
      List.length_eq_zero.mp h2
    simp only [h3, List.append_nil, List.length_nil, Nat.add_zero, true_and]
    exact ⟨by omega, hinv.pos_end, trivial⟩

theorem take44_append (data extra : List Nat) (hlen : 44 ≤ data.length) :
    (data ++ extra).take 44 = data.take 44 := by
  rw [List.take_append_eq_append_take]
  have h : 44 - data.length = 0 := by omega
  simp [h]

theorem trimAndWrite_stop {σ : Type} {total accept : Nat}
    (buf : List Nat) (sig : σ) (st st1 : LoopState σ) (r : RecResult) (hinv : LoopInv total st)
    (h : trimAndWrite total accept buf.length buf sig st = .stop r st1) :
    r = .SdWriteError ∧ st1.f.isOpen = false ∧
    st1.f.data.take 44 = List.replicate 44 0 := by
  unfold trimAndWrite at h
  obtain ⟨hw1, -, -, -⟩ := File.write_at_end st.f
    (List.take (toWriteOf (buf.length - advanceOf buf.length st.dropBytes) (total - st.written))
      (List.drop (advanceOf buf.length st.dropBytes) buf)) accept hinv.pos_end
  simp only [] at h
  split_ifs at h with h0 h1
  injection h with hr hs
  subst hs
  refine ⟨hr.symm, rfl, ?_⟩
  simp only [File.close, hw1]
  rw [take44_append _ _ (by have := hinv.len; omega)]
  exact hinv.hdr

theorem loopBody_next {σ : Type} {stage : σ → List Int → List Int × σ}
    (hlen : LengthPreserving stage) {bufBytes total : Nat} (htot : total < 2 ^ 32)
    (ev : ReadEvent) (st st1 : LoopState σ) (hinv : LoopInv total st)
    (h : loopBody stage bufBytes total ev st = .next st1) :
    ev.err = false ∧
    st1.sig = (blockOf stage bufBytes st.sig ev).2 ∧
    st1.dropBytes = st.dropBytes - (blockOf stage bufBytes st.sig ev).1.length ∧
    st1.f.data = st.f.data ++
      (((blockOf stage bufBytes st.sig ev).1.drop st.dropBytes).take (total - st.written)) ∧
    st1.written = st.written +
      (((blockOf stage bufBytes st.sig ev).1.drop st.dropBytes).take (total - st.written)).length ∧
    st1.f.pos = st1.f.data.length ∧ st1.f.isOpen = st.f.isOpen := by
  unfold loopBody at h
  by_cases herr : ev.err = true
  · simp [herr] at h
  · have herr1 : ev.err = false := by simpa using herr
    simp only [herr1, Bool.false_eq_true, if_false] at h
    by_cases hz : (ev.bytes.take bufBytes).length = 0
    · simp only [hz, if_true] at h
      injection h with h
      subst h
      simp only [blockOf, if_pos hz, List.drop_nil, List.take_nil, List.append_nil,
        List.length_nil, Nat.sub_zero, Nat.add_zero, true_and]
      exact ⟨herr1, hinv.pos_end, trivial⟩
    · simp only [if_neg hz] at h
      rw [← inPlace_length hlen st.sig (ev.bytes.take bufBytes)] at h
      have := trimAndWrite_next htot _ _ st st1 hinv h
      simp only [blockOf, if_neg hz]
      exact ⟨herr1, this⟩

theorem loopBody_stop {σ : Type} {stage : σ → List Int → List Int × σ}
    (hlen : LengthPreserving stage) {bufBytes total : Nat}
    (ev : ReadEvent) (st st1 : LoopState σ) (r : RecResult) (hinv : LoopInv total st)
    (h : loopBody stage bufBytes total ev st = .stop r st1) :
    st1.f.isOpen = false ∧ st1.f.data.take 44 = List.replicate 44 0 ∧
    ((ev.err = true ∧ r = .I2sReadError) ∨ (ev.err = false ∧ r = .SdWriteError)) := by
  unfold loopBody at h
  by_cases herr : ev.err = true
  · simp only [herr, if_true] at h
    injection h with hr hs
    subst hs
    exact ⟨rfl, hinv.hdr, Or.inl ⟨herr, hr.symm⟩⟩
  · have herr1 : ev.err = false := by simpa using herr
    simp only [herr1, Bool.false_eq_true, if_false] at h
    by_cases hz : (ev.bytes.take bufBytes).length = 0
    · simp only [hz, if_true] at h
      injection h
    · simp only [if_neg hz] at h
      rw [← inPlace_length hlen st.sig (ev.bytes.take bufBytes)] at h
      obtain ⟨h1, h2, h3⟩ := trimAndWrite_stop _ _ st st1 r hinv h
      exact ⟨h2, h3, Or.inr ⟨herr1, h1⟩⟩

theorem loopBody_err {σ : Type} (stage : σ → List Int → List Int × σ) (bufBytes total : Nat)
    (ev : ReadEvent) (st : LoopState σ) (herr : ev.err = true) :
    loopBody stage bufBytes total ev st = .stop .I2sReadError { st with f := st.f.close } := by
  unfold loopBody
  simp only [herr, if_true]

theorem loopInv_next {σ : Type} {stage : σ → List Int → List Int × σ}
    (hlen : LengthPreserving stage) {bufBytes total : Nat} (htot : total < 2 ^ 32)
    (ev : ReadEvent) (st st1 : LoopState σ) (hinv : LoopInv total st)
    (h : loopBody stage bufBytes total ev st = .next st1) : LoopInv total st1 := by
  obtain ⟨-, -, -, hd, hw, hp, ho⟩ := loopBody_next hlen htot ev st st1 hinv h
  have hl := hinv.len
  have hle := hinv.le
  refine ⟨hp, ?_, ?_, ?_, ho.trans hinv.opened⟩
  · rw [hd, hw, List.length_append, hl]
    omega
  · rw [hw, List.length_take]
    omega
  · rw [hd, take44_append _ _ (by omega)]
    exact hinv.hdr

theorem recordLoop_finished {σ : Type} {stage : σ → List Int → List Int × σ}
    (hlen : LengthPreserving stage) {bufBytes total : Nat} (htot : total < 2 ^ 32) :
    ∀ (evs : List ReadEvent) (st st2 : LoopState σ), LoopInv total st →
      recordLoop stage bufBytes total evs st = .finished st2 →
      LoopInv total st2 ∧ st2.written = total ∧
      st2.f.data = st.f.data ++
        ((processedStream stage bufBytes st.sig evs).drop st.dropBytes).take
          (total - st.written)
  | [], st, st2, hinv, h => by
    unfold recordLoop at h
    split_ifs at h with hlt
    injection h with h
    subst h
    have hle := hinv.le
    have h0 : total - st.written = 0 := by omega
    exact ⟨hinv, by omega, by simp [h0]⟩
  | ev :: rest, st, st2, hinv, h => by
    unfold recordLoop at h
    split_ifs at h with hlt
    · cases hb : loopBody stage bufBytes total ev st with
      | next st1 =>
        rw [hb] at h
        simp only [] at h
        have hinv1 := loopInv_next hlen htot ev st st1 hinv hb
        obtain ⟨he, hs, hdb, hd, hw, -, -⟩ := loopBody_next hlen htot ev st st1 hinv hb
        obtain ⟨i1, i2, i3⟩ := recordLoop_finished hlen htot rest st1 st2 hinv1 h
        refine ⟨i1, i2, ?_⟩
        rw [i3, hd, processedStream_cons stage bufBytes st.sig ev rest he, take_drop_block,
          List.append_assoc, hs, hdb, hw, Nat.sub_add_eq]
      | stop r st1 =>
        rw [hb] at h
        simp only [] at h
        injection h
    · injection h with h
      subst h
      have hle := hinv.le
      have h0 : total - st.written = 0 := by omega
      exact ⟨hinv, by omega, by simp [h0]⟩

theorem recordLoop_failed {σ : Type} {stage : σ → List Int → List Int × σ}
    (hlen : LengthPreserving stage) {bufBytes total : Nat} (htot : total < 2 ^ 32) :
    ∀ (evs : List ReadEvent) (st st2 : LoopState σ) (r : RecResult), LoopInv total st →
      recordLoop stage bufBytes total evs st = .failed r st2 →
      st2.f.isOpen = false ∧ st2.f.data.take 44 = List.replicate 44 0 ∧
      (r = .I2sReadError ∨ r = .SdWriteError)
  | [], st, st2, r, _, h => by
    unfold recordLoop at h
    split_ifs at h
  | ev :: rest, st, st2, r, hinv, h => by
    unfold recordLoop at h
    split_ifs at h with hlt
    cases hb : loopBody stage bufBytes total ev st with
    | next st1 =>
      rw [hb] at h
      simp only [] at h
      exact recordLoop_failed hlen htot rest st1 st2 r
        (loopInv_next hlen htot ev st st1 hinv hb) h
    | stop r1 st1 =>
      rw [hb] at h
      simp only [] at h
      injection h with hr hs
      subst hr hs
      obtain ⟨h1, h2, h3⟩ := loopBody_stop hlen ev st st1 r1 hinv hb
      refine ⟨h1, h2, ?_⟩
      rcases h3 with ⟨-, h3⟩ | ⟨-, h3⟩
      · exact Or.inl h3
      · exact Or.inr h3

theorem recordLoop_running {σ : Type} {stage : σ → List Int → List Int × σ}
    (hlen : LengthPreserving stage) {bufBytes total : Nat} (htot : total < 2 ^ 32) :
    ∀ (pre post : List ReadEvent) (st st1 : LoopState σ), LoopInv total st →
      recordLoop stage bufBytes total pre st = .running st1 →
      LoopInv total st1 ∧ st1.written < total ∧
      recordLoop stage bufBytes total (pre ++ post) st =
        recordLoop stage bufBytes total post st1
  | [], post, st, st1, hinv, h => by
    unfold recordLoop at h
    split_ifs at h with hlt
    injection h with h
    subst h
    exact ⟨hinv, hlt, rfl⟩
  | ev :: rest, post, st, st1, hinv, h => by
    unfold recordLoop at h
    split_ifs at h with hlt
    cases hb : loopBody stage bufBytes total ev st with
    | next st0 =>
      rw [hb] at h
      simp only [] at h
      obtain ⟨h1, h2, h3⟩ := recordLoop_running hlen htot rest post st0 st1
        (loopInv_next hlen htot ev st st0 hinv hb) h
      refine ⟨h1, h2, ?_⟩
      rw [List.cons_append, recordLoop, if_pos hlt, hb]
      exact h3
    | stop r1 st0 =>
      rw [hb] at h
      simp only [] at h
      injection h

/-! ## Lemmas: the recorders -/

theorem u32_lt (n : Nat) : u32 n < 2 ^ 32 := Nat.mod_lt _ (by norm_num)

theorem totalBytes_lt (s : SessionConfig) (d : Nat) : totalBytes s d < 2 ^ 32 := u32_lt _

theorem totalBytes_eq_mod (s : SessionConfig) (d : Nat) :
    totalBytes s d = (s.sampleRate * d * s.channels * (s.bitsPerSamp / 8)) % 2 ^ 32 := by
  simp only [totalBytes, u32]
  rw [Nat.mod_mul_mod, Nat.mul_assoc, Nat.mod_mul_mod, ← Nat.mul_assoc]

theorem dropBytes_eq_mod (s : SessionConfig) :
    dropBytes s =
      ((s.dropHeadMs * s.sampleRate) % 2 ^ 32 / 1000 * s.channels * (s.bitsPerSamp / 8)) %
        2 ^ 32 := by
  simp only [dropBytes, u32]
  rw [Nat.mod_mul_mod]

theorem loopBody_zero_length {σ : Type} (stage : σ → List Int → List Int × σ)
    (bufBytes total : Nat) (ev : ReadEvent) (st : LoopState σ) (herr : ev.err = false)
    (hz : (ev.bytes.take bufBytes).length = 0) :
    loopBody stage bufBytes total ev st = .next st := by
  unfold loopBody
  simp only [herr, Bool.false_eq_true, if_false, hz, if_true]

theorem memcpy_length (h : List Nat) (off : Nat) (src : List Nat)
    (hb : off + src.length ≤ h.length) : (memcpy h off src).length = h.length := by
  simp only [memcpy, List.length_append, List.length_take, List.length_drop]
  omega

theorem wavHeader_length (fileSize sr bits ch : Nat) :
    (wavHeader fileSize sr bits ch).length = 44 := by
  simp [wavHeader, memcpy, le32, le16, ascii]

theorem wavHeader_eq (fileSize sr bits ch : Nat) :
    wavHeader fileSize sr bits ch =
      ascii "RIFF" ++ le32 (u32 (36 + ((if u32 fileSize < 44 then 44 else u32 fileSize) - 44))) ++
      ascii "WAVE" ++ ascii "fmt " ++ le32 16 ++ le16 1 ++ le16 ch ++ le32 sr ++
      le32 (u32 (u32 (sr * ch) * (bits / 8))) ++ le16 (u16 (ch * (bits / 8))) ++ le16 bits ++
      ascii "data" ++ le32 ((if u32 fileSize < 44 then 44 else u32 fileSize) - 44) := by
  simp [wavHeader, memcpy, le32, le16, ascii]

theorem writeWavHeader_data (f : File) (sr bits ch : Nat) :
    (writeWavHeader f sr bits ch).data = wavHeader f.size sr bits ch ++ f.data.drop 44 := by
  simp only [writeWavHeader, File.write, File.seek, wavHeader_length, List.take_zero,
    List.nil_append, Nat.min_self, Nat.zero_add]
  rw [List.take_of_length_le (by rw [wavHeader_length])]

theorem placeholder_write (accept : Nat)
    (h : (File.create.write (List.replicate 44 0) accept).2 = 44) :
    (File.create.write (List.replicate 44 0) accept).1 = placeholderFile := by
  simp only [File.write, List.length_replicate] at h
  simp only [File.write, List.length_replicate, h, File.create, placeholderFile]
  simp

theorem placeholder_inv {σ : Type} (total drop : Nat) (sig : σ) :
    LoopInv total ⟨placeholderFile, 0, drop, sig⟩ :=
  ⟨rfl, rfl, Nat.zero_le _, rfl, rfl⟩

section RecorderLemmas

variable {K : Type} [LinearOrderedField K] [FloorRing K]

/-- A call of `doRecordingFixedSeconds` that returns `Success` went through the whole
loop and rewrote the header. -/
theorem doRecordingFixedSeconds_success (m : Libm K) (env : Env) (dcPrior : DcState K)
    (d : Nat) (s : SessionConfig) (g : FixedGainConfig K) (outPath : Option String)
    (outBytes : Option Nat) (o : Outcome K)
    (hrun : doRecordingFixedSeconds m env dcPrior d s g outPath outBytes = some o)
    (hok : o.result = .Success) :
    ∃ st, recordLoop (fixedStage m (dc_alpha_for s.sampleRate) g) (bufBytes s)
        (totalBytes s d) env.reads ⟨placeholderFile, 0, dropBytes s, dcReset⟩ = .finished st ∧
      o.file = some (writeWavHeader st.f s.sampleRate s.bitsPerSamp s.channels).close ∧
      o.outPath = outPath.map (fun _ => env.path) ∧
      o.outBytes = outBytes.map (fun _ => st.written) := by
  unfold doRecordingFixedSeconds at hrun
  simp only [] at hrun
  split_ifs at hrun with h1 h2
  · injection hrun with hrun
    subst hrun
    cases hok
  · injection hrun with hrun
    subst hrun
    cases hok
  · have h3 : (File.create.write (List.replicate 44 0) env.hdrAccept).2 = 44 := by
      by_contra hc
      exact h2 hc
    rw [placeholder_write _ h3] at hrun
    split at hrun
    · cases hrun
    · rename_i r st hl
      injection hrun with hrun
      subst hrun
      obtain ⟨-, -, hr⟩ := recordLoop_failed (fixedStage_lengthPreserving m _ g)
        (totalBytes_lt s d) _ _ _ _ (placeholder_inv _ _ _) hl
      simp only [] at hok
      rcases hr with hr | hr <;> rw [hr] at hok <;> cases hok
    · rename_i st hl
      injection hrun with hrun
      subst hrun
      exact ⟨st, hl, rfl, rfl, rfl⟩

/-- A call of `doRecordingAutoSeconds` that returns `Success` went through the whole
loop and rewrote the header. -/
theorem doRecordingAutoSeconds_success (m : Libm K) (env : Env) (dcPrior : DcState K)
    (d : Nat) (s : SessionConfig) (a : AgcConfig K) (outPath : Option String)
    (outBytes : Option Nat) (o : Outcome K)
    (hrun : doRecordingAutoSeconds m env dcPrior d s a outPath outBytes = some o)
    (hok : o.result = .Success) :
    ∃ st, recordLoop (autoStage m (dc_alpha_for s.sampleRate) a s.sampleRate) (bufBytes s)
        (totalBytes s d) env.reads ⟨placeholderFile, 0, dropBytes s, (dcReset, 1)⟩ =
          .finished st ∧
      o.file = some (writeWavHeader st.f s.sampleRate s.bitsPerSamp s.channels).close ∧
      o.outPath = outPath.map (fun _ => env.path) ∧
      o.outBytes = outBytes.map (fun _ => st.written) := by
  unfold doRecordingAutoSeconds at hrun
  simp only [] at hrun
  split_ifs at hrun with h1 h2
  · injection hrun with hrun
    subst hrun
    cases hok
  · injection hrun with hrun
    subst hrun
    cases hok
  · have h3 : (File.create.write (List.replicate 44 0) env.hdrAccept).2 = 44 := by
      by_contra hc
      exact h2 hc
    rw [placeholder_write _ h3] at hrun
    split at hrun
    · cases hrun
    · rename_i r st hl
      injection hrun with hrun
      subst hrun
      obtain ⟨-, -, hr⟩ := recordLoop_failed (autoStage_lengthPreserving m _ a _)
        (totalBytes_lt s d) _ _ _ _ (placeholder_inv _ _ _) hl
      simp only [] at hok
      rcases hr with hr | hr <;> rw [hr] at hok <;> cases hok
    · rename_i st hl
      injection hrun with hrun
      subst hrun
      exact ⟨st, hl, rfl, rfl, rfl⟩

/-- A call of `doRecordingFixedSeconds` that is still in its loop when the script ends:
the file opened, the placeholder went in, and the loop waits for a read. -/
theorem doRecordingFixedSeconds_running (m : Libm K) (env : Env) (dcPrior : DcState K)
    (d : Nat) (s : SessionConfig) (g : FixedGainConfig K) (outPath : Option String)
    (outBytes : Option Nat)
    (hrun : doRecordingFixedSeconds m env dcPrior d s g outPath outBytes = none) :
    env.openOk = true ∧ (File.create.write (List.replicate 44 0) env.hdrAccept).2 = 44 ∧
    ∃ st, recordLoop (fixedStage m (dc_alpha_for s.sampleRate) g) (bufBytes s)
        (totalBytes s d) env.reads ⟨placeholderFile, 0, dropBytes s, dcReset⟩ = .running st := by
  unfold doRecordingFixedSeconds at hrun
  simp only [] at hrun
  split_ifs at hrun with h1 h2
  have h3 : (File.create.write (List.replicate 44 0) env.hdrAccept).2 = 44 := by
    by_contra hc
    exact h2 hc
  rw [placeholder_write _ h3] at hrun
  refine ⟨by simpa using h1, h3, ?_⟩
  split at hrun
  · rename_i st hl
    exact ⟨st, hl⟩
  · cases hrun
  · cases hrun

/-- The outcome of `doRecordingFixedSeconds` when its loop leaves through a `return`. -/
theorem doRecordingFixedSeconds_failed (m : Libm K) (env : Env) (dcPrior : DcState K)
    (d : Nat) (s : SessionConfig) (g : FixedGainConfig K) (outPath : Option String)
    (outBytes : Option Nat) (r : RecResult) (st : LoopState (DcState K))
    (h1 : env.openOk = true)
    (h2 : (File.create.write (List.replicate 44 0) env.hdrAccept).2 = 44)
    (h3 : recordLoop (fixedStage m (dc_alpha_for s.sampleRate) g) (bufBytes s)
        (totalBytes s d) env.reads ⟨placeholderFile, 0, dropBytes s, dcReset⟩ = .failed r st) :
    doRecordingFixedSeconds m env dcPrior d s g outPath outBytes =
      some ⟨r, some st.f, outPath, outBytes, st.sig⟩ := by
  unfold doRecordingFixedSeconds
  simp only [h1, Bool.not_true, Bool.false_eq_true, if_false, h2, ne_eq, not_true_eq_false]
  rw [placeholder_write _ h2, h3]

/-- A call of `doRecordingAutoSeconds` that is still in its loop when the script ends. -/
theorem doRecordingAutoSeconds_running (m : Libm K) (env : Env) (dcPrior : DcState K)
    (d : Nat) (s : SessionConfig) (a : AgcConfig K) (outPath : Option String)
    (outBytes : Option Nat)
    (hrun : doRecordingAutoSeconds m env dcPrior d s a outPath outBytes = none) :
    env.openOk = true ∧ (File.create.write (List.replicate 44 0) env.hdrAccept).2 = 44 ∧
    ∃ st, recordLoop (autoStage m (dc_alpha_for s.sampleRate) a s.sampleRate) (bufBytes s)
        (totalBytes s d) env.reads ⟨placeholderFile, 0, dropBytes s, (dcReset, 1)⟩ =
          .running st := by
  unfold doRecordingAutoSeconds at hrun
  simp only [] at hrun
  split_ifs at hrun with h1 h2
  have h3 : (File.create.write (List.replicate 44 0) env.hdrAccept).2 = 44 := by
    by_contra hc
    exact h2 hc
  rw [placeholder_write _ h3] at hrun
  refine ⟨by simpa using h1, h3, ?_⟩
  split at hrun
  · rename_i st hl
    exact ⟨st, hl⟩
  · cases hrun
  · cases hrun

/-- The outcome of `doRecordingAutoSeconds` when its loop leaves through a `return`. -/
theorem doRecordingAutoSeconds_failed (m : Libm K) (env : Env) (dcPrior : DcState K)
    (d : Nat) (s : SessionConfig) (a : AgcConfig K) (outPath : Option String)
    (outBytes : Option Nat) (r : RecResult) (st : LoopState (DcState K × K))
    (h1 : env.openOk = true)
    (h2 : (File.create.write (List.replicate 44 0) env.hdrAccept).2 = 44)
    (h3 : recordLoop (autoStage m (dc_alpha_for s.sampleRate) a s.sampleRate) (bufBytes s)
        (totalBytes s d) env.reads ⟨placeholderFile, 0, dropBytes s, (dcReset, 1)⟩ =
          .failed r st) :
    doRecordingAutoSeconds m env dcPrior d s a outPath outBytes =
      some ⟨r, some st.f, outPath, outBytes, st.sig.1⟩ := by
  unfold doRecordingAutoSeconds
  simp only [h1, Bool.not_true, Bool.false_eq_true, if_false, h2, ne_eq, not_true_eq_false]
  rw [placeholder_write _ h2, h3]

/-- A hard read error while the loop is waiting for data: the loop returns
`I2sReadError` with the file closed and everything else as it was. -/
theorem recordLoop_read_error {σ : Type} {stage : σ → List Int → List Int × σ}
    (hlen : LengthPreserving stage) {bufBytes total : Nat} (htot : total < 2 ^ 32)
    (pre post : List ReadEvent) (e : ReadEvent) (he : e.err = true) (st st1 : LoopState σ)
    (hinv : LoopInv total st)
    (h : recordLoop stage bufBytes total pre st = .running st1) :
    recordLoop stage bufBytes total (pre ++ e :: post) st =
      .failed .I2sReadError { st1 with f := st1.f.close } ∧
    st1.f.data.take 44 = List.replicate 44 0 := by
  obtain ⟨hinv1, hlt, heq⟩ := recordLoop_running hlen htot pre (e :: post) st st1 hinv h
  rw [heq, recordLoop, if_pos hlt, loopBody_err stage bufBytes total e st1 he]
  exact ⟨rfl, hinv1.hdr⟩

theorem slice_data_field (l : List Nat) (h : l.take 44 = List.replicate 44 0) :
    leValue (slice l 40 4) = 0 := by
  have e : slice l 40 4 = slice (l.take 44) 40 4 := by
    simp only [slice, List.drop_take, List.take_take]
    rfl
  rw [e, h]
  rfl

/-- The data bytes of the file a finished loop leaves, after the header rewrite. -/
theorem finished_file_data {σ : Type} {stage : σ → List Int → List Int × σ}
    (hlen : LengthPreserving stage) {bufBytes total drop : Nat} (htot : total < 2 ^ 32)
    (evs : List ReadEvent) (sig : σ) (st : LoopState σ) (sr bits ch : Nat)
    (h : recordLoop stage bufBytes total evs ⟨placeholderFile, 0, drop, sig⟩ = .finished st) :
    st.written = total ∧
    ((writeWavHeader st.f sr bits ch).close.data.drop 44).length = total ∧
    (writeWavHeader st.f sr bits ch).close.data.drop 44 =
      ((processedStream stage bufBytes sig evs).drop drop).take total ∧
    (writeWavHeader st.f sr bits ch).close.data.take 44 = wavHeader (44 + total) sr bits ch ∧
    (writeWavHeader st.f sr bits ch).close.isOpen = false := by
  obtain ⟨hinv, hw, hd⟩ := recordLoop_finished hlen htot evs _ st (placeholder_inv _ _ _) h
  have hl := hinv.len
  have hsz : st.f.size = 44 + total := by rw [File.size, hl, hw]
  have hdrop : List.drop 44 (wavHeader st.f.size sr bits ch ++ List.drop 44 st.f.data) =
      List.drop 44 st.f.data := by
    rw [List.drop_append_eq_append_drop, wavHeader_length,
      List.drop_eq_nil_of_le (by rw [wavHeader_length])]
    simp
  refine ⟨hw, ?_, ?_, ?_, rfl⟩
  · simp only [File.close, writeWavHeader_data, hdrop, List.length_drop]
    omega
  · simp only [File.close, writeWavHeader_data, hdrop]
    rw [hd]
    simp only [placeholderFile, Nat.sub_zero]
    rw [List.drop_append_eq_append_drop, List.length_replicate]
    simp
  · simp only [File.close, writeWavHeader_data]
    rw [List.take_append_eq_append_take, wavHeader_length, hsz]
    simp only [Nat.sub_self, List.take_zero, List.append_nil]
    exact List.take_of_length_le (by rw [wavHeader_length])

end RecorderLemmas

/-! ## Lemmas: binary32 rounding -/

theorem rne_cases (q : ℚ) : rne q = ⌊q⌋ ∨ rne q = ⌊q⌋ + 1 := by
  unfold rne
  split_ifs <;> simp

theorem rne_intCast (n : ℤ) : rne (n : ℚ) = n := by
  unfold rne
  simp

theorem rne_mono {q r : ℚ} (h : q ≤ r) : rne q ≤ rne r := by
  have hf : ⌊q⌋ ≤ ⌊r⌋ := Int.floor_mono h
  rcases lt_or_eq_of_le hf with hlt | heq
  · rcases rne_cases q with h1 | h1 <;> rcases rne_cases r with h2 | h2 <;> omega
  · have hfr : q - ⌊q⌋ ≤ r - ⌊r⌋ := by rw [heq]; linarith
    unfold rne
    rw [heq]
    rw [heq] at hfr
    split_ifs <;> first | omega | (exfalso; linarith)

theorem rne_le_add_half (q : ℚ) : (rne q : ℚ) ≤ q + 1 / 2 := by
  have h1 := Int.floor_le q
  have h2 := Int.lt_floor_add_one q
  unfold rne
  split_ifs with a b c <;> push_cast <;> linarith

theorem rne_ge_sub_half (q : ℚ) : q - 1 / 2 ≤ (rne q : ℚ) := by
  have h1 := Int.floor_le q
  have h2 := Int.lt_floor_add_one q
  unfold rne
  split_ifs with a b c <;> push_cast <;> linarith

theorem log2Fuel_eq : ∀ (fuel n : Nat), n ≤ fuel → log2Fuel fuel n = Nat.log2 n
  | 0, n, h => by
    have : n = 0 := by omega
    subst this
    rw [Nat.log2]
    simp [log2Fuel]
  | fuel + 1, n, h => by
    rw [log2Fuel, Nat.log2]
    by_cases h2 : n < 2
    · rw [if_pos h2, if_neg (by omega)]
    · rw [if_neg h2, if_pos (by omega), log2Fuel_eq fuel (n / 2) (by omega)]

theorem nlog2_eq (n : Nat) : nlog2 n = Nat.log2 n := log2Fuel_eq n n (le_refl n)

theorem ilog2_spec {x : ℚ} (hx : 0 < x) :
    (2 : ℚ) ^ ilog2 x ≤ x ∧ x < (2 : ℚ) ^ (ilog2 x + 1) := by
  have hnum : 0 < x.num := Rat.num_pos.mpr hx
  have hn0 : x.num.toNat ≠ 0 := by omega
  have hd0 : x.den ≠ 0 := x.den_nz
  have hna : (2 : ℚ) ^ (Nat.log2 x.num.toNat) ≤ (x.num.toNat : ℚ) := by
    exact_mod_cast Nat.log2_self_le hn0
  have hnb : (x.num.toNat : ℚ) < (2 : ℚ) ^ (Nat.log2 x.num.toNat + 1) := by
    exact_mod_cast (Nat.lt_log2_self : x.num.toNat < 2 ^ (x.num.toNat.log2 + 1))
  have hda : (2 : ℚ) ^ (Nat.log2 x.den) ≤ (x.den : ℚ) := by
    exact_mod_cast Nat.log2_self_le hd0
  have hdb : (x.den : ℚ) < (2 : ℚ) ^ (Nat.log2 x.den + 1) := by
    exact_mod_cast (Nat.lt_log2_self : x.den < 2 ^ (x.den.log2 + 1))
  have hxe : x = (x.num.toNat : ℚ) / (x.den : ℚ) := by
    have h1 : ((x.num.toNat : ℤ) : ℚ) = (x.num : ℚ) := by
      rw [Int.toNat_of_nonneg hnum.le]
    have h2 : ((x.num.toNat : ℕ) : ℚ) = ((x.num.toNat : ℤ) : ℚ) := by push_cast; rfl
    rw [h2, h1]
    exact (Rat.num_div_den x).symm
  have hdpos : (0 : ℚ) < (x.den : ℚ) := by exact_mod_cast x.den_pos
  have hxd : x * x.den = (x.num.toNat : ℚ) := by
    exact (eq_div_iff hdpos.ne').mp hxe
  have h2 : (2 : ℚ) ≠ 0 := by norm_num
  have hpa : (0 : ℚ) < (2 : ℚ) ^ (Nat.log2 x.den) := by positivity
  have hpb : (0 : ℚ) < (2 : ℚ) ^ (Nat.log2 x.den + 1) := by positivity
  -- upper and lower bounds with the raw exponent
  have hup : x < (2 : ℚ) ^ ((Nat.log2 x.num.toNat : ℤ) - (Nat.log2 x.den : ℤ) + 1) := by
    have e : ((Nat.log2 x.num.toNat : ℤ) - (Nat.log2 x.den : ℤ) + 1) =
        ((Nat.log2 x.num.toNat + 1 : ℕ) : ℤ) - ((Nat.log2 x.den : ℕ) : ℤ) := by push_cast; ring
    rw [e, zpow_sub₀ h2, zpow_natCast, zpow_natCast]
    rw [lt_div_iff₀ hpa]
    calc x * 2 ^ x.den.log2 ≤ x * x.den := mul_le_mul_of_nonneg_left hda hx.le
      _ = (x.num.toNat : ℚ) := hxd
      _ < 2 ^ (x.num.toNat.log2 + 1) := hnb
  have hlo : (2 : ℚ) ^ ((Nat.log2 x.num.toNat : ℤ) - (Nat.log2 x.den : ℤ) - 1) ≤ x := by
    have e : ((Nat.log2 x.num.toNat : ℤ) - (Nat.log2 x.den : ℤ) - 1) =
        ((Nat.log2 x.num.toNat : ℕ) : ℤ) - ((Nat.log2 x.den + 1 : ℕ) : ℤ) := by push_cast; ring
    rw [e, zpow_sub₀ h2, zpow_natCast, zpow_natCast]
    rw [div_le_iff₀ hpb]
    calc (2 : ℚ) ^ x.num.toNat.log2 ≤ (x.num.toNat : ℚ) := hna
      _ = x * x.den := hxd.symm
      _ ≤ x * 2 ^ (x.den.log2 + 1) := mul_le_mul_of_nonneg_left hdb.le hx.le
  unfold ilog2
  simp only [nlog2_eq]
  split_ifs with hc
  · exact ⟨hc, hup⟩
  · refine ⟨hlo, ?_⟩
    rw [sub_add_cancel]
    exact lt_of_not_le hc

theorem ilog2_unique {x : ℚ} {e : ℤ} (h1 : (2 : ℚ) ^ e ≤ x) (h2 : x < (2 : ℚ) ^ (e + 1)) :
    ilog2 x = e := by
  have hx : 0 < x := lt_of_lt_of_le (zpow_pos (by norm_num) e) h1
  obtain ⟨s1, s2⟩ := ilog2_spec hx
  have a : (2 : ℚ) ^ e < (2 : ℚ) ^ (ilog2 x + 1) := lt_of_le_of_lt h1 s2
  have b : (2 : ℚ) ^ ilog2 x < (2 : ℚ) ^ (e + 1) := lt_of_le_of_lt s1 h2
  rw [zpow_lt_zpow_iff_right₀ (by norm_num)] at a b
  omega

theorem ilog2_mono {x y : ℚ} (hx : 0 < x) (h : x ≤ y) : ilog2 x ≤ ilog2 y := by
  obtain ⟨s1, -⟩ := ilog2_spec hx
  obtain ⟨-, t2⟩ := ilog2_spec (lt_of_lt_of_le hx h)
  have a : (2 : ℚ) ^ ilog2 x < (2 : ℚ) ^ (ilog2 y + 1) := lt_of_le_of_lt (le_trans s1 h) t2
  rw [zpow_lt_zpow_iff_right₀ (by norm_num)] at a
  omega

theorem expo32_ge (x : ℚ) : -126 ≤ expo32 x := le_max_left _ _

theorem expo32_lt {x : ℚ} (hx : 0 < x) : x < (2 : ℚ) ^ (expo32 x + 1) := by
  obtain ⟨-, s2⟩ := ilog2_spec hx
  refine lt_of_lt_of_le s2 ?_
  rw [zpow_le_zpow_iff_right₀ (by norm_num)]
  have := le_max_right (-126) (ilog2 x)
  unfold expo32
  omega

theorem expo32_le {x : ℚ} (hx : 0 < x) (h : expo32 x ≠ -126) : (2 : ℚ) ^ expo32 x ≤ x := by
  obtain ⟨s1, -⟩ := ilog2_spec hx
  have e : expo32 x = ilog2 x := by
    unfold expo32 at h ⊢
    rcases max_cases (-126 : ℤ) (ilog2 x) with ⟨h1, -⟩ | ⟨h1, -⟩
    · exact absurd h1 h
    · exact h1
  rw [e]
  exact s1

theorem expo32_mono {x y : ℚ} (hx : 0 < x) (h : x ≤ y) : expo32 x ≤ expo32 y := by
  unfold expo32
  exact max_le_max (le_refl _) (ilog2_mono hx h)

theorem expo32_unique {x : ℚ} {e : ℤ} (he : -126 ≤ e) (h1 : (2 : ℚ) ^ e ≤ x)
    (h2 : x < (2 : ℚ) ^ (e + 1)) : expo32 x = e := by
  unfold expo32
  rw [ilog2_unique h1 h2]
  exact max_eq_right he

theorem expo32_small {x : ℚ} (hx : 0 < x) (h : x < (2 : ℚ) ^ (-126 : ℤ)) :
    expo32 x = -126 := by
  obtain ⟨s1, -⟩ := ilog2_spec hx
  have a : (2 : ℚ) ^ ilog2 x < (2 : ℚ) ^ (-126 : ℤ) := lt_of_le_of_lt s1 h
  rw [zpow_lt_zpow_iff_right₀ (by norm_num)] at a
  unfold expo32
  exact max_eq_left a.le

theorem ulp32_pos (x : ℚ) : 0 < ulp32 x := zpow_pos (by norm_num) _

theorem ulp32_mul_pow (x : ℚ) (k : ℤ) :
    (2 : ℚ) ^ k * ulp32 x = (2 : ℚ) ^ (k + (expo32 x - 23)) := by
  unfold ulp32
  rw [zpow_add₀ (by norm_num)]

theorem rpos32_zero : rpos32 0 = 0 := by
  unfold rpos32
  rw [zero_div]
  have : rne (0 : ℚ) = 0 := by simpa using rne_intCast 0
  rw [this]
  simp

theorem rpos32_nonneg {x : ℚ} (hx : 0 ≤ x) : 0 ≤ rpos32 x := by
  unfold rpos32
  have h1 : (0 : ℚ) ≤ x / ulp32 x := div_nonneg hx (ulp32_pos x).le
  have h2 : rne ((0 : ℤ) : ℚ) ≤ rne (x / ulp32 x) := rne_mono (by simpa using h1)
  rw [rne_intCast] at h2
  have h3 : (0 : ℚ) ≤ (rne (x / ulp32 x) : ℚ) := by exact_mod_cast h2
  exact mul_nonneg h3 (ulp32_pos x).le

/-- The rounded value stays below the top of the binade. -/
theorem rpos32_le_pow {x : ℚ} (hx : 0 < x) : rpos32 x ≤ (2 : ℚ) ^ (expo32 x + 1) := by
  have hu := ulp32_pos x
  have h1 : x / ulp32 x ≤ (((2 : ℤ) ^ (24 : ℕ) : ℤ) : ℚ) := by
    rw [div_le_iff₀ hu, Int.cast_pow, Int.cast_ofNat]
    have e : (2 : ℚ) ^ (24 : ℕ) * ulp32 x = (2 : ℚ) ^ (expo32 x + 1) := by
      rw [← zpow_natCast, ulp32_mul_pow]
      congr 1
      push_cast
      ring
    rw [e]
    exact (expo32_lt hx).le
  have h2 := rne_mono h1
  rw [rne_intCast] at h2
  have h3 : (rne (x / ulp32 x) : ℚ) ≤ (2 : ℚ) ^ (24 : ℕ) := by
    have : ((rne (x / ulp32 x) : ℤ) : ℚ) ≤ (((2 : ℤ) ^ (24 : ℕ) : ℤ) : ℚ) := Int.cast_le.mpr h2
    rwa [Int.cast_pow, Int.cast_ofNat] at this
  unfold rpos32
  calc (rne (x / ulp32 x) : ℚ) * ulp32 x ≤ (2 : ℚ) ^ (24 : ℕ) * ulp32 x :=
        mul_le_mul_of_nonneg_right h3 hu.le
    _ = (2 : ℚ) ^ (expo32 x + 1) := by
      rw [← zpow_natCast, ulp32_mul_pow]
      congr 1
      push_cast
      ring

/-- The rounded value stays above the bottom of the binade. -/
theorem rpos32_ge_pow {x : ℚ} (h : (2 : ℚ) ^ expo32 x ≤ x) : (2 : ℚ) ^ expo32 x ≤ rpos32 x := by
  have hu := ulp32_pos x
  have e : (2 : ℚ) ^ (23 : ℕ) * ulp32 x = (2 : ℚ) ^ expo32 x := by
    rw [← zpow_natCast, ulp32_mul_pow]
    congr 1
    push_cast
    ring
  have h1 : (((2 : ℤ) ^ (23 : ℕ) : ℤ) : ℚ) ≤ x / ulp32 x := by
    rw [le_div_iff₀ hu, Int.cast_pow, Int.cast_ofNat, e]
    exact h
  have h2 := rne_mono h1
  rw [rne_intCast] at h2
  have h3 : (2 : ℚ) ^ (23 : ℕ) ≤ (rne (x / ulp32 x) : ℚ) := by
    have : (((2 : ℤ) ^ (23 : ℕ) : ℤ) : ℚ) ≤ ((rne (x / ulp32 x) : ℤ) : ℚ) := Int.cast_le.mpr h2
    rwa [Int.cast_pow, Int.cast_ofNat] at this
  unfold rpos32
  calc (2 : ℚ) ^ expo32 x = (2 : ℚ) ^ (23 : ℕ) * ulp32 x := e.symm
    _ ≤ (rne (x / ulp32 x) : ℚ) * ulp32 x := mul_le_mul_of_nonneg_right h3 hu.le

theorem rpos32_mono {x y : ℚ} (hx : 0 ≤ x) (h : x ≤ y) : rpos32 x ≤ rpos32 y := by
  rcases eq_or_lt_of_le hx with h0 | hpos
  · rw [← h0, rpos32_zero]
    exact rpos32_nonneg (le_trans hx h)
  · have hy : 0 < y := lt_of_lt_of_le hpos h
    rcases lt_or_eq_of_le (expo32_mono hpos h) with hlt | heq
    · have hne : expo32 y ≠ -126 := by
        have := expo32_ge x
        omega
      calc rpos32 x ≤ (2 : ℚ) ^ (expo32 x + 1) := rpos32_le_pow hpos
        _ ≤ (2 : ℚ) ^ expo32 y := by
          rw [zpow_le_zpow_iff_right₀ (by norm_num)]
          omega
        _ ≤ rpos32 y := rpos32_ge_pow (expo32_le hy hne)
    · have hu : ulp32 x = ulp32 y := by unfold ulp32; rw [heq]
      unfold rpos32
      rw [hu]
      have h1 : x / ulp32 y ≤ y / ulp32 y := div_le_div_of_nonneg_right h (ulp32_pos y).le
      have h2 : (rne (x / ulp32 y) : ℚ) ≤ (rne (y / ulp32 y) : ℚ) := by
        exact_mod_cast rne_mono h1
      exact mul_le_mul_of_nonneg_right h2 (ulp32_pos y).le

/-- A value on the grid of its own binade is not changed by rounding. -/
theorem rpos32_of_grid {v : ℚ} (k : ℤ) (h : v = (k : ℚ) * ulp32 v) : rpos32 v = v := by
  have hu := ulp32_pos v
  have e : v / ulp32 v = (k : ℚ) := by
    rw [div_eq_iff hu.ne']
    exact h
  unfold rpos32
  rw [e, rne_intCast]
  exact h.symm

theorem rpos32_idem {x : ℚ} (hx : 0 ≤ x) : rpos32 (rpos32 x) = rpos32 x := by
  rcases eq_or_lt_of_le (rpos32_nonneg hx) with h0 | hv
  · rw [← h0, rpos32_zero]
  · have hxpos : 0 < x := by
      rcases eq_or_lt_of_le hx with h | h
      · rw [← h, rpos32_zero] at hv
        exact absurd hv (lt_irrefl _)
      · exact h
    have hle := rpos32_le_pow hxpos
    rcases eq_or_lt_of_le hle with htop | hlt
    · -- the value is the power of two that opens the next binade
      have he : expo32 (rpos32 x) = expo32 x + 1 := by
        apply expo32_unique
        · have := expo32_ge x
          omega
        · rw [htop]
        · rw [htop]
          exact zpow_lt_zpow_right₀ (by norm_num) (by omega)
      apply rpos32_of_grid ((2 : ℤ) ^ (23 : ℕ))
      rw [Int.cast_pow, Int.cast_ofNat, ← zpow_natCast, ulp32_mul_pow, he, htop]
      congr 1
      push_cast
      ring
    · -- the value stays in a binade that is not above the one of `x`
      have he : expo32 (rpos32 x) ≤ expo32 x := by
        by_cases h126 : expo32 (rpos32 x) = -126
        · rw [h126]
          exact expo32_ge x
        · have h1 := expo32_le hv h126
          have h2 : (2 : ℚ) ^ expo32 (rpos32 x) < (2 : ℚ) ^ (expo32 x + 1) :=
            lt_of_le_of_lt h1 hlt
          rw [zpow_lt_zpow_iff_right₀ (by norm_num)] at h2
          omega
      obtain ⟨n, hn⟩ := Int.eq_ofNat_of_zero_le (sub_nonneg.mpr he)
      apply rpos32_of_grid (rne (x / ulp32 x) * (2 : ℤ) ^ n)
      have hpow : ulp32 x = (2 : ℚ) ^ (n : ℕ) * ulp32 (rpos32 x) := by
        rw [← zpow_natCast, ulp32_mul_pow]
        unfold ulp32
        congr 1
        omega
      rw [Int.cast_mul, Int.cast_pow, Int.cast_ofNat, mul_assoc, ← hpow]
      rfl

theorem rpos32_rel {x : ℚ} (hx : 0 ≤ x) :
    rpos32 x ≤ max ((1 + 1 / 2 ^ 24) * x) ((2 : ℚ) ^ (-126 : ℤ)) := by
  rcases eq_or_lt_of_le hx with h0 | hpos
  · rw [← h0, rpos32_zero]
    exact le_trans (by positivity) (le_max_right _ _)
  · have hu := ulp32_pos x
    by_cases hn : (2 : ℚ) ^ expo32 x ≤ x
    · refine le_trans ?_ (le_max_left _ _)
      have h1 := rne_le_add_half (x / ulp32 x)
      have h2 : rpos32 x ≤ (x / ulp32 x + 1 / 2) * ulp32 x := by
        unfold rpos32
        exact mul_le_mul_of_nonneg_right h1 hu.le
      have h3 : (x / ulp32 x + 1 / 2) * ulp32 x = x + ulp32 x / 2 := by
        field_simp
        ring
      have h4 : ulp32 x = (2 : ℚ) ^ expo32 x / 2 ^ (23 : ℕ) := by
        unfold ulp32
        rw [zpow_sub₀ (by norm_num)]
        norm_num
      have h5 : ulp32 x ≤ x / 2 ^ (23 : ℕ) := by
        rw [h4]
        exact div_le_div_of_nonneg_right hn (by positivity)
      rw [h3] at h2
      have h6 : x / 2 ^ (23 : ℕ) / 2 = 1 / 2 ^ 24 * x := by
        norm_num
        ring
      linarith
    · refine le_trans ?_ (le_max_right _ _)
      have he : expo32 x = -126 := by
        by_contra hc
        exact hn (expo32_le hpos hc)
      have hlt : x < (2 : ℚ) ^ (-126 : ℤ) := by
        rw [← he]
        exact lt_of_not_le hn
      have h1 : x / ulp32 x ≤ (((2 : ℤ) ^ (23 : ℕ) : ℤ) : ℚ) := by
        rw [div_le_iff₀ hu, Int.cast_pow, Int.cast_ofNat, ← zpow_natCast, ulp32_mul_pow, he]
        exact le_trans hlt.le (le_of_eq (by norm_num))
      have h2 := rne_mono h1
      rw [rne_intCast] at h2
      have h3 : (rne (x / ulp32 x) : ℚ) ≤ (2 : ℚ) ^ (23 : ℕ) := by
        have : ((rne (x / ulp32 x) : ℤ) : ℚ) ≤ (((2 : ℤ) ^ (23 : ℕ) : ℤ) : ℚ) :=
          Int.cast_le.mpr h2
        rwa [Int.cast_pow, Int.cast_ofNat] at this
      unfold rpos32
      calc (rne (x / ulp32 x) : ℚ) * ulp32 x ≤ (2 : ℚ) ^ (23 : ℕ) * ulp32 x :=
            mul_le_mul_of_nonneg_right h3 hu.le
        _ = (2 : ℚ) ^ (-126 : ℤ) := by
          rw [← zpow_natCast, ulp32_mul_pow, he]
          norm_num

theorem f32_zero : f32 0 = 0 := by
  unfold f32
  rw [if_pos (le_refl _), rpos32_zero]

theorem f32_neg (x : ℚ) : f32 (-x) = -f32 x := by
  rcases lt_trichotomy x 0 with h | h | h
  · unfold f32
    rw [if_pos (by linarith), if_neg (by linarith), neg_neg]
  · rw [h]
    simp [f32_zero]
  · unfold f32
    rw [if_neg (by linarith), if_pos h.le, neg_neg]

theorem f32_mono : Monotone f32 := by
  intro x y h
  unfold f32
  split_ifs with hx hy hy
  · exact rpos32_mono hx h
  · exact absurd (le_trans hx h) hy
  · have h1 := rpos32_nonneg (show (0 : ℚ) ≤ -x by linarith)
    have h2 := rpos32_nonneg hy
    linarith
  · have := rpos32_mono (show (0 : ℚ) ≤ -y by linarith) (show -y ≤ -x by linarith)
    linarith

theorem f32_idem (x : ℚ) : f32 (f32 x) = f32 x := by
  by_cases hx : 0 ≤ x
  · have h1 : f32 x = rpos32 x := by unfold f32; rw [if_pos hx]
    rw [h1]
    have h2 : f32 (rpos32 x) = rpos32 (rpos32 x) := by
      unfold f32
      rw [if_pos (rpos32_nonneg hx)]
    rw [h2, rpos32_idem hx]
  · have hx1 : 0 ≤ -x := by linarith
    have h1 : f32 x = -rpos32 (-x) := by unfold f32; rw [if_neg hx]
    rw [h1, f32_neg]
    have h2 : f32 (rpos32 (-x)) = rpos32 (rpos32 (-x)) := by
      unfold f32
      rw [if_pos (rpos32_nonneg hx1)]
    rw [h2, rpos32_idem hx1]

theorem f32_rel (x : ℚ) :
    |f32 x| ≤ max ((1 + 1 / 2 ^ 24) * |x|) ((2 : ℚ) ^ (-126 : ℤ)) := by
  by_cases hx : 0 ≤ x
  · have h1 : f32 x = rpos32 x := by unfold f32; rw [if_pos hx]
    rw [h1, abs_of_nonneg (rpos32_nonneg hx), abs_of_nonneg hx]
    exact rpos32_rel hx
  · have hx1 : 0 ≤ -x := by linarith
    have h1 : f32 x = -rpos32 (-x) := by unfold f32; rw [if_neg hx]
    rw [h1, abs_neg, abs_of_nonneg (rpos32_nonneg hx1), abs_of_neg (lt_of_not_le hx)]
    exact rpos32_rel hx1

theorem rpos32_low {x : ℚ} (hx : 0 ≤ x) :
    (1 - 1 / 2 ^ 24) * x - (2 : ℚ) ^ (-126 : ℤ) ≤ rpos32 x := by
  have htiny : (0 : ℚ) < (2 : ℚ) ^ (-126 : ℤ) := zpow_pos (by norm_num) _
  rcases eq_or_lt_of_le hx with h0 | hpos
  · rw [← h0, rpos32_zero]
    linarith
  · have hu := ulp32_pos x
    have h1 := rne_ge_sub_half (x / ulp32 x)
    have h2 : (x / ulp32 x - 1 / 2) * ulp32 x ≤ rpos32 x := by
      unfold rpos32
      exact mul_le_mul_of_nonneg_right h1 hu.le
    have h3 : (x / ulp32 x - 1 / 2) * ulp32 x = x - ulp32 x / 2 := by
      field_simp
      ring
    rw [h3] at h2
    have h4 : ulp32 x = (2 : ℚ) ^ expo32 x / 2 ^ (23 : ℕ) := by
      unfold ulp32
      rw [zpow_sub₀ (by norm_num)]
      norm_num
    by_cases hn : (2 : ℚ) ^ expo32 x ≤ x
    · have h5 : ulp32 x ≤ x / 2 ^ (23 : ℕ) := by
        rw [h4]
        exact div_le_div_of_nonneg_right hn (by positivity)
      have h6 : x / 2 ^ (23 : ℕ) / 2 = 1 / 2 ^ 24 * x := by
        norm_num
        ring
      linarith
    · have he : expo32 x = -126 := by
        by_contra hc
        exact hn (expo32_le hpos hc)
      have h5 : ulp32 x / 2 ≤ (2 : ℚ) ^ (-126 : ℤ) := by
        rw [h4, he]
        have : (2 : ℚ) ^ (-126 : ℤ) / 2 ^ (23 : ℕ) / 2 ≤ (2 : ℚ) ^ (-126 : ℤ) := by
          rw [div_div]
          exact div_le_self htiny.le (by norm_num)
        exact this
      have h6 : (0 : ℚ) ≤ 1 / 2 ^ 24 * x := by positivity
      linarith

theorem f32_low (x : ℚ) (hx : 0 ≤ x) :
    (1 - 1 / 2 ^ 24) * x - (2 : ℚ) ^ (-126 : ℤ) ≤ f32 x := by
  have h1 : f32 x = rpos32 x := by unfold f32; rw [if_pos hx]
  rw [h1]
  exact rpos32_low hx

/-- Rounding to binary32 obeys the laws of `RoundsLike`. -/
theorem f32_roundsLike : RoundsLike f32 (1 / 2 ^ 24) ((2 : ℚ) ^ (-126 : ℤ)) where
  mono := f32_mono
  odd := f32_neg
  idem := f32_idem
  rel := f32_rel
  low := f32_low
  u_nonneg := by norm_num
  tiny_nonneg := by positivity

/-- Exact arithmetic obeys the laws of `RoundsLike` with no error at all. -/
theorem id_roundsLike {K : Type} [LinearOrderedField K] : RoundsLike (id : K → K) 0 0 where
  mono := monotone_id
  odd := fun _ => rfl
  idem := fun _ => rfl
  rel := fun x => by simp
  low := fun x _ => by simp
  u_nonneg := le_refl _
  tiny_nonneg := le_refl _

/-- An integer below `2^24` in magnitude is a binary32 value: a sample converted by
`(float)io[i]` and the integer constants of the code carry no rounding. -/
theorem f32_intCast (c : ℤ) (h : |c| < 2 ^ 24) : f32 (c : ℚ) = (c : ℚ) := by
  have key : ∀ d : ℤ, 0 ≤ d → d < 2 ^ 24 → rpos32 (d : ℚ) = (d : ℚ) := by
    intro d hd0 hd
    rcases eq_or_lt_of_le hd0 with h0 | hpos
    · rw [← h0]
      simpa using rpos32_zero
    · have hq : (0 : ℚ) < (d : ℚ) := by exact_mod_cast hpos
      have he : expo32 (d : ℚ) ≤ 23 := by
        by_cases h126 : expo32 (d : ℚ) = -126
        · rw [h126]
          norm_num
        · have h1 := expo32_le hq h126
          have h2 : ((d : ℤ) : ℚ) < (((2 : ℤ) ^ (24 : ℕ) : ℤ) : ℚ) := Int.cast_lt.mpr hd
          rw [Int.cast_pow, Int.cast_ofNat, ← zpow_natCast] at h2
          have h3 := lt_of_le_of_lt h1 h2
          rw [zpow_lt_zpow_iff_right₀ (by norm_num)] at h3
          push_cast at h3
          omega
      obtain ⟨n, hn⟩ := Int.eq_ofNat_of_zero_le (sub_nonneg.mpr he)
      apply rpos32_of_grid (d * (2 : ℤ) ^ n)
      have hone : (2 : ℚ) ^ (n : ℕ) * ulp32 (d : ℚ) = 1 := by
        rw [← zpow_natCast, ulp32_mul_pow]
        have : (n : ℤ) + (expo32 (d : ℚ) - 23) = 0 := by omega
        rw [this, zpow_zero]
      rw [Int.cast_mul, Int.cast_pow, Int.cast_ofNat, mul_assoc, hone, mul_one]
  rcases le_or_lt 0 c with hc | hc
  · have h1 : f32 (c : ℚ) = rpos32 (c : ℚ) := by
      unfold f32
      rw [if_pos (by exact_mod_cast hc)]
    rw [h1]
    exact key c hc (by rwa [abs_of_nonneg hc] at h)
  · have hneg : ¬ (0 : ℚ) ≤ (c : ℚ) := by
      rw [not_le]
      exact_mod_cast hc
    have h1 : f32 (c : ℚ) = -rpos32 (-(c : ℚ)) := by
      unfold f32
      rw [if_neg hneg]
    have h2 := key (-c) (by omega) (by rwa [abs_of_neg hc] at h)
    rw [Int.cast_neg] at h2
    rw [h1, h2, neg_neg]

/-- A binary32 value in `[0, 1)` is at most `1 - 2^-24`, so its product with `1 + 2^-24`
is still below 1. -/
theorem f32_below_one {a : ℚ} (hf : f32 a = a) (h0 : 0 ≤ a) (h1 : a < 1) :
    a * (1 + 1 / 2 ^ 24) < 1 := by
  have hle : a ≤ 1 - 1 / 2 ^ 24 := by
    by_contra hc
    have hgt : 1 - 1 / 2 ^ 24 < a := lt_of_not_le hc
    have he : expo32 a = -1 := by
      apply expo32_unique (by norm_num)
      · have : (2 : ℚ) ^ (-1 : ℤ) = 1 / 2 := by norm_num
        rw [this]
        have : (1 / 2 : ℚ) ≤ 1 - 1 / 2 ^ 24 := by norm_num
        linarith
      · have : (2 : ℚ) ^ ((-1 : ℤ) + 1) = 1 := by norm_num
        rw [this]
        exact h1
    have hu : ulp32 a = 1 / 2 ^ 24 := by
      unfold ulp32
      rw [he]
      norm_num
    have hfa : f32 a = rpos32 a := by unfold f32; rw [if_pos h0]
    rw [hfa] at hf
    unfold rpos32 at hf
    rw [hu] at hf
    generalize rne (a / (1 / 2 ^ 24)) = k at hf
    have hk : (k : ℚ) = a * 2 ^ 24 := by
      rw [← hf]
      field_simp
    have hk1 : (((2 : ℤ) ^ (24 : ℕ) - 1 : ℤ) : ℚ) < (k : ℚ) := by
      rw [hk]
      push_cast
      have : (1 - 1 / 2 ^ 24) * 2 ^ 24 < a * (2 : ℚ) ^ 24 :=
        mul_lt_mul_of_pos_right hgt (by positivity)
      norm_num at this ⊢
      linarith
    have hk2 : (k : ℚ) < (((2 : ℤ) ^ (24 : ℕ) : ℤ) : ℚ) := by
      rw [hk]
      push_cast
      have : a * (2 : ℚ) ^ 24 < 1 * 2 ^ 24 := mul_lt_mul_of_pos_right h1 (by positivity)
      linarith
    have i1 := Int.cast_lt.mp hk1
    have i2 := Int.cast_lt.mp hk2
    omega
  have : (1 - 1 / 2 ^ 24 : ℚ) * (1 + 1 / 2 ^ 24) < 1 := by norm_num
  have h3 : a * (1 + 1 / 2 ^ 24) ≤ (1 - 1 / 2 ^ 24 : ℚ) * (1 + 1 / 2 ^ 24) :=
    mul_le_mul_of_nonneg_right hle (by norm_num)
  linarith

/-! ## C1: byte accounting -/

section Claims

set_option linter.unusedSectionVars false

variable {K : Type} [LinearOrderedField K] [FloorRing K]

/-- C1 (amended). When `doRecordingFixedSeconds` or `doRecordingAutoSeconds` returns
`Success`, for any configuration, duration `d` and script of capture reads, the number of
data bytes in the file after the 44-byte header, and the value stored through `outBytes`,
is `sampleRate * d * channels * bytesPerSample` reduced modulo `2^32` (the `uint32_t`
product the code computes), whatever the head-drop budget; so it is the exact product
whenever that product is below `2^32`. -/
theorem byte_accounting_mod (m : Libm K) (env : Env) (dcPrior : DcState K) (d : Nat)
    (s : SessionConfig) (g : FixedGainConfig K) (a : AgcConfig K) (outPath : Option String)
    (outBytes : Option Nat) (o : Outcome K)
    (hrun : doRecordingFixedSeconds m env dcPrior d s g outPath outBytes = some o ∨
      doRecordingAutoSeconds m env dcPrior d s a outPath outBytes = some o)
    (hok : o.result = .Success) :
    ∃ f, o.file = some f ∧
      (f.data.drop 44).length =
        (s.sampleRate * d * s.channels * (s.bitsPerSamp / 8)) % 2 ^ 32 ∧
      o.outBytes = outBytes.map
        (fun _ => (s.sampleRate * d * s.channels * (s.bitsPerSamp / 8)) % 2 ^ 32) ∧
      (s.sampleRate * d * s.channels * (s.bitsPerSamp / 8) < 2 ^ 32 →
        (f.data.drop 44).length = s.sampleRate * d * s.channels * (s.bitsPerSamp / 8) ∧
        o.outBytes = outBytes.map
          (fun _ => s.sampleRate * d * s.channels * (s.bitsPerSamp / 8))) := by
  have key : ∃ f, o.file = some f ∧ (f.data.drop 44).length = totalBytes s d ∧
      o.outBytes = outBytes.map (fun _ => totalBytes s d) := by
    rcases hrun with hrun | hrun
    · obtain ⟨st, hl, hf, -, hb⟩ := doRecordingFixedSeconds_success m env dcPrior d s g
        outPath outBytes o hrun hok
      obtain ⟨hw, hlen, -⟩ := finished_file_data (fixedStage_lengthPreserving m _ g)
        (totalBytes_lt s d) env.reads _ st s.sampleRate s.bitsPerSamp s.channels hl
      exact ⟨_, hf, hlen, by rw [hb, hw]⟩
    · obtain ⟨st, hl, hf, -, hb⟩ := doRecordingAutoSeconds_success m env dcPrior d s a
        outPath outBytes o hrun hok
      obtain ⟨hw, hlen, -⟩ := finished_file_data (autoStage_lengthPreserving m _ a _)
        (totalBytes_lt s d) env.reads _ st s.sampleRate s.bitsPerSamp s.channels hl
      exact ⟨_, hf, hlen, by rw [hb, hw]⟩
  obtain ⟨f, hf, hlen, hb⟩ := key
  rw [totalBytes_eq_mod] at hlen hb
  refine ⟨f, hf, hlen, hb, fun hlt => ?_⟩
  rw [Nat.mod_eq_of_lt hlt] at hlen hb
  exact ⟨hlen, hb⟩

/-- A run for C1: 1 second at 4 Hz, mono, 16 bit, no head drop; the reads are a partial
block, a zero-length read and a full block. Eight data bytes are written and reported. -/
theorem byte_accounting_mod_witness :
    ∃ o : Outcome ℚ,
      doRecordingFixedSeconds qLibm
        (okEnv [okRead [1, 0, 2, 0], okRead [], okRead [3, 0, 4, 0, 5, 0, 6, 0]]) dcReset 1
        { sampleRate := 4, dropHeadMs := 0 } qFixed (some "") (some 0) = some o ∧
      o.result = .Success ∧
      ∃ f, o.file = some f ∧ (f.data.drop 44).length = 8 ∧ o.outBytes = some 8 := by
  have h : (doRecordingFixedSeconds qLibm
      (okEnv [okRead [1, 0, 2, 0], okRead [], okRead [3, 0, 4, 0, 5, 0, 6, 0]]) dcReset 1
      { sampleRate := 4, dropHeadMs := 0 } qFixed (some "") (some 0)).map
      (fun o => o.result) = some .Success := by decide!
  obtain ⟨o, ho, hok⟩ := Option.map_eq_some'.mp h
  obtain ⟨f, hf, hlen, hb, -⟩ := byte_accounting_mod qLibm _ dcReset 1 _ qFixed qAgc
    (some "") (some 0) o (Or.inl ho) hok
  exact ⟨o, ho, hok, f, hf, hlen, hb⟩

/-- C1 as stated fails: with the default session (16000 Hz, mono, 16 bit, 700 ms head
drop) and a requested duration of 134218 s, the product is 4294976000, above `2^32`; the
code computes the target 8704, and on sixteen full blocks of silence the call returns
`Success` with 8704 data bytes written and reported. -/
theorem byte_accounting_exact_fails :
    ∃ o : Outcome ℚ,
      doRecordingFixedSeconds qLibm (okEnv (List.replicate 16 (silence 2048))) dcReset 134218
        ({} : SessionConfig) qFixed (some "") (some 0) = some o ∧
      o.result = .Success ∧
      o.outBytes = some 8704 ∧
      o.file.map (fun f => (f.data.drop 44).length) = some 8704 ∧
      o.outBytes ≠ some (({} : SessionConfig).sampleRate * 134218 *
        ({} : SessionConfig).channels * (({} : SessionConfig).bitsPerSamp / 8)) := by
  have h : (doRecordingFixedSeconds qLibm (okEnv (List.replicate 16 (silence 2048))) dcReset
      134218 ({} : SessionConfig) qFixed (some "") (some 0)).map
      (fun o => (o.result, o.outBytes, o.file.map (fun f => (f.data.drop 44).length))) =
      some (.Success, some 8704, some 8704) := by
    set_option maxRecDepth 100000 in decide!
  obtain ⟨o, ho, h2⟩ := Option.map_eq_some'.mp h
  simp only [Prod.mk.injEq] at h2
  obtain ⟨h3, h4, h5⟩ := h2
  refine ⟨o, ho, h3, h4, h5, ?_⟩
  rw [h4]
  decide

/-! ## C2: the written stream -/

/-- C2 (amended). On every successful recording the data bytes of the file are the
processed stream of the script (the in-place processed blocks of the non-empty reads, in
order, filter state carried across blocks) without its first `dropBytes` bytes, cut to
`totalBytes` bytes, where both are the `uint32_t` values the code computes: `dropBytes` is
`((dropHeadMs * sampleRate mod 2^32) / 1000 * channels * bytesPerSample) mod 2^32`, which
is `(dropHeadMs * sampleRate / 1000) * channels * bytesPerSample` when neither product
reaches `2^32`. A zero-length read leaves the whole loop state (file, written count, drop
budget, DC memory, AGC gain) as it was and adds nothing to the stream. -/
theorem written_stream (m : Libm K) (env : Env) (dcPrior : DcState K) (d : Nat)
    (s : SessionConfig) (g : FixedGainConfig K) (a : AgcConfig K) (outPath : Option String)
    (outBytes : Option Nat) :
    (∀ o, doRecordingFixedSeconds m env dcPrior d s g outPath outBytes = some o →
      o.result = .Success →
      ∃ f, o.file = some f ∧
        f.data.drop 44 =
          ((processedStream (fixedStage m (dc_alpha_for s.sampleRate) g) (bufBytes s) dcReset
            env.reads).drop (dropBytes s)).take (totalBytes s d)) ∧
    (∀ o, doRecordingAutoSeconds m env dcPrior d s a outPath outBytes = some o →
      o.result = .Success →
      ∃ f, o.file = some f ∧
        f.data.drop 44 =
          ((processedStream (autoStage m (dc_alpha_for s.sampleRate) a s.sampleRate)
            (bufBytes s) (dcReset, 1) env.reads).drop (dropBytes s)).take (totalBytes s d)) ∧
    (∀ (σ : Type) (stage : σ → List Int → List Int × σ) (st : LoopState σ) (ev : ReadEvent)
      (rest : List ReadEvent), ev.err = false → (ev.bytes.take (bufBytes s)).length = 0 →
      loopBody stage (bufBytes s) (totalBytes s d) ev st = .next st ∧
      processedStream stage (bufBytes s) st.sig (ev :: rest) =
        processedStream stage (bufBytes s) st.sig rest) ∧
    dropBytes s =
      ((s.dropHeadMs * s.sampleRate) % 2 ^ 32 / 1000 * s.channels * (s.bitsPerSamp / 8)) %
        2 ^ 32 ∧
    (s.dropHeadMs * s.sampleRate < 2 ^ 32 →
      s.dropHeadMs * s.sampleRate / 1000 * s.channels * (s.bitsPerSamp / 8) < 2 ^ 32 →
      dropBytes s = s.dropHeadMs * s.sampleRate / 1000 * s.channels * (s.bitsPerSamp / 8)) := by
  refine ⟨?_, ?_, ?_, dropBytes_eq_mod s, ?_⟩
  · intro o hrun hok
    obtain ⟨st, hl, hf, -, -⟩ := doRecordingFixedSeconds_success m env dcPrior d s g
      outPath outBytes o hrun hok
    obtain ⟨-, -, hd, -⟩ := finished_file_data (fixedStage_lengthPreserving m _ g)
      (totalBytes_lt s d) env.reads _ st s.sampleRate s.bitsPerSamp s.channels hl
    exact ⟨_, hf, hd⟩
  · intro o hrun hok
    obtain ⟨st, hl, hf, -, -⟩ := doRecordingAutoSeconds_success m env dcPrior d s a
      outPath outBytes o hrun hok
    obtain ⟨-, -, hd, -⟩ := finished_file_data (autoStage_lengthPreserving m _ a _)
      (totalBytes_lt s d) env.reads _ st s.sampleRate s.bitsPerSamp s.channels hl
    exact ⟨_, hf, hd⟩
  · intro σ stage st ev rest herr hz
    refine ⟨loopBody_zero_length stage _ _ ev st herr hz, ?_⟩
    rw [processedStream_cons stage _ st.sig ev rest herr]
    simp only [blockOf, if_pos hz, List.nil_append]
  · intro h1 h2
    rw [dropBytes_eq_mod, Nat.mod_eq_of_lt h1, Nat.mod_eq_of_lt h2]

/-- A run for C2: 1 second at 1000 Hz with a 2 ms head drop (4 bytes) and a fixed gain of
40 dB; the reads are a partial block, a zero-length read and two more blocks. The first
four processed bytes are dropped. -/
theorem written_stream_witness :
    ∃ o : Outcome ℚ,
      doRecordingFixedSeconds qLibm
        (okEnv ([okRead [1, 0, 2, 0, 3, 0], okRead []] ++ List.replicate 2 (silence 2048)))
        dcReset 1 { sampleRate := 1000, dropHeadMs := 2 } ⟨40⟩ (some "") (some 0) = some o ∧
      o.result = .Success ∧
      ∃ f, o.file = some f ∧
        f.data.drop 44 =
          ((processedStream (fixedStage qLibm (dc_alpha_for 1000) ⟨40⟩) 2048 dcReset
            ([okRead [1, 0, 2, 0, 3, 0], okRead []] ++ List.replicate 2 (silence 2048))).drop
              4).take 2000 := by
  have h : (doRecordingFixedSeconds qLibm
      (okEnv ([okRead [1, 0, 2, 0, 3, 0], okRead []] ++ List.replicate 2 (silence 2048)))
      dcReset 1 { sampleRate := 1000, dropHeadMs := 2 } ⟨40⟩ (some "") (some 0)).map
      (fun o => o.result) = some .Success := by
    set_option maxRecDepth 100000 in decide!
  obtain ⟨o, ho, hok⟩ := Option.map_eq_some'.mp h
  exact ⟨o, ho, hok,
    (written_stream qLibm _ dcReset 1 _ ⟨40⟩ qAgc (some "") (some 0)).1 o ho hok⟩

/-- C2 as stated fails: at 1000 Hz (mono, 16 bit) with `dropHeadMs = 4294968`, the product
`dropHeadMs * sampleRate = 4294968000` wraps to 704, so the code drops
`704 / 1000 * 2 = 0` bytes, not `4294968000 / 1000 * 2 = 8589936`. On one full block
(2048 bytes) a 1 s recording succeeds with 2000 data bytes, while the stream without its
first 8589936 bytes is empty. -/
theorem written_stream_exact_fails :
    ∃ o : Outcome ℚ,
      doRecordingFixedSeconds qLibm (okEnv [silence 2048]) dcReset 1
        { sampleRate := 1000, dropHeadMs := 4294968 } qFixed (some "") (some 0) = some o ∧
      o.result = .Success ∧
      o.file.map (fun f => (f.data.drop 44).length) = some 2000 ∧
      o.file.map (fun f => f.data.drop 44) ≠
        some (((processedStream (fixedStage qLibm (dc_alpha_for 1000) qFixed) 2048 dcReset
          [silence 2048]).drop
            (4294968 * 1000 / 1000 * 1 * (16 / 8))).take (1000 * 1 * 1 * (16 / 8))) := by
  have h : (doRecordingFixedSeconds qLibm (okEnv [silence 2048]) dcReset 1
      { sampleRate := 1000, dropHeadMs := 4294968 } qFixed (some "") (some 0)).map
      (fun o => (o.result, o.file.map (fun f => (f.data.drop 44).length))) =
      some (.Success, some 2000) := by
    set_option maxRecDepth 100000 in decide!
  have hs : ((processedStream (fixedStage qLibm (dc_alpha_for 1000) qFixed) 2048 dcReset
      [silence 2048]).drop
        (4294968 * 1000 / 1000 * 1 * (16 / 8))).take (1000 * 1 * 1 * (16 / 8)) = [] := by
    set_option maxRecDepth 100000 in decide!
  obtain ⟨o, ho, h2⟩ := Option.map_eq_some'.mp h
  simp only [Prod.mk.injEq] at h2
  obtain ⟨h3, h4⟩ := h2
  refine ⟨o, ho, h3, h4, ?_⟩
  rw [hs]
  intro hc
  cases hf : o.file with
  | none => rw [hf] at h4; cases h4
  | some f =>
    rw [hf] at h4 hc
    simp only [Option.map_some', Option.some.injEq] at h4 hc
    rw [hc] at h4
    cases h4

/-! ## C3: the format check -/

/-- An 8-bit session: 8000 Hz, mono, no head drop. -/
theorem eightBit_fixed_run :
    (doRecordingFixedSeconds qLibm (okEnv (List.replicate 4 (silence 2048))) dcReset 1
        { sampleRate := 8000, bitsPerSamp := 8, dropHeadMs := 0 } qFixed none none).map
      (fun o => (o.result, o.file.map (fun f => (f.data.drop 44).length))) =
      some (.Success, some 8000) := by
  set_option maxRecDepth 100000 in decide!

theorem eightBit_auto_run :
    (doRecordingAutoSeconds qLibm (okEnv (List.replicate 4 (silence 2048))) dcReset 1
        { sampleRate := 8000, bitsPerSamp := 8, dropHeadMs := 0 } qAgc none none).map
      (fun o => (o.result, o.file.map (fun f => (f.data.drop 44).length))) =
      some (.Success, some 8000) := by
  set_option maxRecDepth 100000 in decide!

/-- C3 (the code at a failing input). With an 8-bit session (8000 Hz, mono, no head
drop) `recordingFixedEx(1, &s, ...)` and `recordingAutoEx(1, &s, ...)` do not reject the
format: on four blocks from the capture device they create the file, record 8000 data
bytes and return `Success`; `recordingAuto` and `recording` do the same when that session
is the default. The four-argument overload of `recordingFixedEx`, the one place with the
format check, rejects the same session before opening a file. -/
theorem unsupported_format_accepted :
    (recordingFixedEx qLibm (okEnv (List.replicate 4 (silence 2048))) ⟨{}, qFixed, qAgc⟩
        dcReset 1 (some { sampleRate := 8000, bitsPerSamp := 8, dropHeadMs := 0 })
        none none none).map
      (fun o => (o.result, o.file.map (fun f => (f.data.drop 44).length))) =
      some (.Success, some 8000) ∧
    (recordingAutoEx qLibm (okEnv (List.replicate 4 (silence 2048))) ⟨{}, qFixed, qAgc⟩
        dcReset 1 (some { sampleRate := 8000, bitsPerSamp := 8, dropHeadMs := 0 })
        none none none).map
      (fun o => (o.result, o.file.map (fun f => (f.data.drop 44).length))) =
      some (.Success, some 8000) ∧
    (recordingAuto qLibm (okEnv (List.replicate 4 (silence 2048)))
        ⟨{ sampleRate := 8000, bitsPerSamp := 8, dropHeadMs := 0 }, qFixed, qAgc⟩
        dcReset 1 none none).map
      (fun o => (o.result, o.file.map (fun f => (f.data.drop 44).length))) =
      some (.Success, some 8000) ∧
    (recording qLibm (okEnv (List.replicate 4 (silence 2048)))
        ⟨{ sampleRate := 8000, bitsPerSamp := 8, dropHeadMs := 0 }, qFixed, qAgc⟩
        dcReset 1 none none).map
      (fun o => (o.result, o.file.map (fun f => (f.data.drop 44).length))) =
      some (.Success, some 8000) ∧
    (fun o : Outcome ℚ => (o.result, o.file))
      (recordingFixedEx4 (okEnv []) ⟨{}, qFixed, qAgc⟩ dcReset
        (some { sampleRate := 8000, bitsPerSamp := 8, dropHeadMs := 0 }) none none) =
      (.HeaderPlaceWriteError, none) := by
  refine ⟨eightBit_fixed_run, eightBit_auto_run, eightBit_auto_run, eightBit_auto_run, ?_⟩
  decide!

/-! ## C4: the header layout -/

theorem leValue_le16 (n : Nat) : leValue (le16 n) = n % 2 ^ 16 := by
  simp only [leValue, le16]
  omega

theorem leValue_le32 (n : Nat) : leValue (le32 n) = n % 2 ^ 32 := by
  simp only [leValue, le32]
  omega

/-- The file after `writeWavHeader`, field by field. -/
theorem writeWavHeader_data_eq (f : File) (sr bits ch : Nat) (hsize : f.size < 2 ^ 32) :
    (writeWavHeader f sr bits ch).data =
      ascii "RIFF" ++ le32 (36 + (f.size - 44)) ++ ascii "WAVE" ++ ascii "fmt " ++ le32 16 ++
      le16 1 ++ le16 ch ++ le32 sr ++ le32 ((sr * ch * (bits / 8)) % 2 ^ 32) ++
      le16 ((ch * (bits / 8)) % 2 ^ 16) ++ le16 bits ++ ascii "data" ++ le32 (f.size - 44) ++
      f.data.drop 44 := by
  have hrate : u32 (u32 (sr * ch) * (bits / 8)) = (sr * ch * (bits / 8)) % 2 ^ 32 := by
    simp only [u32]
    rw [Nat.mod_mul_mod]
  have hdb : (if u32 f.size < 44 then 44 else u32 f.size) - 44 = f.size - 44 := by
    rw [u32, Nat.mod_eq_of_lt hsize]
    split_ifs <;> omega
  have hcs : u32 (36 + (f.size - 44)) = 36 + (f.size - 44) := by
    rw [u32]
    apply Nat.mod_eq_of_lt
    omega
  rw [writeWavHeader_data, wavHeader_eq, hdb, hcs, hrate, u16]

/-- C4 (amended). For every file and every `sr < 2^32`, `bits < 2^16`, `ch < 2^16` (the
parameter types), `writeWavHeader` replaces exactly the first 44 bytes of the file, and
they are: 0-3 "RIFF", 4-7 little-endian `36 + dataBytes`, 8-11 "WAVE", 12-15 "fmt ",
16-19 the value 16, 20-21 the value 1, 22-23 `ch`, 24-27 `sr`, 28-31 the byte rate
`sr * ch * (bits / 8)` reduced modulo `2^32`, 32-33 the block alignment
`ch * (bits / 8)` reduced modulo `2^16`, 34-35 `bits`, 36-39 "data", 40-43 little-endian
`dataBytes`, where `dataBytes` is the file size minus 44, floored at zero. The two size
fields never wrap. -/
theorem wav_header_layout (f : File) (sr bits ch : Nat) (hsize : f.size < 2 ^ 32)
    (hsr : sr < 2 ^ 32) (hbits : bits < 2 ^ 16) (hch : ch < 2 ^ 16) :
    (writeWavHeader f sr bits ch).data.drop 44 = f.data.drop 44 ∧
    ((writeWavHeader f sr bits ch).data.take 44).length = 44 ∧
    slice (writeWavHeader f sr bits ch).data 0 4 = ascii "RIFF" ∧
    slice (writeWavHeader f sr bits ch).data 4 4 = le32 (36 + (f.size - 44)) ∧
    leValue (slice (writeWavHeader f sr bits ch).data 4 4) = 36 + (f.size - 44) ∧
    slice (writeWavHeader f sr bits ch).data 8 4 = ascii "WAVE" ∧
    slice (writeWavHeader f sr bits ch).data 12 4 = ascii "fmt " ∧
    slice (writeWavHeader f sr bits ch).data 16 4 = [16, 0, 0, 0] ∧
    slice (writeWavHeader f sr bits ch).data 20 2 = [1, 0] ∧
    slice (writeWavHeader f sr bits ch).data 22 2 = le16 ch ∧
    leValue (slice (writeWavHeader f sr bits ch).data 22 2) = ch ∧
    slice (writeWavHeader f sr bits ch).data 24 4 = le32 sr ∧
    leValue (slice (writeWavHeader f sr bits ch).data 24 4) = sr ∧
    slice (writeWavHeader f sr bits ch).data 28 4 = le32 ((sr * ch * (bits / 8)) % 2 ^ 32) ∧
    leValue (slice (writeWavHeader f sr bits ch).data 28 4) = (sr * ch * (bits / 8)) % 2 ^ 32 ∧
    slice (writeWavHeader f sr bits ch).data 32 2 = le16 ((ch * (bits / 8)) % 2 ^ 16) ∧
    leValue (slice (writeWavHeader f sr bits ch).data 32 2) = (ch * (bits / 8)) % 2 ^ 16 ∧
    slice (writeWavHeader f sr bits ch).data 34 2 = le16 bits ∧
    leValue (slice (writeWavHeader f sr bits ch).data 34 2) = bits ∧
    slice (writeWavHeader f sr bits ch).data 36 4 = ascii "data" ∧
    slice (writeWavHeader f sr bits ch).data 40 4 = le32 (f.size - 44) ∧
    leValue (slice (writeWavHeader f sr bits ch).data 40 4) = f.size - 44 := by
  have e4 := leValue_le32 (36 + (f.size - 44))
  have e22 := leValue_le16 ch
  have e24 := leValue_le32 sr
  have e28 := leValue_le32 ((sr * ch * (bits / 8)) % 2 ^ 32)
  have e32 := leValue_le16 ((ch * (bits / 8)) % 2 ^ 16)
  have e34 := leValue_le16 bits
  have e40 := leValue_le32 (f.size - 44)
  rw [Nat.mod_eq_of_lt (by omega)] at e4 e40
  rw [Nat.mod_eq_of_lt hch] at e22
  rw [Nat.mod_eq_of_lt hsr] at e24
  rw [Nat.mod_mod] at e28 e32
  rw [Nat.mod_eq_of_lt hbits] at e34
  rw [writeWavHeader_data_eq f sr bits ch hsize]
  simp only [le32, le16, ascii] at e4 e22 e24 e28 e32 e34 e40 ⊢
  simp [slice]
  simp only [Nat.reducePow] at e28 e32
  exact ⟨e4, e22, e24, e28, e32, e34, e40⟩

/-- A file for C4: the placeholder and four data bytes, rewritten for 16000 Hz, 16 bit,
mono. The byte rate field holds 32000 and the data field 4. -/
theorem wav_header_layout_witness :
    slice (writeWavHeader ⟨List.replicate 44 0 ++ [1, 0, 2, 0], 48, true⟩ 16000 16 1).data
      28 4 = [0, 125, 0, 0] ∧
    leValue (slice (writeWavHeader ⟨List.replicate 44 0 ++ [1, 0, 2, 0], 48, true⟩
      16000 16 1).data 40 4) = 4 ∧
    (writeWavHeader ⟨List.replicate 44 0 ++ [1, 0, 2, 0], 48, true⟩ 16000 16 1).data.drop 44 =
      [1, 0, 2, 0] := by
  have h := wav_header_layout ⟨List.replicate 44 0 ++ [1, 0, 2, 0], 48, true⟩ 16000 16 1
    (by decide) (by decide) (by decide) (by decide)
  exact ⟨h.2.2.2.2.2.2.2.2.2.2.2.2.2.1, h.2.2.2.2.2.2.2.2.2.2.2.2.2.2.2.2.2.2.2.2.2, h.1⟩

/-- C4 as stated fails: for `sr = 2^31`, 16 bit, mono, the byte rate
`sr * ch * (bits / 8)` is `2^32`, and bytes 28-31 of the header are all zero; for
`ch = 256` and `bits = 2048` the block alignment `ch * (bits / 8)` is `65536`, and bytes
32-33 are zero. -/
theorem wav_header_rate_wraps :
    slice (writeWavHeader placeholderFile 2147483648 16 1).data 28 4 = [0, 0, 0, 0] ∧
    leValue (slice (writeWavHeader placeholderFile 2147483648 16 1).data 28 4) ≠
      2147483648 * 1 * (16 / 8) ∧
    slice (writeWavHeader placeholderFile 16000 2048 256).data 32 2 = [0, 0] ∧
    leValue (slice (writeWavHeader placeholderFile 16000 2048 256).data 32 2) ≠
      256 * (2048 / 8) := by
  decide!

/-! ## C5: header round trip -/

/-- C5. For a file of total size `44 + L` (sizes, like `sr`, `bits`, `ch`, within their
C types) the header `writeWavHeader` writes has data-chunk field `L` and riff-chunk field
`36 + L`; for a file shorter than 44 bytes the data-chunk field is 0; and reading bytes
22-23, 24-27 and 34-35 back as little-endian numbers gives the channel count, the sample
rate and the bit depth that were passed in. -/
theorem header_round_trip (f : File) (sr bits ch : Nat) (hsize : f.size < 2 ^ 32)
    (hsr : sr < 2 ^ 32) (hbits : bits < 2 ^ 16) (hch : ch < 2 ^ 16) :
    (∀ L, f.size = 44 + L →
      leValue (slice (writeWavHeader f sr bits ch).data 40 4) = L ∧
      leValue (slice (writeWavHeader f sr bits ch).data 4 4) = 36 + L) ∧
    (f.size < 44 → leValue (slice (writeWavHeader f sr bits ch).data 40 4) = 0) ∧
    leValue (slice (writeWavHeader f sr bits ch).data 22 2) = ch ∧
    leValue (slice (writeWavHeader f sr bits ch).data 24 4) = sr ∧
    leValue (slice (writeWavHeader f sr bits ch).data 34 2) = bits := by
  have e4 := leValue_le32 (36 + (f.size - 44))
  have e22 := leValue_le16 ch
  have e24 := leValue_le32 sr
  have e34 := leValue_le16 bits
  have e40 := leValue_le32 (f.size - 44)
  rw [Nat.mod_eq_of_lt (by omega)] at e4 e40
  rw [Nat.mod_eq_of_lt hch] at e22
  rw [Nat.mod_eq_of_lt hsr] at e24
  rw [Nat.mod_eq_of_lt hbits] at e34
  rw [writeWavHeader_data_eq f sr bits ch hsize]
  simp only [le32, le16, ascii] at e4 e22 e24 e34 e40 ⊢
  simp only [slice, List.append_assoc, List.cons_append, List.nil_append, String.toList,
    List.map, List.drop_succ_cons, List.drop_zero, List.take_succ_cons, List.take_zero]
  refine ⟨fun L hL => ?_, fun hlt => ?_, e22, e24, e34⟩
  · rw [e40, e4, hL]
    omega
  · rw [e40]
    omega

/-- A file for C5: the placeholder and eight data bytes, rewritten for 16000 Hz, 16 bit,
mono. -/
theorem header_round_trip_witness :
    leValue (slice (writeWavHeader ⟨List.replicate 52 0, 52, true⟩ 16000 16 1).data 40 4) = 8 ∧
    leValue (slice (writeWavHeader ⟨List.replicate 52 0, 52, true⟩ 16000 16 1).data 4 4) =
      36 + 8 ∧
    leValue (slice (writeWavHeader ⟨List.replicate 52 0, 52, true⟩ 16000 16 1).data 22 2) = 1 ∧
    leValue (slice (writeWavHeader ⟨List.replicate 52 0, 52, true⟩ 16000 16 1).data 24 4) =
      16000 ∧
    leValue (slice (writeWavHeader ⟨List.replicate 52 0, 52, true⟩ 16000 16 1).data 34 2) =
      16 := by
  have h := header_round_trip ⟨List.replicate 52 0, 52, true⟩ 16000 16 1
    (by decide) (by decide) (by decide) (by decide)
  obtain ⟨h1, -, h3, h4, h5⟩ := h
  obtain ⟨h6, h7⟩ := h1 8 (by decide)
  exact ⟨h6, h7, h3, h4, h5⟩

/-! ## C6: the limiter -/

theorem truncToInt_abs_le (v : K) : |((truncToInt v : Int) : K)| ≤ |v| := by
  unfold truncToInt
  split_ifs with h
  · have h1 : (0 : Int) ≤ ⌊v⌋ := Int.floor_nonneg.mpr h
    have h2 : ((⌊v⌋ : Int) : K) ≤ v := Int.floor_le v
    have h3 : (0 : K) ≤ ((⌊v⌋ : Int) : K) := by exact_mod_cast h1
    rw [abs_of_nonneg h3, abs_of_nonneg h]
    exact h2
  · have hv : v < 0 := lt_of_not_le h
    have h1 : v ≤ ((⌈v⌉ : Int) : K) := Int.le_ceil v
    have h2 : ⌈v⌉ ≤ 0 := Int.ceil_le.mpr (by exact_mod_cast hv.le)
    have h3 : ((⌈v⌉ : Int) : K) ≤ 0 := by exact_mod_cast h2
    rw [abs_of_nonpos h3, abs_of_neg hv]
    linarith

theorem saturate_s16_abs_le (v : K) : |((saturate_s16 v : Int) : K)| ≤ |v| := by
  unfold saturate_s16
  split_ifs with h1 h2
  · have : |v| = v := abs_of_pos (by linarith)
    rw [this]
    norm_num
    exact h1.le
  · have : |v| = -v := abs_of_neg (by linarith)
    rw [this]
    norm_num
    linarith
  · exact truncToInt_abs_le v

theorem saturate_s16_range (v : K) : -32768 ≤ saturate_s16 v ∧ saturate_s16 v ≤ 32767 := by
  unfold saturate_s16
  split_ifs with h1 h2
  · constructor <;> norm_num
  · constructor <;> norm_num
  · have h3 : v ≤ 32767 := le_of_not_lt h1
    have h4 : -32768 ≤ v := le_of_not_lt h2
    unfold truncToInt
    split_ifs with h
    · constructor
      · have : (0 : Int) ≤ ⌊v⌋ := Int.floor_nonneg.mpr h
        omega
      · have h5 : ((⌊v⌋ : Int) : K) ≤ 32767 := le_trans (Int.floor_le v) h3
        exact_mod_cast h5
    · have hv : v < 0 := lt_of_not_le h
      constructor
      · have h5 : (-32768 : K) ≤ ((⌈v⌉ : Int) : K) := le_trans h4 (Int.le_ceil v)
        exact_mod_cast h5
      · have h2 : ⌈v⌉ ≤ 0 := Int.ceil_le.mpr (by exact_mod_cast hv.le)
        omega

theorem gainPeak_ge (g : K) : ∀ (io : List Int) (pk : K),
    pk ≤ gainPeak g io pk ∧ ∀ s ∈ io, |(s : K) * g| ≤ gainPeak g io pk
  | [], pk => ⟨le_refl _, fun s hs => by cases hs⟩
  | x :: rest, pk => by
    obtain ⟨h1, h2⟩ := gainPeak_ge g rest (if |(x : K) * g| > pk then |(x : K) * g| else pk)
    simp only [gainPeak]
    constructor
    · refine le_trans ?_ h1
      split_ifs with h
      · exact h.le
      · exact le_refl _
    · intro s hs
      rcases List.mem_cons.mp hs with rfl | hs
      · refine le_trans ?_ h1
        split_ifs with h
        · exact le_refl _
        · exact le_of_not_lt h
      · exact h2 s hs

theorem limitedGain_bound (io : List Int) (g : K) :
    ∀ s ∈ io, |(s : K) * limitedGain io g| ≤ LIMIT_THRESH := by
  intro s hs
  obtain ⟨h0, hp⟩ := gainPeak_ge g io 0
  have hs1 := hp s hs
  unfold limitedGain
  simp only []
  split_ifs with h
  · have hpos : 0 < gainPeak g io 0 + 1 / 10 ^ 12 := by positivity
    have hL : (0 : K) ≤ LIMIT_THRESH := by unfold LIMIT_THRESH; norm_num
    have e : (s : K) * (g * (LIMIT_THRESH / (gainPeak g io 0 + 1 / 10 ^ 12))) =
        ((s : K) * g) * (LIMIT_THRESH / (gainPeak g io 0 + 1 / 10 ^ 12)) := by ring
    rw [e, abs_mul, abs_of_nonneg (div_nonneg hL hpos.le), ← mul_div_assoc,
      div_le_iff₀ hpos]
    have h3 : |(s : K) * g| ≤ gainPeak g io 0 + 1 / 10 ^ 12 := by
      have : (0 : K) ≤ 1 / 10 ^ 12 := by positivity
      linarith
    calc |(s : K) * g| * LIMIT_THRESH ≤ (gainPeak g io 0 + 1 / 10 ^ 12) * LIMIT_THRESH :=
          mul_le_mul_of_nonneg_right h3 hL
      _ = LIMIT_THRESH * (gainPeak g io 0 + 1 / 10 ^ 12) := by ring
  · exact le_trans hs1 (le_of_not_lt h)

/-- C6. For every block and every gain `g`, each sample `applyFixedGain` writes back lies
in `[-32768, 32767]` and its magnitude is at most 98% of full scale, `0.98 * 32767`; the
`float` arithmetic is exact arithmetic in an ordered field. -/
theorem fixed_gain_bounded (io : List Int) (g : K) :
    ∀ y ∈ applyFixedGain io g,
      -32768 ≤ y ∧ y ≤ 32767 ∧ |((y : Int) : K)| ≤ 98 / 100 * 32767 := by
  intro y hy
  unfold applyFixedGain at hy
  simp only [List.mem_map] at hy
  obtain ⟨s, hs, rfl⟩ := hy
  obtain ⟨h1, h2⟩ := saturate_s16_range ((s : K) * limitedGain io g)
  refine ⟨h1, h2, ?_⟩
  have h3 := saturate_s16_abs_le ((s : K) * limitedGain io g)
  have h4 := limitedGain_bound io g s hs
  unfold LIMIT_THRESH at h4
  linarith

/-- A block for C6: the samples 100 and -200 under a gain of 1000 come out at 16055 and
-32111, under the 98% threshold 32111.66. -/
theorem fixed_gain_bounded_witness :
    (16055 : Int) ∈ applyFixedGain [100, -200] (1000 : ℚ) ∧
    (-32768 ≤ (16055 : Int) ∧ (16055 : Int) ≤ 32767 ∧
      |(((16055 : Int) : Int) : ℚ)| ≤ 98 / 100 * 32767) :=
  ⟨by decide!, fixed_gain_bounded [100, -200] (1000 : ℚ) 16055 (by decide!)⟩

/-! ## C7: a hard read error -/

/-- C7. When a capture read reports a hard error while the recording is in its loop (the
reads before it were consumed and fewer than `totalBytes` bytes are written, i.e. the call
on the script cut before that read has not returned), `doRecordingFixedSeconds` and
`doRecordingAutoSeconds` return `I2sReadError`, the file is closed, its first 44 bytes are
still the all-zero placeholder (so the data-chunk field reads 0), and `outPath` and
`outBytes` are left as they were. -/
theorem read_error_aborts (m : Libm K) (env : Env) (dcPrior : DcState K) (d : Nat)
    (s : SessionConfig) (g : FixedGainConfig K) (a : AgcConfig K) (outPath : Option String)
    (outBytes : Option Nat) (pre post : List ReadEvent) (e : ReadEvent)
    (he : e.err = true) (hreads : env.reads = pre ++ e :: post) :
    (doRecordingFixedSeconds m { env with reads := pre } dcPrior d s g outPath outBytes = none →
      ∃ o f, doRecordingFixedSeconds m env dcPrior d s g outPath outBytes = some o ∧
        o.result = .I2sReadError ∧ o.file = some f ∧ f.isOpen = false ∧
        f.data.take 44 = List.replicate 44 0 ∧ leValue (slice f.data 40 4) = 0 ∧
        o.outPath = outPath ∧ o.outBytes = outBytes) ∧
    (doRecordingAutoSeconds m { env with reads := pre } dcPrior d s a outPath outBytes = none →
      ∃ o f, doRecordingAutoSeconds m env dcPrior d s a outPath outBytes = some o ∧
        o.result = .I2sReadError ∧ o.file = some f ∧ f.isOpen = false ∧
        f.data.take 44 = List.replicate 44 0 ∧ leValue (slice f.data 40 4) = 0 ∧
        o.outPath = outPath ∧ o.outBytes = outBytes) := by
  constructor
  · intro hrun
    obtain ⟨h1, h2, st1, h3⟩ := doRecordingFixedSeconds_running m _ dcPrior d s g outPath
      outBytes hrun
    obtain ⟨h4, h5⟩ := recordLoop_read_error (fixedStage_lengthPreserving m _ g)
      (totalBytes_lt s d) pre post e he _ st1 (placeholder_inv _ _ _) h3
    rw [← hreads] at h4
    exact ⟨_, _, doRecordingFixedSeconds_failed m env dcPrior d s g outPath outBytes _ _ h1 h2 h4,
      rfl, rfl, rfl, h5, slice_data_field _ h5, rfl, rfl⟩
  · intro hrun
    obtain ⟨h1, h2, st1, h3⟩ := doRecordingAutoSeconds_running m _ dcPrior d s a outPath
      outBytes hrun
    obtain ⟨h4, h5⟩ := recordLoop_read_error (autoStage_lengthPreserving m _ a _)
      (totalBytes_lt s d) pre post e he _ st1 (placeholder_inv _ _ _) h3
    rw [← hreads] at h4
    exact ⟨_, _, doRecordingAutoSeconds_failed m env dcPrior d s a outPath outBytes _ _ h1 h2 h4,
      rfl, rfl, rfl, h5, slice_data_field _ h5, rfl, rfl⟩

/-- A run for C7: 1 second at 4 Hz (8 bytes wanted); after a block of four bytes the next
read fails. The call returns `I2sReadError` and leaves `outBytes` at its old value 7. -/
theorem read_error_aborts_witness :
    ∃ (o : Outcome ℚ) (f : File),
      doRecordingFixedSeconds qLibm (okEnv [okRead [1, 0, 2, 0], ⟨true, [], 0⟩, okRead [3, 0]])
        dcReset 1 { sampleRate := 4, dropHeadMs := 0 } qFixed (some "old") (some 7) = some o ∧
      o.result = .I2sReadError ∧ o.file = some f ∧ f.isOpen = false ∧
      f.data.take 44 = List.replicate 44 0 ∧ leValue (slice f.data 40 4) = 0 ∧
      o.outPath = some "old" ∧ o.outBytes = some 7 :=
  (read_error_aborts qLibm (okEnv [okRead [1, 0, 2, 0], ⟨true, [], 0⟩, okRead [3, 0]]) dcReset 1
    { sampleRate := 4, dropHeadMs := 0 } qFixed qAgc (some "old") (some 7)
    [okRead [1, 0, 2, 0]] [okRead [3, 0]] ⟨true, [], 0⟩ rfl rfl).1
    (Option.isNone_iff_eq_none.mp (by decide!))

/-! ## C8: the AGC step -/

theorem one_pole_coeff_ms_range (m : Libm K) (ms fs : K) (n : Nat) :
    0 ≤ one_pole_coeff_ms m ms fs n ∧ one_pole_coeff_ms m ms fs n ≤ 1 := by
  unfold one_pole_coeff_ms
  simp only []
  split_ifs with h1 h2 h3 h4 <;> constructor <;> linarith

theorem agcCoeff_range (m : Libm K) (cur rms : K) (agc : AgcConfig K) (n fs : Nat) :
    0 ≤ agcCoeff m cur rms agc n fs ∧ agcCoeff m cur rms agc n fs ≤ 1 := by
  have h1 := one_pole_coeff_ms_range m agc.attackMs (fs : K) n
  have h2 := one_pole_coeff_ms_range m agc.releaseMs (fs : K) n
  have h3 := one_pole_coeff_ms_range m agc.gateReleaseMs (fs : K) n
  unfold agcCoeff
  simp only []
  split_ifs <;> first | exact h1 | exact h2 | exact h3

theorem db2lin_mono (m : Libm K) (hmono : Monotone (m.powf 10)) {x y : K} (h : x ≤ y) :
    db2lin m x ≤ db2lin m y := by
  unfold db2lin
  exact hmono (div_le_div_of_nonneg_right h (by norm_num))

theorem agcNeeded_eq (m : Libm K) (rms : K) (agc : AgcConfig K)
    (hlin : db2lin m agc.minGainDb ≤ db2lin m agc.maxGainDb) :
    agcNeeded m rms agc =
      max (db2lin m agc.minGainDb)
        (min (if rms ≤ 1 then db2lin m agc.maxGainDb
              else db2lin m agc.targetPeakDbFS * 32767 / rms) (db2lin m agc.maxGainDb)) := by
  unfold agcNeeded
  simp only []
  by_cases hr : rms ≤ 1
  · have hr1 : ¬ rms > 1 := not_lt.mpr hr
    simp only [hr1, hr, if_true, if_false, gt_iff_lt, lt_self_iff_false, min_self]
    rw [if_neg (not_lt.mpr hlin), max_eq_right hlin]
  · have hr1 : rms > 1 := lt_of_not_le hr
    simp only [hr1, hr, if_true, if_false]
    by_cases h1 : db2lin m agc.targetPeakDbFS * 32767 / rms > db2lin m agc.maxGainDb
    · rw [if_pos h1, if_neg (not_lt.mpr hlin), min_eq_right h1.le, max_eq_right hlin]
    · rw [if_neg h1, min_eq_left (le_of_not_lt h1)]
      by_cases h2 : db2lin m agc.targetPeakDbFS * 32767 / rms < db2lin m agc.minGainDb
      · rw [if_pos h2, max_eq_left h2.le]
      · rw [if_neg h2, max_eq_right (le_of_not_lt h2)]

theorem agcNeeded_range (m : Libm K) (rms : K) (agc : AgcConfig K)
    (hlin : db2lin m agc.minGainDb ≤ db2lin m agc.maxGainDb) :
    db2lin m agc.minGainDb ≤ agcNeeded m rms agc ∧
    agcNeeded m rms agc ≤ db2lin m agc.maxGainDb := by
  rw [agcNeeded_eq m rms agc hlin]
  exact ⟨le_max_left _ _, max_le hlin (min_le_right _ _)⟩

/-- One step of `agc_update_gain` against the gain the block asks for. -/
theorem agc_update_gain_between (m : Libm K) (cur rms : K) (agc : AgcConfig K) (n fs : Nat)
    (hlin : db2lin m agc.minGainDb ≤ db2lin m agc.maxGainDb) :
    min cur (agcNeeded m rms agc) ≤ agc_update_gain m cur rms agc n fs ∧
    agc_update_gain m cur rms agc n fs ≤ max cur (agcNeeded m rms agc) ∧
    db2lin m agc.minGainDb ≤ agc_update_gain m cur rms agc n fs ∧
    agc_update_gain m cur rms agc n fs ≤ db2lin m agc.maxGainDb := by
  obtain ⟨ha0, ha1⟩ := agcCoeff_range m cur rms agc n fs
  obtain ⟨hn0, hn1⟩ := agcNeeded_range m rms agc hlin
  have hb1 : min cur (agcNeeded m rms agc) ≤
      agcCoeff m cur rms agc n fs * cur +
        (1 - agcCoeff m cur rms agc n fs) * agcNeeded m rms agc := by
    have h1 := min_le_left cur (agcNeeded m rms agc)
    have h2 := min_le_right cur (agcNeeded m rms agc)
    nlinarith [mul_le_mul_of_nonneg_left h1 ha0,
      mul_le_mul_of_nonneg_left h2 (sub_nonneg.mpr ha1)]
  have hb2 : agcCoeff m cur rms agc n fs * cur +
        (1 - agcCoeff m cur rms agc n fs) * agcNeeded m rms agc ≤
      max cur (agcNeeded m rms agc) := by
    have h1 := le_max_left cur (agcNeeded m rms agc)
    have h2 := le_max_right cur (agcNeeded m rms agc)
    nlinarith [mul_le_mul_of_nonneg_left h1 ha0,
      mul_le_mul_of_nonneg_left h2 (sub_nonneg.mpr ha1)]
  have hmin : min cur (agcNeeded m rms agc) ≤ db2lin m agc.maxGainDb :=
    le_trans (min_le_right _ _) hn1
  have hmax : db2lin m agc.minGainDb ≤ max cur (agcNeeded m rms agc) :=
    le_trans hn0 (le_max_right _ _)
  unfold agc_update_gain
  simp only []
  split_ifs with h1 h2 h3
  · exact absurd (lt_of_lt_of_le h2 hlin) (lt_irrefl _)
  · exact ⟨hmin, le_trans h1.le hb2, hlin, le_refl _⟩
  · exact ⟨le_trans hb1 h3.le, hmax, le_refl _, hlin⟩
  · exact ⟨hb1, hb2, le_of_not_lt h3, le_of_not_lt h1⟩

theorem roundsLike_zero {rnd : K → K} {u tiny : K} (hr : RoundsLike rnd u tiny) :
    rnd 0 = 0 := by
  have h := hr.odd 0
  rw [neg_zero] at h
  linarith

theorem roundsLike_nonneg {rnd : K → K} {u tiny : K} (hr : RoundsLike rnd u tiny) {x : K}
    (hx : 0 ≤ x) : 0 ≤ rnd x := by
  have h := hr.mono hx
  rwa [roundsLike_zero hr] at h

theorem roundsLike_nonpos {rnd : K → K} {u tiny : K} (hr : RoundsLike rnd u tiny) {x : K}
    (hx : x ≤ 0) : rnd x ≤ 0 := by
  have h := hr.mono hx
  rwa [roundsLike_zero hr] at h

theorem roundsLike_up {rnd : K → K} {u tiny : K} (hr : RoundsLike rnd u tiny) {x : K}
    (hx : 0 ≤ x) : rnd x ≤ (1 + u) * x + tiny := by
  have h1 := hr.rel x
  rw [abs_of_nonneg (roundsLike_nonneg hr hx), abs_of_nonneg hx] at h1
  have h2 : (0 : K) ≤ (1 + u) * x := mul_nonneg (by linarith [hr.u_nonneg]) hx
  have h3 := hr.tiny_nonneg
  exact le_trans h1 (max_le (by linarith) (by linarith))

theorem one_pole_coeff_msR_range (rnd : K → K) (m : Libm K) (ms fs : K) (n : Nat) :
    0 ≤ one_pole_coeff_msR rnd m ms fs n ∧ one_pole_coeff_msR rnd m ms fs n ≤ 1 := by
  unfold one_pole_coeff_msR
  simp only []
  split_ifs with h1 h2 h3 h4 <;> constructor <;> linarith

theorem agcCoeffR_range (rnd : K → K) (m : Libm K) (cur rms : K) (agc : AgcConfig K)
    (n fs : Nat) :
    0 ≤ agcCoeffR rnd m cur rms agc n fs ∧ agcCoeffR rnd m cur rms agc n fs ≤ 1 := by
  have h1 := one_pole_coeff_msR_range rnd m agc.attackMs (rnd (fs : K)) n
  have h2 := one_pole_coeff_msR_range rnd m agc.releaseMs (rnd (fs : K)) n
  have h3 := one_pole_coeff_msR_range rnd m agc.gateReleaseMs (rnd (fs : K)) n
  unfold agcCoeffR
  simp only []
  split_ifs <;> first | exact h1 | exact h2 | exact h3

theorem db2linR_mono (rnd : K → K) (m : Libm K) (hrnd : Monotone rnd)
    (hmono : Monotone (m.powf 10)) {x y : K} (h : x ≤ y) :
    db2linR rnd m x ≤ db2linR rnd m y := by
  unfold db2linR
  exact hmono (hrnd (div_le_div_of_nonneg_right h (by norm_num)))

theorem agcNeededR_eq (rnd : K → K) (m : Libm K) (rms : K) (agc : AgcConfig K)
    (hlin : db2linR rnd m agc.minGainDb ≤ db2linR rnd m agc.maxGainDb) :
    agcNeededR rnd m rms agc =
      max (db2linR rnd m agc.minGainDb)
        (min (if rms ≤ 1 then db2linR rnd m agc.maxGainDb
              else rnd (rnd (db2linR rnd m agc.targetPeakDbFS * 32767) / rms))
          (db2linR rnd m agc.maxGainDb)) := by
  unfold agcNeededR
  simp only []
  by_cases hr : rms ≤ 1
  · have hr1 : ¬ rms > 1 := not_lt.mpr hr
    simp only [hr1, hr, if_true, if_false, gt_iff_lt, lt_self_iff_false, min_self]
    rw [if_neg (not_lt.mpr hlin), max_eq_right hlin]
  · have hr1 : rms > 1 := lt_of_not_le hr
    simp only [hr1, hr, if_true, if_false]
    by_cases h1 : rnd (rnd (db2linR rnd m agc.targetPeakDbFS * 32767) / rms) >
        db2linR rnd m agc.maxGainDb
    · rw [if_pos h1, if_neg (not_lt.mpr hlin), min_eq_right h1.le, max_eq_right hlin]
    · rw [if_neg h1, min_eq_left (le_of_not_lt h1)]
      by_cases h2 : rnd (rnd (db2linR rnd m agc.targetPeakDbFS * 32767) / rms) <
          db2linR rnd m agc.minGainDb
      · rw [if_pos h2, max_eq_left h2.le]
      · rw [if_neg h2, max_eq_right (le_of_not_lt h2)]

theorem agcNeededR_range (rnd : K → K) (m : Libm K) (rms : K) (agc : AgcConfig K)
    (hlin : db2linR rnd m agc.minGainDb ≤ db2linR rnd m agc.maxGainDb) :
    db2linR rnd m agc.minGainDb ≤ agcNeededR rnd m rms agc ∧
    agcNeededR rnd m rms agc ≤ db2linR rnd m agc.maxGainDb := by
  rw [agcNeededR_eq rnd m rms agc hlin]
  exact ⟨le_max_left _ _, max_le hlin (min_le_right _ _)⟩

/-- The final clamp of `agc_update_gain` keeps the result within the gain bounds,
whatever the blend came out as. -/
theorem agc_update_gainR_range (rnd : K → K) (m : Libm K) (cur rms : K) (agc : AgcConfig K)
    (n fs : Nat) (hlin : db2linR rnd m agc.minGainDb ≤ db2linR rnd m agc.maxGainDb) :
    db2linR rnd m agc.minGainDb ≤ agc_update_gainR rnd m cur rms agc n fs ∧
    agc_update_gainR rnd m cur rms agc n fs ≤ db2linR rnd m agc.maxGainDb := by
  unfold agc_update_gainR
  simp only []
  split_ifs with h1 h2 h3
  · exact ⟨le_refl _, hlin⟩
  · exact ⟨hlin, le_refl _⟩
  · exact ⟨le_refl _, hlin⟩
  · exact ⟨le_of_not_lt h3, le_of_not_lt h1⟩

/-- The rounded blend of two non-negative gains is at most their maximum, up to three
roundings. -/
theorem agcBlendR_le {rnd : K → K} {u tiny : K} (hr : RoundsLike rnd u tiny) (hu : u ≤ 1)
    {a x y M : K} (ha0 : 0 ≤ a) (ha1 : a ≤ 1) (hx : 0 ≤ x) (hy : 0 ≤ y) (hxM : x ≤ M)
    (hyM : y ≤ M) :
    agcBlendR rnd a x y ≤ (1 + u) ^ 3 * M + (4 * M + 5) * tiny := by
  have hu0 := hr.u_nonneg
  have ht0 := hr.tiny_nonneg
  have hM : 0 ≤ M := le_trans hx hxM
  have hU : 0 ≤ 1 + u := by linarith
  have hb0 : 0 ≤ rnd (1 - a) := roundsLike_nonneg hr (by linarith)
  have hb1 : rnd (1 - a) ≤ (1 + u) * (1 - a) + tiny := roundsLike_up hr (by linarith)
  have hp0 : 0 ≤ rnd (a * x) := roundsLike_nonneg hr (mul_nonneg ha0 hx)
  have hp1 : rnd (a * x) ≤ (1 + u) * (a * x) + tiny := roundsLike_up hr (mul_nonneg ha0 hx)
  have hq0 : 0 ≤ rnd (rnd (1 - a) * y) := roundsLike_nonneg hr (mul_nonneg hb0 hy)
  have hq1 : rnd (rnd (1 - a) * y) ≤ (1 + u) * (rnd (1 - a) * y) + tiny :=
    roundsLike_up hr (mul_nonneg hb0 hy)
  have ht1 : rnd (rnd (a * x) + rnd (rnd (1 - a) * y)) ≤
      (1 + u) * (rnd (a * x) + rnd (rnd (1 - a) * y)) + tiny :=
    roundsLike_up hr (add_nonneg hp0 hq0)
  unfold agcBlendR
  generalize rnd (rnd (a * x) + rnd (rnd (1 - a) * y)) = t at ht1
  generalize rnd (a * x) = p at hp0 hp1 ht1
  generalize rnd (rnd (1 - a) * y) = q at hq0 hq1 ht1
  generalize rnd (1 - a) = b at hb0 hb1 hq1
  have h1 : a * x ≤ a * M := mul_le_mul_of_nonneg_left hxM ha0
  have h2 : b * y ≤ b * M := mul_le_mul_of_nonneg_left hyM hb0
  have h3 : a + b ≤ (1 + u) + tiny := by
    have e : (1 + u) * (1 - a) = 1 + u - a - u * a := by ring
    rw [e] at hb1
    linarith [mul_nonneg hu0 ha0]
  have h4 : (1 + u) * M * (a + b) ≤ (1 + u) * M * ((1 + u) + tiny) :=
    mul_le_mul_of_nonneg_left h3 (mul_nonneg hU hM)
  have h5 : p + q ≤ (1 + u) * M * ((1 + u) + tiny) + 2 * tiny := by
    have e1 := mul_le_mul_of_nonneg_left h1 hU
    have e2 := mul_le_mul_of_nonneg_left h2 hU
    have e3 : (1 + u) * (a * M) + (1 + u) * (b * M) = (1 + u) * M * (a + b) := by ring
    linarith
  have h6 : (1 + u) * (p + q) ≤ (1 + u) * ((1 + u) * M * ((1 + u) + tiny) + 2 * tiny) :=
    mul_le_mul_of_nonneg_left h5 hU
  have h7 : (1 + u) * ((1 + u) * M * ((1 + u) + tiny) + 2 * tiny) + tiny =
      (1 + u) ^ 3 * M + ((1 + u) ^ 2 * M + 2 * (1 + u) + 1) * tiny := by ring
  have h8 : (1 + u) ^ 2 ≤ 4 := by
    have := pow_le_pow_left₀ hU (show 1 + u ≤ 2 by linarith) 2
    norm_num at this
    exact this
  have h9 : (1 + u) ^ 2 * M + 2 * (1 + u) + 1 ≤ 4 * M + 5 := by
    have := mul_le_mul_of_nonneg_right h8 hM
    linarith
  have h10 := mul_le_mul_of_nonneg_right h9 ht0
  linarith

/-- The rounded blend of two non-negative gains is at least their minimum, up to three
roundings. -/
theorem agcBlendR_ge {rnd : K → K} {u tiny : K} (hr : RoundsLike rnd u tiny) (hu : u ≤ 1)
    {a x y w : K} (ha0 : 0 ≤ a) (ha1 : a ≤ 1) (hw : 0 ≤ w) (hwx : w ≤ x) (hwy : w ≤ y) :
    (1 - u) ^ 3 * w - (w + 3) * tiny ≤ agcBlendR rnd a x y := by
  have hu0 := hr.u_nonneg
  have ht0 := hr.tiny_nonneg
  have hx : 0 ≤ x := le_trans hw hwx
  have hy : 0 ≤ y := le_trans hw hwy
  have hL : 0 ≤ 1 - u := by linarith
  have hL1 : 1 - u ≤ 1 := by linarith
  have hb0 : 0 ≤ rnd (1 - a) := roundsLike_nonneg hr (by linarith)
  have hb1 : (1 - u) * (1 - a) - tiny ≤ rnd (1 - a) := hr.low _ (by linarith)
  have hp0 : 0 ≤ rnd (a * x) := roundsLike_nonneg hr (mul_nonneg ha0 hx)
  have hp1 : (1 - u) * (a * x) - tiny ≤ rnd (a * x) := hr.low _ (mul_nonneg ha0 hx)
  have hq0 : 0 ≤ rnd (rnd (1 - a) * y) := roundsLike_nonneg hr (mul_nonneg hb0 hy)
  have hq1 : (1 - u) * (rnd (1 - a) * y) - tiny ≤ rnd (rnd (1 - a) * y) :=
    hr.low _ (mul_nonneg hb0 hy)
  have ht1 : (1 - u) * (rnd (a * x) + rnd (rnd (1 - a) * y)) - tiny ≤
      rnd (rnd (a * x) + rnd (rnd (1 - a) * y)) :=
    hr.low _ (add_nonneg hp0 hq0)
  unfold agcBlendR
  generalize rnd (rnd (a * x) + rnd (rnd (1 - a) * y)) = t at ht1
  generalize rnd (a * x) = p at hp0 hp1 ht1
  generalize rnd (rnd (1 - a) * y) = q at hq0 hq1 ht1
  generalize rnd (1 - a) = b at hb0 hb1 hq1
  have hLw : 0 ≤ (1 - u) * w := mul_nonneg hL hw
  have h1 : a * w ≤ a * x := mul_le_mul_of_nonneg_left hwx ha0
  have h2 : b * w ≤ b * y := mul_le_mul_of_nonneg_left hwy hb0
  have h3 : (1 - u) - tiny ≤ a + b := by
    have e : (1 - u) * (1 - a) = 1 - u - a + u * a := by ring
    rw [e] at hb1
    linarith [mul_nonneg hu0 ha0]
  have h4 : (1 - u) * w * ((1 - u) - tiny) ≤ (1 - u) * w * (a + b) :=
    mul_le_mul_of_nonneg_left h3 hLw
  have h5 : (1 - u) * w * ((1 - u) - tiny) - 2 * tiny ≤ p + q := by
    have e1 := mul_le_mul_of_nonneg_left h1 hL
    have e2 := mul_le_mul_of_nonneg_left h2 hL
    have e3 : (1 - u) * (a * w) + (1 - u) * (b * w) = (1 - u) * w * (a + b) := by ring
    linarith
  have h6 : (1 - u) * ((1 - u) * w * ((1 - u) - tiny) - 2 * tiny) ≤ (1 - u) * (p + q) :=
    mul_le_mul_of_nonneg_left h5 hL
  have h7 : (1 - u) * ((1 - u) * w * ((1 - u) - tiny) - 2 * tiny) - tiny =
      (1 - u) ^ 3 * w - ((1 - u) ^ 2 * w + 2 * (1 - u) + 1) * tiny := by ring
  have h8 : (1 - u) ^ 2 ≤ 1 := pow_le_one₀ hL hL1
  have h9 : (1 - u) ^ 2 * w + 2 * (1 - u) + 1 ≤ w + 3 := by
    have := mul_le_mul_of_nonneg_right h8 hw
    linarith
  have h10 := mul_le_mul_of_nonneg_right h9 ht0
  linarith

/-- One step of `agc_update_gain` in rounded arithmetic stays within three roundings of
the interval between the current gain and the gain the block asks for. -/
theorem agc_update_gainR_near {rnd : K → K} {u tiny : K} (hr : RoundsLike rnd u tiny)
    (hu : u ≤ 1) (m : Libm K) (cur rms : K) (agc : AgcConfig K) (n fs : Nat)
    (hlin : db2linR rnd m agc.minGainDb ≤ db2linR rnd m agc.maxGainDb)
    (hmin : 0 ≤ db2linR rnd m agc.minGainDb) (hcur : 0 ≤ cur) :
    (1 - u) ^ 3 * min cur (agcNeededR rnd m rms agc) -
        (min cur (agcNeededR rnd m rms agc) + 3) * tiny ≤
      agc_update_gainR rnd m cur rms agc n fs ∧
    agc_update_gainR rnd m cur rms agc n fs ≤
      (1 + u) ^ 3 * max cur (agcNeededR rnd m rms agc) +
        (4 * max cur (agcNeededR rnd m rms agc) + 5) * tiny := by
  have hu0 := hr.u_nonneg
  have ht0 := hr.tiny_nonneg
  obtain ⟨ha0, ha1⟩ := agcCoeffR_range rnd m cur rms agc n fs
  obtain ⟨hn0, hn1⟩ := agcNeededR_range rnd m rms agc hlin
  have hneed : 0 ≤ agcNeededR rnd m rms agc := le_trans hmin hn0
  have hw : 0 ≤ min cur (agcNeededR rnd m rms agc) := le_min hcur hneed
  have hM : 0 ≤ max cur (agcNeededR rnd m rms agc) := le_trans hcur (le_max_left _ _)
  have hlo := agcBlendR_ge hr hu ha0 ha1 hw (min_le_left _ _) (min_le_right _ _)
  have hhi := agcBlendR_le hr hu ha0 ha1 hcur hneed (le_max_left cur _) (le_max_right cur _)
  have hL3 : (1 - u) ^ 3 ≤ 1 := pow_le_one₀ (by linarith) (by linarith)
  have hU3 : 1 ≤ (1 + u) ^ 3 := one_le_pow₀ (by linarith)
  have hloM : (1 - u) ^ 3 * min cur (agcNeededR rnd m rms agc) -
      (min cur (agcNeededR rnd m rms agc) + 3) * tiny ≤ agcNeededR rnd m rms agc := by
    have e1 := mul_le_mul_of_nonneg_right hL3 hw
    have e2 : 0 ≤ (min cur (agcNeededR rnd m rms agc) + 3) * tiny :=
      mul_nonneg (by linarith) ht0
    have e3 := min_le_right cur (agcNeededR rnd m rms agc)
    linarith
  have hhiM : agcNeededR rnd m rms agc ≤
      (1 + u) ^ 3 * max cur (agcNeededR rnd m rms agc) +
        (4 * max cur (agcNeededR rnd m rms agc) + 5) * tiny := by
    have e1 := mul_le_mul_of_nonneg_right hU3 hM
    have e2 : 0 ≤ (4 * max cur (agcNeededR rnd m rms agc) + 5) * tiny :=
      mul_nonneg (by linarith) ht0
    have e3 := le_max_right cur (agcNeededR rnd m rms agc)
    linarith
  unfold agc_update_gainR
  simp only []
  split_ifs with h1 h2 h3
  · exact absurd (lt_of_lt_of_le h2 hlin) (lt_irrefl _)
  · exact ⟨le_trans hloM hn1, le_trans h1.le hhi⟩
  · exact ⟨le_trans hlo h3.le, le_trans hn0 hhiM⟩
  · exact ⟨hlo, hhi⟩

theorem agcNeededR_id (m : Libm K) (rms : K) (agc : AgcConfig K) :
    agcNeededR id m rms agc = agcNeeded m rms agc := rfl

theorem agc_update_gainR_id (m : Libm K) (cur rms : K) (agc : AgcConfig K) (n fs : Nat) :
    agc_update_gainR id m cur rms agc n fs = agc_update_gain m cur rms agc n fs := rfl

/-- A map that sends every point between the point and a target has iterates that move
monotonically toward the target and never pass it. -/
theorem iterate_toward (f : K → K) (t : K)
    (hstep : ∀ x, min x t ≤ f x ∧ f x ≤ max x t) (cur : K) (k : Nat) :
    (cur ≤ t → f^[k] cur ≤ f^[k + 1] cur ∧ f^[k + 1] cur ≤ t) ∧
    (t ≤ cur → t ≤ f^[k + 1] cur ∧ f^[k + 1] cur ≤ f^[k] cur) := by
  constructor
  · intro hc
    have hle : ∀ j : Nat, f^[j] cur ≤ t := by
      intro j
      induction j with
      | zero => exact hc
      | succ j ih =>
        rw [Function.iterate_succ_apply']
        have h2 := (hstep (f^[j] cur)).2
        rwa [max_eq_right ih] at h2
    refine ⟨?_, hle (k + 1)⟩
    rw [Function.iterate_succ_apply']
    have h1 := (hstep (f^[k] cur)).1
    rwa [min_eq_left (hle k)] at h1
  · intro hc
    have hge : ∀ j : Nat, t ≤ f^[j] cur := by
      intro j
      induction j with
      | zero => exact hc
      | succ j ih =>
        rw [Function.iterate_succ_apply']
        have h1 := (hstep (f^[j] cur)).1
        rwa [min_eq_right ih] at h1
    refine ⟨hge (k + 1), ?_⟩
    rw [Function.iterate_succ_apply']
    have h2 := (hstep (f^[k] cur)).2
    rwa [max_eq_left (hge k)] at h2

theorem f32Libm_powf_mono : Monotone (f32Libm.powf 10) := by
  intro x y h
  exact f32_mono (zpow_le_zpow_right₀ (by norm_num) (Int.floor_mono h))

theorem f32Libm_powf_nonneg (e : ℚ) : 0 ≤ f32Libm.powf 10 e := by
  have h : (0 : ℚ) ≤ (10 : ℚ) ^ ⌊e⌋ := by positivity
  have h2 := f32_mono h
  rwa [f32_zero] at h2

theorem agcNeededR_589 : agcNeededR f32 f32Libm 589 qAgc0 = 14583485 / 262144 := by
  set_option maxRecDepth 100000 in decide!

theorem agc_update_gainR_eight :
    (fun x => agc_update_gainR f32 f32Libm x 589 qAgc0 1000 8000)^[8] 100 =
      7291743 / 131072 := by
  set_option maxRecDepth 100000 in decide!

theorem agc_update_gainR_ninth :
    agc_update_gainR f32 f32Libm (7291743 / 131072) 589 qAgc0 1000 8000 =
      3645871 / 65536 := by
  set_option maxRecDepth 100000 in decide!

theorem agcNeededR_1934 : agcNeededR f32 f32LibmDb 1934 qAgc = 12577089 / 1048576 := by
  set_option maxRecDepth 100000 in decide!

theorem agc_update_gainR_1934 :
    agc_update_gainR f32 f32LibmDb (6288545 / 524288) 1934 qAgc 1000 8000 =
      196517 / 16384 := by
  set_option maxRecDepth 100000 in decide!

/-- C8 as stated fails in the `float` arithmetic of the code. With the levels of `qAgc0`
(target peak 0 dBFS, gains between 0 dB and 40 dB), blocks of 1000 samples at 8000 Hz and
a constant block RMS of 589, the gain the blocks ask for is `32767 / 589` rounded,
`14583485 / 262144 = 55.6315804`. Starting from the maximum gain 100, eight steps of
`agc_update_gain` bring the gain down to `7291743 / 131072 = 55.6315842`, still above
that value, and the ninth step returns `3645871 / 65536 = 55.6315765`, below it: the
step has crossed the needed gain, and the sequence is not monotone toward it. With the
default configuration `qAgc` and a block RMS of 1934 the needed gain is
`12577089 / 1048576 = 11.9944468`, and from the gain `6288545 / 524288 = 11.9944477` the
step returns `196517 / 16384 = 11.9944458`, again below the needed gain. -/
theorem agc_update_gain_crosses_needed :
    agcNeededR f32 f32Libm 589 qAgc0 = 14583485 / 262144 ∧
    (fun x => agc_update_gainR f32 f32Libm x 589 qAgc0 1000 8000)^[8] 100 =
      7291743 / 131072 ∧
    agc_update_gainR f32 f32Libm (7291743 / 131072) 589 qAgc0 1000 8000 =
      3645871 / 65536 ∧
    (3645871 / 65536 : ℚ) < 14583485 / 262144 ∧
    (14583485 / 262144 : ℚ) < 7291743 / 131072 ∧
    agcNeededR f32 f32LibmDb 1934 qAgc = 12577089 / 1048576 ∧
    agc_update_gainR f32 f32LibmDb (6288545 / 524288) 1934 qAgc 1000 8000 =
      196517 / 16384 ∧
    (196517 / 16384 : ℚ) < 12577089 / 1048576 ∧
    (12577089 / 1048576 : ℚ) < 6288545 / 524288 :=
  ⟨agcNeededR_589, agc_update_gainR_eight, agc_update_gainR_ninth, by norm_num,
    by norm_num, agcNeededR_1934, agc_update_gainR_1934, by norm_num, by norm_num⟩

/-- C8 (amended). For an AGC configuration with `minGainDb ≤ maxGainDb` (and
`powf(10, ·)` increasing and non-negative), a constant block RMS and block size, and the
`float` operations rounded by any rounding `rnd` with unit roundoff `u ≤ 1` and underflow
threshold `tiny` (binary32: `u = 2^-24`, `tiny = 2^-126`): `minLin ≤ maxLin`; the gain
the block asks for is the rounded target-peak gain (`targetPeakLinear / RMS`, or the
maximum gain when `RMS ≤ 1`) clamped to `[minLin, maxLin]`; each `agc_update_gain` step,
and every iterate, lies within `[minLin, maxLin]`; and from a current gain `cur ≥ 0` the
step lies within three roundings of the interval between `cur` and `needed`: it is at
least `(1 - u)^3 * min cur needed - (min cur needed + 3) * tiny` and at most
`(1 + u)^3 * max cur needed + (4 * max cur needed + 5) * tiny`. In exact arithmetic
(`rnd = id`, the definitions `agc_update_gain`, `agcNeeded`) the step lies between the
current gain and `needed`, no farther from `needed` than the current gain, and the
iterated gains move monotonically toward `needed` without crossing it. -/
theorem agc_update_gain_rounded (rnd : K → K) (u tiny : K) (m : Libm K) (agc : AgcConfig K)
    (rms : K) (n fs : Nat) (hr : RoundsLike rnd u tiny) (hu : u ≤ 1)
    (hmono : Monotone (m.powf 10)) (hpos : ∀ e, 0 ≤ m.powf 10 e)
    (hcfg : agc.minGainDb ≤ agc.maxGainDb) :
    db2linR rnd m agc.minGainDb ≤ db2linR rnd m agc.maxGainDb ∧
    agcNeededR rnd m rms agc =
      max (db2linR rnd m agc.minGainDb)
        (min (if rms ≤ 1 then db2linR rnd m agc.maxGainDb
              else rnd (rnd (db2linR rnd m agc.targetPeakDbFS * 32767) / rms))
          (db2linR rnd m agc.maxGainDb)) ∧
    (∀ cur : K,
      db2linR rnd m agc.minGainDb ≤ agc_update_gainR rnd m cur rms agc n fs ∧
      agc_update_gainR rnd m cur rms agc n fs ≤ db2linR rnd m agc.maxGainDb) ∧
    (∀ (cur : K) (k : Nat),
      db2linR rnd m agc.minGainDb ≤
        (fun x => agc_update_gainR rnd m x rms agc n fs)^[k + 1] cur ∧
      (fun x => agc_update_gainR rnd m x rms agc n fs)^[k + 1] cur ≤
        db2linR rnd m agc.maxGainDb) ∧
    (∀ cur : K, 0 ≤ cur →
      (1 - u) ^ 3 * min cur (agcNeededR rnd m rms agc) -
          (min cur (agcNeededR rnd m rms agc) + 3) * tiny ≤
        agc_update_gainR rnd m cur rms agc n fs ∧
      agc_update_gainR rnd m cur rms agc n fs ≤
        (1 + u) ^ 3 * max cur (agcNeededR rnd m rms agc) +
          (4 * max cur (agcNeededR rnd m rms agc) + 5) * tiny) ∧
    (∀ cur : K,
      agc_update_gainR id m cur rms agc n fs = agc_update_gain m cur rms agc n fs) ∧
    agcNeededR id m rms agc = agcNeeded m rms agc ∧
    (∀ cur : K,
      min cur (agcNeeded m rms agc) ≤ agc_update_gain m cur rms agc n fs ∧
      agc_update_gain m cur rms agc n fs ≤ max cur (agcNeeded m rms agc) ∧
      |agc_update_gain m cur rms agc n fs - agcNeeded m rms agc| ≤
        |cur - agcNeeded m rms agc|) ∧
    (∀ (cur : K) (k : Nat), cur ≤ agcNeeded m rms agc →
      (fun x => agc_update_gain m x rms agc n fs)^[k] cur ≤
        (fun x => agc_update_gain m x rms agc n fs)^[k + 1] cur ∧
      (fun x => agc_update_gain m x rms agc n fs)^[k + 1] cur ≤ agcNeeded m rms agc) ∧
    (∀ (cur : K) (k : Nat), agcNeeded m rms agc ≤ cur →
      agcNeeded m rms agc ≤ (fun x => agc_update_gain m x rms agc n fs)^[k + 1] cur ∧
      (fun x => agc_update_gain m x rms agc n fs)^[k + 1] cur ≤
        (fun x => agc_update_gain m x rms agc n fs)^[k] cur) := by
  have hlin := db2linR_mono rnd m hr.mono hmono hcfg
  have hmin : 0 ≤ db2linR rnd m agc.minGainDb := hpos _
  have hlinE := db2lin_mono m hmono hcfg
  have hstep : ∀ x, min x (agcNeeded m rms agc) ≤ agc_update_gain m x rms agc n fs ∧
      agc_update_gain m x rms agc n fs ≤ max x (agcNeeded m rms agc) := fun x =>
    ⟨(agc_update_gain_between m x rms agc n fs hlinE).1,
      (agc_update_gain_between m x rms agc n fs hlinE).2.1⟩
  refine ⟨hlin, agcNeededR_eq rnd m rms agc hlin,
    fun cur => agc_update_gainR_range rnd m cur rms agc n fs hlin, ?_,
    fun cur hcur => agc_update_gainR_near hr hu m cur rms agc n fs hlin hmin hcur,
    fun cur => agc_update_gainR_id m cur rms agc n fs, agcNeededR_id m rms agc, ?_,
    fun cur k hc => (iterate_toward _ _ hstep cur k).1 hc,
    fun cur k hc => (iterate_toward _ _ hstep cur k).2 hc⟩
  · intro cur k
    rw [Function.iterate_succ_apply']
    exact agc_update_gainR_range rnd m _ rms agc n fs hlin
  · intro cur
    obtain ⟨h1, h2⟩ := hstep cur
    refine ⟨h1, h2, ?_⟩
    rcases le_total cur (agcNeeded m rms agc) with hc | hc
    · rw [min_eq_left hc] at h1
      rw [max_eq_right hc] at h2
      rw [abs_of_nonpos (by linarith), abs_of_nonpos (by linarith)]
      linarith
    · rw [min_eq_right hc] at h1
      rw [max_eq_left hc] at h2
      rw [abs_of_nonneg (by linarith), abs_of_nonneg (by linarith)]
      linarith

theorem tiny32_lt_one : (2 : ℚ) ^ (-126 : ℤ) < 1 :=
  zpow_lt_one_of_neg₀ (by norm_num) (by norm_num)

/-- A configuration for C8: binary32 rounding, the levels of `qAgc0` (0 dB to 40 dB),
blocks of 1000 samples at 8000 Hz with RMS 589, from the maximum gain 100: the step lies
within the gain bounds and at most three roundings above the current gain. -/
theorem agc_update_gain_rounded_witness :
    (db2linR f32 f32Libm qAgc0.minGainDb ≤
        agc_update_gainR f32 f32Libm 100 589 qAgc0 1000 8000 ∧
      agc_update_gainR f32 f32Libm 100 589 qAgc0 1000 8000 ≤
        db2linR f32 f32Libm qAgc0.maxGainDb) ∧
    agc_update_gainR f32 f32Libm 100 589 qAgc0 1000 8000 ≤
      (1 + 1 / 2 ^ 24) ^ 3 * max 100 (agcNeededR f32 f32Libm 589 qAgc0) +
        (4 * max 100 (agcNeededR f32 f32Libm 589 qAgc0) + 5) * (2 : ℚ) ^ (-126 : ℤ) := by
  have h := agc_update_gain_rounded f32 (1 / 2 ^ 24) ((2 : ℚ) ^ (-126 : ℤ)) f32Libm qAgc0
    589 1000 8000 f32_roundsLike (by norm_num) f32Libm_powf_mono f32Libm_powf_nonneg
    (by decide!)
  exact ⟨h.2.2.1 100, (h.2.2.2.2.1 100 (by norm_num)).2⟩

/-! ## C9: the DC blocker -/

theorem dcBlocker_append (alpha : K) : ∀ (a b : List Int) (st : DcState K),
    dcBlocker alpha st (a ++ b) =
      ((dcBlocker alpha st a).1 ++ (dcBlocker alpha (dcBlocker alpha st a).2 b).1,
       (dcBlocker alpha (dcBlocker alpha st a).2 b).2)
  | [], b, st => by simp [dcBlocker]
  | s :: rest, b, st => by
    have ih := dcBlocker_append alpha rest b ⟨(s : K), (s : K) - st.x1 + alpha * st.y1⟩
    rw [List.cons_append, dcBlocker, ih]
    simp only [dcBlocker, List.cons_append]

theorem dcBlockerR_length (rnd : K → K) (alpha : K) :
    ∀ (xs : List Int) (st : DcState K), (dcBlockerR rnd alpha st xs).1.length = xs.length
  | [], _ => rfl
  | _ :: rest, _ => by
    simp only [dcBlockerR, List.length_cons, dcBlockerR_length rnd alpha rest]

theorem dcSpecYR_cons (rnd : K → K) (alpha x1 y1 : K) (s : Int) (rest : List Int) (i : Nat) :
    dcSpecYR rnd alpha x1 y1 (s :: rest) (i + 1) =
      dcSpecYR rnd alpha (s : K) (rnd (rnd ((s : K) - x1) + rnd (alpha * y1))) rest i := by
  induction i with
  | zero => simp [dcSpecYR]
  | succ i ih =>
    rw [dcSpecYR, ih]
    simp [dcSpecYR]

theorem dcBlockerR_getD (rnd : K → K) (alpha : K) :
    ∀ (x : List Int) (st : DcState K) (i : Nat), i < x.length →
      (dcBlockerR rnd alpha st x).1.getD i 0 =
        saturate_s16 (dcSpecYR rnd alpha st.x1 st.y1 x i)
  | [], _, i, h => by simp at h
  | s :: rest, st, 0, _ => by simp [dcBlockerR, dcSpecYR]
  | s :: rest, st, i + 1, h => by
    have h1 : i < rest.length := by simpa using h
    have ih := dcBlockerR_getD rnd alpha rest
      ⟨(s : K), rnd (rnd ((s : K) - st.x1) + rnd (alpha * st.y1))⟩ i h1
    rw [dcSpecYR_cons]
    simpa [dcBlockerR] using ih

theorem dcBlockerR_state (rnd : K → K) (alpha : K) :
    ∀ (x : List Int) (st : DcState K), x ≠ [] →
      (dcBlockerR rnd alpha st x).2 =
        ⟨((x.getD (x.length - 1) 0 : Int) : K),
          dcSpecYR rnd alpha st.x1 st.y1 x (x.length - 1)⟩
  | [], _, h => absurd rfl h
  | [s], st, _ => by simp [dcBlockerR, dcSpecYR]
  | s :: t :: rest, st, _ => by
    have ih := dcBlockerR_state rnd alpha (t :: rest)
      ⟨(s : K), rnd (rnd ((s : K) - st.x1) + rnd (alpha * st.y1))⟩ (by simp)
    have e : (s :: t :: rest).length - 1 = (t :: rest).length - 1 + 1 := by simp
    rw [e, dcSpecYR_cons]
    simpa [dcBlockerR] using ih

theorem dcBlockerR_append (rnd : K → K) (alpha : K) :
    ∀ (a b : List Int) (st : DcState K),
      dcBlockerR rnd alpha st (a ++ b) =
        ((dcBlockerR rnd alpha st a).1 ++
            (dcBlockerR rnd alpha (dcBlockerR rnd alpha st a).2 b).1,
         (dcBlockerR rnd alpha (dcBlockerR rnd alpha st a).2 b).2)
  | [], b, st => by simp [dcBlockerR]
  | s :: rest, b, st => by
    have ih := dcBlockerR_append rnd alpha rest b
      ⟨(s : K), rnd (rnd ((s : K) - st.x1) + rnd (alpha * st.y1))⟩
    rw [List.cons_append, dcBlockerR, ih]
    simp only [dcBlockerR, List.cons_append]

/-- With the identity as rounding the filter is the filter of exact arithmetic. -/
theorem dcBlockerR_id (alpha : K) :
    ∀ (x : List Int) (st : DcState K), dcBlockerR id alpha st x = dcBlocker alpha st x
  | [], _ => rfl
  | s :: rest, st => by
    simp only [dcBlockerR, dcBlocker, id, dcBlockerR_id alpha rest]

theorem dcSpecYR_id (alpha x1 y1 : K) (x : List Int) (i : Nat) :
    dcSpecYR id alpha x1 y1 x i = dcSpecY alpha x1 y1 x i := by
  induction i with
  | zero => simp [dcSpecYR, dcSpecY]
  | succ i ih => simp [dcSpecYR, dcSpecY, ih]

theorem dc_alpha_forR_8000 : dc_alpha_forR f32 8000 = 4152361 / 4194304 := by
  set_option maxRecDepth 100000 in decide!

theorem dcBlockerR_six_written :
    (dcBlockerR f32 (4152361 / 4194304) dcReset (List.replicate 6 2020)).1 =
      [2020, 1999, 1979, 1960, 1940, 1921] := by
  set_option maxRecDepth 100000 in decide!

theorem dcBlockerR_six_state :
    (dcBlockerR f32 (4152361 / 4194304) dcReset (List.replicate 6 2020)).2.y1 =
      15736833 / 8192 := by
  set_option maxRecDepth 100000 in decide!

theorem dcSpecY_six_written :
    saturate_s16 (dcSpecY (4152361 / 4194304 : ℚ) 0 0 (List.replicate 6 2020) 5) = 1920 := by
  set_option maxRecDepth 100000 in decide!

theorem dcSpecY_six_lt :
    dcSpecY (4152361 / 4194304 : ℚ) 0 0 (List.replicate 6 2020) 5 < 1921 := by
  set_option maxRecDepth 100000 in decide!

/-- C9 as stated fails in the `float` arithmetic of the code. Six samples of value 2020
from the reset state at `alpha = 0.990f` (the coefficient for 8000 Hz, the binary32 value
`4152361 / 4194304`): the code writes 2020, 1999, 1979, 1960, 1940, 1921 and leaves
`y1 = 15736833 / 8192 = 1921.00012...`, while the recurrence
`y[i] = (x[i] - x[i-1]) + alpha * y[i-1]` with the same coefficient gives a value below
1921 at index 5, which clamps to 1920. -/
theorem dc_blocker_exact_recurrence_fails :
    dc_alpha_forR f32 8000 = 4152361 / 4194304 ∧
    (dcBlockerR f32 (dc_alpha_forR f32 8000) dcReset (List.replicate 6 2020)).1 =
      [2020, 1999, 1979, 1960, 1940, 1921] ∧
    (dcBlockerR f32 (dc_alpha_forR f32 8000) dcReset (List.replicate 6 2020)).2.y1 =
      15736833 / 8192 ∧
    saturate_s16 (dcSpecY (dc_alpha_forR f32 8000) 0 0 (List.replicate 6 2020) 5) = 1920 ∧
    dcSpecY (dc_alpha_forR f32 8000) 0 0 (List.replicate 6 2020) 5 < 1921 := by
  rw [dc_alpha_forR_8000]
  exact ⟨rfl, dcBlockerR_six_written, dcBlockerR_six_state, dcSpecY_six_written,
    dcSpecY_six_lt⟩

/-- C9 (amended). On a block `x[0..N-1]` with coefficient `alpha` and carried state
`(x1, y1)`, `dcBlocker` computes, for whatever rounding `rnd` the `float` operations
apply, `y[i] = rnd (rnd (x[i] - x[i-1]) + rnd (alpha * y[i-1]))` with `x[-1] = x1`,
`y[-1] = y1`; it writes back each `y[i]` through `saturate_s16` (a value in
`[-32768, 32767]`) and leaves as state the last input and the last unclamped output (the
state is unchanged on an empty block); so running it on a block `a` and then on a block
`b` gives the samples and the final state of one run on `a ++ b`. With the identity as
rounding the recurrence is `y[i] = (x[i] - x[i-1]) + alpha * y[i-1]` and the filter is
the one of exact arithmetic. -/
theorem dc_blocker_rounded_recurrence (rnd : K → K) (alpha : K) (st : DcState K)
    (x a b : List Int) :
    (dcBlockerR rnd alpha st x).1.length = x.length ∧
    (∀ i, i < x.length →
      (dcBlockerR rnd alpha st x).1.getD i 0 =
        saturate_s16 (dcSpecYR rnd alpha st.x1 st.y1 x i)) ∧
    (∀ y ∈ (dcBlockerR rnd alpha st x).1, -32768 ≤ y ∧ y ≤ 32767) ∧
    (x ≠ [] → (dcBlockerR rnd alpha st x).2 =
      ⟨((x.getD (x.length - 1) 0 : Int) : K),
        dcSpecYR rnd alpha st.x1 st.y1 x (x.length - 1)⟩) ∧
    (dcBlockerR rnd alpha st []).2 = st ∧
    dcBlockerR rnd alpha st (a ++ b) =
      ((dcBlockerR rnd alpha st a).1 ++
          (dcBlockerR rnd alpha (dcBlockerR rnd alpha st a).2 b).1,
       (dcBlockerR rnd alpha (dcBlockerR rnd alpha st a).2 b).2) ∧
    (∀ i, dcSpecYR id alpha st.x1 st.y1 x i = dcSpecY alpha st.x1 st.y1 x i) ∧
    dcBlockerR id alpha st x = dcBlocker alpha st x := by
  refine ⟨dcBlockerR_length rnd alpha x st, dcBlockerR_getD rnd alpha x st, ?_,
    dcBlockerR_state rnd alpha x st, rfl, dcBlockerR_append rnd alpha a b st,
    dcSpecYR_id alpha st.x1 st.y1 x, dcBlockerR_id alpha x st⟩
  intro y hy
  obtain ⟨i, hi, rfl⟩ := List.getElem_of_mem hy
  have h1 : i < x.length := by rwa [dcBlockerR_length] at hi
  have h2 := dcBlockerR_getD rnd alpha x st i h1
  rw [List.getD_eq_getElem _ _ hi] at h2
  rw [h2]
  exact saturate_s16_range _

/-- A block for C9: binary32 rounding, six samples of value 2020 from the reset state with
`alpha = 0.990f`; the sixth written sample is `saturate_s16` of the rounded recurrence
value, 1921. -/
theorem dc_blocker_rounded_recurrence_witness :
    (dcBlockerR f32 (4152361 / 4194304) dcReset (List.replicate 6 2020)).1.getD 5 0 =
      saturate_s16 (dcSpecYR f32 (4152361 / 4194304) 0 0 (List.replicate 6 2020) 5) ∧
    (dcBlockerR f32 (4152361 / 4194304) dcReset (List.replicate 6 2020)).1 =
      [2020, 1999, 1979, 1960, 1940, 1921] :=
  ⟨(dc_blocker_rounded_recurrence f32 (4152361 / 4194304) dcReset (List.replicate 6 2020)
      [] []).2.1 5 (by decide), dcBlockerR_six_written⟩

/-! ## C10: constant input -/

theorem truncToInt_mono {v w : K} (h : v ≤ w) : truncToInt v ≤ truncToInt w := by
  unfold truncToInt
  split_ifs with h1 h2 h2
  · exact Int.floor_mono h
  · exact absurd (le_trans h1 h) h2
  · have hv : v < 0 := lt_of_not_le h1
    have a1 : ⌈v⌉ ≤ 0 := Int.ceil_le.mpr (by exact_mod_cast hv.le)
    have a2 : (0 : Int) ≤ ⌊w⌋ := Int.floor_nonneg.mpr h2
    omega
  · exact Int.ceil_mono h

theorem saturate_s16_mono {v w : K} (h : v ≤ w) : saturate_s16 v ≤ saturate_s16 w := by
  obtain ⟨a1, a2⟩ := saturate_s16_range v
  obtain ⟨b1, b2⟩ := saturate_s16_range w
  by_cases hw : w > 32767
  · have : saturate_s16 w = 32767 := by unfold saturate_s16; rw [if_pos hw]
    omega
  · by_cases hv : v < -32768
    · have : saturate_s16 v = -32768 := by
        unfold saturate_s16
        rw [if_neg (by linarith), if_pos hv]
      omega
    · have hv2 : ¬ v > 32767 := fun hc => hw (lt_of_lt_of_le hc h)
      have hw2 : ¬ w < -32768 := fun hc => hv (lt_of_le_of_lt h hc)
      unfold saturate_s16
      rw [if_neg hv2, if_neg hv, if_neg hw, if_neg hw2]
      exact truncToInt_mono h

theorem saturate_s16_small {v : K} (h : |v| < 1) : saturate_s16 v = 0 := by
  obtain ⟨h1, h2⟩ := abs_lt.mp h
  unfold saturate_s16
  rw [if_neg (by linarith), if_neg (by linarith)]
  unfold truncToInt
  split_ifs with h0
  · exact Int.floor_eq_iff.mpr ⟨by simpa using h0, by simpa using h2⟩
  · have hv : v < 0 := lt_of_not_le h0
    exact Int.ceil_eq_iff.mpr ⟨by simpa using h1, by simpa using hv.le⟩

theorem dcSpecYR_const {rnd : K → K} {u tiny : K} (hr : RoundsLike rnd u tiny) (alpha : K)
    (c : Int) (n : Nat) :
    ∀ i, i < n → dcSpecYR rnd alpha 0 0 (List.replicate n c) i = dcConstY rnd alpha c i := by
  intro i
  induction i with
  | zero =>
    intro h
    rw [dcSpecYR, List.getD_eq_getElem _ _ (by simpa using h)]
    simp only [List.getElem_replicate, sub_zero, mul_zero, roundsLike_zero hr, add_zero,
      hr.idem, dcConstY]
  | succ i ih =>
    intro h
    rw [dcSpecYR, ih (by omega), List.getD_eq_getElem _ _ (by simpa using h),
      List.getD_eq_getElem _ _ (by simp; omega)]
    simp only [List.getElem_replicate, sub_self, roundsLike_zero hr, zero_add, hr.idem,
      dcConstY]

theorem dcBlockerR_const_getD {rnd : K → K} {u tiny : K} (hr : RoundsLike rnd u tiny)
    (alpha : K) (c : Int) (n i : Nat) (h : i < n) :
    (dcBlockerR rnd alpha dcReset (List.replicate n c)).1.getD i 0 =
      saturate_s16 (dcConstY rnd alpha c i) := by
  rw [dcBlockerR_getD rnd alpha _ _ i (by simpa using h)]
  simp only [dcReset]
  rw [dcSpecYR_const hr alpha c n i h]

theorem dcBlockerR_const_state {rnd : K → K} {u tiny : K} (hr : RoundsLike rnd u tiny)
    (alpha : K) (c : Int) (i : Nat) :
    (dcBlockerR rnd alpha dcReset (List.replicate (i + 1) c)).2.y1 = dcConstY rnd alpha c i := by
  rw [dcBlockerR_state rnd alpha _ dcReset (by simp)]
  simp only [dcReset, List.length_replicate, Nat.add_sub_cancel]
  exact dcSpecYR_const hr alpha c (i + 1) i (Nat.lt_succ_self i)

theorem dcConstY_idem {rnd : K → K} {u tiny : K} (hr : RoundsLike rnd u tiny) (alpha : K)
    (c : Int) (i : Nat) : rnd (dcConstY rnd alpha c i) = dcConstY rnd alpha c i := by
  cases i with
  | zero => exact hr.idem _
  | succ i => exact hr.idem _

/-- For a non-negative first output the outputs on a constant input stay non-negative and
do not increase. -/
theorem dcConstY_nonneg {rnd : K → K} {u tiny : K} (hr : RoundsLike rnd u tiny) {alpha : K}
    (h0 : 0 ≤ alpha) (h1 : alpha ≤ 1) (c : Int) (hc : 0 ≤ rnd (c : K)) (i : Nat) :
    0 ≤ dcConstY rnd alpha c (i + 1) ∧ dcConstY rnd alpha c (i + 1) ≤ dcConstY rnd alpha c i := by
  have hpos : ∀ j, 0 ≤ dcConstY rnd alpha c j := by
    intro j
    induction j with
    | zero => exact hc
    | succ j ih => exact roundsLike_nonneg hr (mul_nonneg h0 ih)
  refine ⟨hpos (i + 1), ?_⟩
  have h2 : alpha * dcConstY rnd alpha c i ≤ dcConstY rnd alpha c i := by
    have := mul_le_mul_of_nonneg_right h1 (hpos i)
    linarith
  have h3 := hr.mono h2
  rw [dcConstY_idem hr] at h3
  exact h3

/-- For a non-positive first output the outputs on a constant input stay non-positive and
do not decrease. -/
theorem dcConstY_nonpos {rnd : K → K} {u tiny : K} (hr : RoundsLike rnd u tiny) {alpha : K}
    (h0 : 0 ≤ alpha) (h1 : alpha ≤ 1) (c : Int) (hc : rnd (c : K) ≤ 0) (i : Nat) :
    dcConstY rnd alpha c (i + 1) ≤ 0 ∧ dcConstY rnd alpha c i ≤ dcConstY rnd alpha c (i + 1) := by
  have hneg : ∀ j, dcConstY rnd alpha c j ≤ 0 := by
    intro j
    induction j with
    | zero => exact hc
    | succ j ih => exact roundsLike_nonpos hr (mul_nonpos_of_nonneg_of_nonpos h0 ih)
  refine ⟨hneg (i + 1), ?_⟩
  have h2 : dcConstY rnd alpha c i ≤ alpha * dcConstY rnd alpha c i := by
    have := mul_le_mul_of_nonpos_right h1 (hneg i)
    linarith
  have h3 := hr.mono h2
  rw [dcConstY_idem hr] at h3
  exact h3

theorem dcConstY_abs_le {rnd : K → K} {u tiny : K} (hr : RoundsLike rnd u tiny) {alpha : K}
    (h0 : 0 ≤ alpha) (h1 : alpha * (1 + u) < 1) (c : Int) (i : Nat) :
    |dcConstY rnd alpha c i| ≤ max ((alpha * (1 + u)) ^ i * |rnd (c : K)|) tiny := by
  have hu0 := hr.u_nonneg
  have hb0 : 0 ≤ alpha * (1 + u) := mul_nonneg h0 (by linarith)
  induction i with
  | zero => simp [dcConstY]
  | succ i ih =>
    have h2 := hr.rel (alpha * dcConstY rnd alpha c i)
    refine le_trans h2 (max_le ?_ (le_max_right _ _))
    rw [abs_mul, abs_of_nonneg h0]
    have e : (1 + u) * (alpha * |dcConstY rnd alpha c i|) =
        alpha * (1 + u) * |dcConstY rnd alpha c i| := by ring
    rw [e]
    rcases le_max_iff.mp ih with h3 | h3
    · refine le_trans ?_ (le_max_left _ _)
      rw [pow_succ']
      have := mul_le_mul_of_nonneg_left h3 hb0
      linarith [mul_assoc (alpha * (1 + u)) ((alpha * (1 + u)) ^ i) |rnd (c : K)|]
    · refine le_trans ?_ (le_max_right _ _)
      have h4 := mul_le_mul_of_nonneg_left h3 hb0
      have h5 : alpha * (1 + u) * tiny ≤ 1 * tiny :=
        mul_le_mul_of_nonneg_right h1.le hr.tiny_nonneg
      linarith

theorem dcConstY_id (alpha : K) (c : Int) (i : Nat) :
    dcConstY id alpha c i = alpha ^ i * (c : K) := by
  induction i with
  | zero => simp [dcConstY]
  | succ i ih =>
    rw [dcConstY, ih]
    simp only [id]
    ring

theorem f32_alpha_990 : f32 (f32 (990 / 1000)) = f32 (990 / 1000) ∧
    0 ≤ f32 (990 / 1000) ∧ f32 (990 / 1000) * (1 + 1 / 2 ^ 24) < 1 := by
  set_option maxRecDepth 100000 in decide!

theorem f32_alpha_9975 : f32 (f32 (9975 / 10000)) = f32 (9975 / 10000) ∧
    0 ≤ f32 (9975 / 10000) ∧ f32 (9975 / 10000) * (1 + 1 / 2 ^ 24) < 1 := by
  set_option maxRecDepth 100000 in decide!

theorem f32_alpha_995 : f32 (f32 (995 / 1000)) = f32 (995 / 1000) ∧
    0 ≤ f32 (995 / 1000) ∧ f32 (995 / 1000) * (1 + 1 / 2 ^ 24) < 1 := by
  set_option maxRecDepth 100000 in decide!

theorem dc_alpha_forR_range (fs : Nat) :
    f32 (dc_alpha_forR f32 fs) = dc_alpha_forR f32 fs ∧ 0 ≤ dc_alpha_forR f32 fs ∧
    dc_alpha_forR f32 fs * (1 + 1 / 2 ^ 24) < 1 := by
  unfold dc_alpha_forR
  split_ifs
  · exact f32_alpha_990
  · exact f32_alpha_9975
  · exact f32_alpha_995

theorem alpha_pow_five_lt :
    ((4152361 / 4194304 : ℚ)) ^ 5 * ((2020 : Int) : ℚ) < 15736833 / 8192 := by
  norm_num

theorem alpha_pow_five_written :
    saturate_s16 (((4152361 / 4194304 : ℚ)) ^ 5 * ((2020 : Int) : ℚ)) = 1920 := by
  set_option maxRecDepth 100000 in decide!

theorem dcBlockerR_six_fifth :
    (dcBlockerR f32 (4152361 / 4194304) dcReset (List.replicate 6 2020)).1.getD 5 0 = 1921 := by
  rw [dcBlockerR_six_written]
  rfl

/-- C10 as stated fails in the `float` arithmetic of the code. On the constant input 2020
from the reset state with `alpha = 0.990f` (the binary32 value `4152361 / 4194304`), the
sixth filter output of the code is `15736833 / 8192 = 1921.00012...`, above
`alpha^5 * 2020 = 1920.9999...`; the sample written is 1921 where the closed form clamps
to 1920. -/
theorem dc_constant_closed_form_fails :
    dc_alpha_forR f32 8000 = 4152361 / 4194304 ∧
    (dcBlockerR f32 (dc_alpha_forR f32 8000) dcReset (List.replicate 6 2020)).2.y1 =
      15736833 / 8192 ∧
    (dc_alpha_forR f32 8000) ^ 5 * ((2020 : Int) : ℚ) < 15736833 / 8192 ∧
    (dcBlockerR f32 (dc_alpha_forR f32 8000) dcReset (List.replicate 6 2020)).1.getD 5 0 =
      1921 ∧
    saturate_s16 ((dc_alpha_forR f32 8000) ^ 5 * ((2020 : Int) : ℚ)) = 1920 := by
  rw [dc_alpha_forR_8000]
  exact ⟨rfl, dcBlockerR_six_state, alpha_pow_five_lt, dcBlockerR_six_fifth,
    alpha_pow_five_written⟩

/-- C10 (amended). For a constant input `c`, a rounding `rnd` of the `float` operations
with unit roundoff `u` and underflow threshold `tiny < 1`, and a coefficient with
`0 ≤ alpha` and `alpha * (1 + u) < 1` (every binary32 `alpha` in `[0, 1)`, in particular
the three values of `dc_alpha_for`), `dcBlocker` from the reset state on `N` samples all
equal to `c` has the filter outputs `y[0] = rnd c`, `y[i+1] = rnd (alpha * y[i])` (the
state `y1` after `i + 1` samples; each written sample is `saturate_s16 (y[i])`), with
`|y[i]| ≤ max ((alpha * (1 + u))^i * |rnd c|) tiny`; the magnitudes of the written samples
do not increase with `i`, and from some index on, independent of `N`, every written
sample is 0. In exact arithmetic (`rnd = id`) the outputs are `y[i] = alpha^i * c`. -/
theorem dc_constant_input_rounded_decay (rnd : K → K) (u tiny alpha : K) (c : Int)
    (hr : RoundsLike rnd u tiny) (h0 : 0 ≤ alpha) (h1 : alpha * (1 + u) < 1)
    (ht : tiny < 1) :
    (∀ i, (dcBlockerR rnd alpha dcReset (List.replicate (i + 1) c)).2.y1 =
      dcConstY rnd alpha c i) ∧
    (dcConstY rnd alpha c 0 = rnd (c : K) ∧
      ∀ i, dcConstY rnd alpha c (i + 1) = rnd (alpha * dcConstY rnd alpha c i)) ∧
    (∀ n i, i < n →
      (dcBlockerR rnd alpha dcReset (List.replicate n c)).1.getD i 0 =
        saturate_s16 (dcConstY rnd alpha c i)) ∧
    (∀ i, |dcConstY rnd alpha c i| ≤ max ((alpha * (1 + u)) ^ i * |rnd (c : K)|) tiny) ∧
    (∀ n i j, i ≤ j → j < n →
      |(dcBlockerR rnd alpha dcReset (List.replicate n c)).1.getD j 0| ≤
        |(dcBlockerR rnd alpha dcReset (List.replicate n c)).1.getD i 0|) ∧
    (∃ M, ∀ n i, M ≤ i → i < n →
      (dcBlockerR rnd alpha dcReset (List.replicate n c)).1.getD i 0 = 0) ∧
    (∀ i, dcConstY id alpha c i = alpha ^ i * (c : K)) ∧
    (∀ a : ℚ, f32 a = a → 0 ≤ a → a < 1 → a * (1 + 1 / 2 ^ 24) < 1) ∧
    (∀ fs : Nat, f32 (dc_alpha_forR f32 fs) = dc_alpha_forR f32 fs ∧
      0 ≤ dc_alpha_forR f32 fs ∧ dc_alpha_forR f32 fs * (1 + 1 / 2 ^ 24) < 1) := by
  have hu0 := hr.u_nonneg
  have hb0 : 0 ≤ alpha * (1 + u) := mul_nonneg h0 (by linarith)
  have ha1 : alpha ≤ 1 := by
    have e : alpha * (1 + u) = alpha + alpha * u := by ring
    linarith [mul_nonneg h0 hu0]
  have hz : saturate_s16 (0 : K) = 0 := saturate_s16_small (by simp)
  refine ⟨dcBlockerR_const_state hr alpha c, ⟨rfl, fun i => rfl⟩,
    fun n i h => dcBlockerR_const_getD hr alpha c n i h, dcConstY_abs_le hr h0 h1 c, ?_, ?_,
    dcConstY_id alpha c, fun a hf ha0 ha1 => f32_below_one hf ha0 ha1, dc_alpha_forR_range⟩
  · intro n i j hij hj
    rw [dcBlockerR_const_getD hr alpha c n j hj,
      dcBlockerR_const_getD hr alpha c n i (by omega)]
    rcases le_total 0 (rnd (c : K)) with hc | hc
    · have hanti : Antitone (fun k => dcConstY rnd alpha c k) :=
        antitone_nat_of_succ_le (fun k => (dcConstY_nonneg hr h0 ha1 c hc k).2)
      have a1 : 0 ≤ dcConstY rnd alpha c j := by
        cases j with
        | zero => exact hc
        | succ j => exact (dcConstY_nonneg hr h0 ha1 c hc j).1
      have b1 := saturate_s16_mono a1
      have a2 : dcConstY rnd alpha c j ≤ dcConstY rnd alpha c i := hanti hij
      have b2 := saturate_s16_mono a2
      rw [hz] at b1
      rw [abs_of_nonneg b1, abs_of_nonneg (le_trans b1 b2)]
      exact b2
    · have hmono : Monotone (fun k => dcConstY rnd alpha c k) :=
        monotone_nat_of_le_succ (fun k => (dcConstY_nonpos hr h0 ha1 c hc k).2)
      have a1 : dcConstY rnd alpha c j ≤ 0 := by
        cases j with
        | zero => exact hc
        | succ j => exact (dcConstY_nonpos hr h0 ha1 c hc j).1
      have b1 := saturate_s16_mono a1
      have a2 : dcConstY rnd alpha c i ≤ dcConstY rnd alpha c j := hmono hij
      have b2 := saturate_s16_mono a2
      rw [hz] at b1
      rw [abs_of_nonpos b1, abs_of_nonpos (le_trans b2 b1)]
      omega
  · have hpos : (0 : K) < 1 / (|rnd (c : K)| + 1) := by positivity
    obtain ⟨M, hM⟩ := exists_pow_lt_of_lt_one hpos h1
    refine ⟨M, fun n i hMi hi => ?_⟩
    rw [dcBlockerR_const_getD hr alpha c n i hi]
    apply saturate_s16_small
    refine lt_of_le_of_lt (dcConstY_abs_le hr h0 h1 c i) (max_lt ?_ ht)
    have hpow : (alpha * (1 + u)) ^ i ≤ (alpha * (1 + u)) ^ M :=
      pow_le_pow_of_le_one hb0 h1.le hMi
    have hlt : (alpha * (1 + u)) ^ i < 1 / (|rnd (c : K)| + 1) := lt_of_le_of_lt hpow hM
    have hc1 : (0 : K) < |rnd (c : K)| + 1 := by positivity
    rw [lt_div_iff₀ hc1] at hlt
    nlinarith [abs_nonneg (rnd (c : K)), pow_nonneg hb0 i]

/-- A block for C10: binary32 rounding, the constant 2020 with `alpha = 0.990f` (the
value `dc_alpha_for` picks at 8000 Hz); the sixth written sample is `saturate_s16` of the
sixth rounded output, 1921. -/
theorem dc_constant_input_rounded_decay_witness :
    (dcBlockerR f32 (4152361 / 4194304) dcReset (List.replicate 6 2020)).1.getD 5 0 =
      saturate_s16 (dcConstY f32 (4152361 / 4194304) 2020 5) ∧
    (dcBlockerR f32 (4152361 / 4194304) dcReset (List.replicate 6 2020)).1.getD 5 0 = 1921 :=
  ⟨(dc_constant_input_rounded_decay f32 (1 / 2 ^ 24) ((2 : ℚ) ^ (-126 : ℤ))
      (4152361 / 4194304) 2020 f32_roundsLike (by norm_num) (by norm_num)
      tiny32_lt_one).2.2.1 6 5 (by decide), dcBlockerR_six_fifth⟩

/-! ## C11: gain applied unmodified -/

theorem truncToInt_near (v : K) : |v - ((truncToInt v : Int) : K)| < 1 := by
  unfold truncToInt
  split_ifs with h
  · have h1 : ((⌊v⌋ : Int) : K) ≤ v := Int.floor_le v
    have h2 : v < ((⌊v⌋ : Int) : K) + 1 := Int.lt_floor_add_one v
    rw [abs_of_nonneg (by linarith)]
    linarith
  · have h1 : v ≤ ((⌈v⌉ : Int) : K) := Int.le_ceil v
    have h2 : ((⌈v⌉ : Int) : K) < v + 1 := Int.ceil_lt_add_one v
    rw [abs_of_nonpos (by linarith)]
    linarith

theorem rnd_abs_le {rnd : K → K} (hm : Monotone rnd) (hodd : ∀ x, rnd (-x) = -rnd x)
    {x b : K} (h : |x| ≤ b) : |rnd x| ≤ rnd b := by
  obtain ⟨h1, h2⟩ := abs_le.mp h
  have h3 := hm h1
  rw [hodd] at h3
  exact abs_le.mpr ⟨h3, hm h2⟩

theorem gainPeakR_le (rnd : K → K) (g bound : K) : ∀ (io : List Int) (pk : K), pk ≤ bound →
    (∀ s ∈ io, |rnd ((s : K) * g)| ≤ bound) → gainPeakR rnd g io pk ≤ bound
  | [], _, hpk, _ => hpk
  | x :: rest, pk, hpk, h => by
    simp only [gainPeakR]
    refine gainPeakR_le rnd g bound rest _ ?_ (fun s hs => h s (List.mem_cons_of_mem x hs))
    split_ifs
    · exact h x (List.mem_cons_self x rest)
    · exact hpk

theorem gainPeakR_id (g : K) : ∀ (io : List Int) (pk : K),
    gainPeakR id g io pk = gainPeak g io pk
  | [], _ => rfl
  | s :: rest, pk => by
    simp only [gainPeakR, gainPeak, id, gainPeakR_id g rest]

/-- With the identity as rounding the limiter is the limiter of exact arithmetic. -/
theorem applyFixedGainR_id (io : List Int) (g : K) :
    applyFixedGainR id io g = applyFixedGain io g := by
  simp only [applyFixedGainR, applyFixedGain, limitedGainR, limitedGain, LIMIT_THRESH_R,
    LIMIT_THRESH, gainPeakR_id, id]

/-- A requested gain whose exact peak stays under 98% of full scale is applied as it is,
and each output is the rounded product truncated toward zero. -/
theorem applyFixedGainR_unmodified (rnd : K → K) (hm : Monotone rnd)
    (hodd : ∀ x, rnd (-x) = -rnd x) (io : List Int) (g : K)
    (hT : rnd (98 / 100 * 32767) ≤ LIMIT_THRESH_R rnd) (hL : LIMIT_THRESH_R rnd ≤ 32767)
    (h : ∀ s ∈ io, |(s : K) * g| ≤ 98 / 100 * 32767) :
    limitedGainR rnd io g = g ∧
    applyFixedGainR rnd io g = io.map (fun (s : Int) => truncToInt (rnd ((s : K) * g))) := by
  have hb : ∀ s ∈ io, |rnd ((s : K) * g)| ≤ LIMIT_THRESH_R rnd := fun s hs =>
    le_trans (rnd_abs_le hm hodd (h s hs)) hT
  have hz : rnd 0 = 0 := by
    have := hodd 0
    rw [neg_zero] at this
    linarith
  have h0 : (0 : K) ≤ LIMIT_THRESH_R rnd := by
    have := hm (show (0 : K) ≤ 98 / 100 * 32767 by norm_num)
    rw [hz] at this
    exact le_trans this hT
  have hp := gainPeakR_le rnd g (LIMIT_THRESH_R rnd) io 0 h0 hb
  have hg : limitedGainR rnd io g = g := by
    unfold limitedGainR
    simp only []
    rw [if_neg (not_lt.mpr hp)]
  refine ⟨hg, ?_⟩
  unfold applyFixedGainR
  simp only [hg]
  apply List.map_congr_left
  intro s hs
  obtain ⟨h1, h2⟩ := abs_le.mp (le_trans (hb s hs) hL)
  unfold saturate_s16
  rw [if_neg (by linarith), if_neg (by linarith)]

theorem f32_gain_07 : f32 (7 / 10) = 11744051 / 16777216 := by
  set_option maxRecDepth 100000 in decide!

theorem applyFixedGainR_07 :
    applyFixedGainR f32 [10, -10, 20, 30] (11744051 / 16777216) = [7, -7, 14, 21] := by
  set_option maxRecDepth 100000 in decide!

theorem exact_trunc_07 :
    [10, -10, 20, 30].map (fun (s : Int) => truncToInt ((s : ℚ) * (11744051 / 16777216))) =
      [6, -6, 13, 20] := by
  set_option maxRecDepth 100000 in decide!

theorem peak_07 :
    ∀ s ∈ [10, -10, 20, 30], |((s : Int) : ℚ) * (11744051 / 16777216)| ≤ 98 / 100 * 32767 := by
  set_option maxRecDepth 100000 in decide!

theorem f32_limit_thresh : f32 (98 / 100 * 32767) ≤ LIMIT_THRESH_R f32 ∧
    LIMIT_THRESH_R f32 ≤ 32767 ∧ LIMIT_THRESH_R f32 = 8220585 / 256 := by
  set_option maxRecDepth 100000 in decide!

/-- C11 as stated fails in the `float` arithmetic of the code. The gain `0.7f` is the
binary32 value `11744051 / 16777216 = 0.699999988...`; on the block 10, -10, 20, 30 the
peak `|x[i] * g|` is below 21, far under `0.98 * 32767`, and the code writes 7, -7, 14,
21 (each product rounds to a whole number), while `x[i] * g` truncated toward zero is 6,
-6, 13, 20. -/
theorem fixed_gain_exact_truncation_fails :
    f32 (7 / 10) = 11744051 / 16777216 ∧
    (∀ s ∈ [10, -10, 20, 30], |((s : Int) : ℚ) * f32 (7 / 10)| ≤ 98 / 100 * 32767) ∧
    applyFixedGainR f32 [10, -10, 20, 30] (f32 (7 / 10)) = [7, -7, 14, 21] ∧
    [10, -10, 20, 30].map (fun (s : Int) => truncToInt ((s : ℚ) * f32 (7 / 10))) =
      [6, -6, 13, 20] := by
  rw [f32_gain_07]
  exact ⟨rfl, peak_07, applyFixedGainR_07, exact_trunc_07⟩

/-- C11 (amended). For every block and every requested gain `g` whose peak
`max over i of |x[i] * g|` does not exceed `0.98 * 32767`, and for a rounding `rnd` of the
`float` operations that is monotone and odd, under which the threshold constant
`PCM16_MAX_F * 0.98f` of the code is not below `rnd (0.98 * 32767)` and not above 32767
(binary32: the constant is `32111.66015625`), `applyFixedGain` applies `g` itself (no
shrink): each output sample is the rounded product `rnd (x[i] * g)` truncated toward
zero, that is the integer between 0 and `rnd (x[i] * g)` less than 1 away from it. In
exact arithmetic (`rnd = id`, the definition `applyFixedGain`) each output sample is
`x[i] * g` truncated toward zero. -/
theorem fixed_gain_unmodified_rounded (rnd : K → K) (io : List Int) (g : K)
    (hm : Monotone rnd) (hodd : ∀ x, rnd (-x) = -rnd x)
    (hT : rnd (98 / 100 * 32767) ≤ LIMIT_THRESH_R rnd) (hL : LIMIT_THRESH_R rnd ≤ 32767)
    (h : ∀ s ∈ io, |(s : K) * g| ≤ 98 / 100 * 32767) :
    limitedGainR rnd io g = g ∧
    applyFixedGainR rnd io g = io.map (fun (s : Int) => truncToInt (rnd ((s : K) * g))) ∧
    (∀ i, i < io.length →
      (applyFixedGainR rnd io g).getD i 0 =
        (if 0 ≤ rnd (((io.getD i 0 : Int) : K) * g) then ⌊rnd (((io.getD i 0 : Int) : K) * g)⌋
         else ⌈rnd (((io.getD i 0 : Int) : K) * g)⌉) ∧
      |(((applyFixedGainR rnd io g).getD i 0 : Int) : K)| ≤
        |rnd (((io.getD i 0 : Int) : K) * g)| ∧
      |rnd (((io.getD i 0 : Int) : K) * g) -
        (((applyFixedGainR rnd io g).getD i 0 : Int) : K)| < 1) ∧
    applyFixedGainR id io g = applyFixedGain io g ∧
    applyFixedGain io g = io.map (fun (s : Int) => truncToInt ((s : K) * g)) := by
  obtain ⟨hg, hmap⟩ := applyFixedGainR_unmodified rnd hm hodd io g hT hL h
  have hid := applyFixedGainR_unmodified (id : K → K) monotone_id (fun _ => rfl) io g
    (by simp only [LIMIT_THRESH_R, id]; norm_num)
    (by simp only [LIMIT_THRESH_R, id]; norm_num) h
  refine ⟨hg, hmap, ?_, applyFixedGainR_id io g, ?_⟩
  · intro i hi
    have e : (applyFixedGainR rnd io g).getD i 0 =
        truncToInt (rnd (((io.getD i 0 : Int) : K) * g)) := by
      rw [hmap, List.getD_eq_getElem _ _ (by simpa using hi), List.getD_eq_getElem _ _ hi]
      simp
    rw [e]
    exact ⟨rfl, truncToInt_abs_le _, truncToInt_near _⟩
  · rw [← applyFixedGainR_id io g, hid.2]
    simp only [id]

/-- A block for C11: binary32 rounding and the gain `0.7f` on the samples 10, -10, 20,
30: the gain is applied as it is and the outputs are the rounded products 7, -7, 14, 21
truncated toward zero. -/
theorem fixed_gain_unmodified_rounded_witness :
    limitedGainR f32 [10, -10, 20, 30] (11744051 / 16777216) = 11744051 / 16777216 ∧
    applyFixedGainR f32 [10, -10, 20, 30] (11744051 / 16777216) =
      [10, -10, 20, 30].map
        (fun (s : Int) => truncToInt (f32 ((s : ℚ) * (11744051 / 16777216)))) := by
  have h := fixed_gain_unmodified_rounded f32 [10, -10, 20, 30] (11744051 / 16777216)
    f32_mono f32_neg f32_limit_thresh.1 f32_limit_thresh.2.1 peak_07
  exact ⟨h.1, h.2.1⟩

/-! ## C12: the noise gate -/

theorem trimAndWrite_sig {σ : Type} (total accept br : Nat) (buf : List Nat) (sig : σ)
    (st : LoopState σ) :
    (∀ st1, trimAndWrite total accept br buf sig st = .next st1 → st1.sig = sig) ∧
    (∀ r st1, trimAndWrite total accept br buf sig st = .stop r st1 → st1.sig = sig) := by
  unfold trimAndWrite
  simp only []
  constructor
  · intro st1 h
    split_ifs at h <;> injection h with h <;> subst h <;> rfl
  · intro r st1 h
    split_ifs at h
    injection h with _ h
    subst h
    rfl

theorem loopBody_sig {σ : Type} (stage : σ → List Int → List Int × σ) (bufBytes total : Nat)
    (ev : ReadEvent) (st : LoopState σ) :
    (∀ st1, loopBody stage bufBytes total ev st = .next st1 →
      st1.sig = (blockOf stage bufBytes st.sig ev).2) ∧
    (∀ r st1, loopBody stage bufBytes total ev st = .stop r st1 →
      st1.sig = st.sig ∨ st1.sig = (blockOf stage bufBytes st.sig ev).2) := by
  unfold loopBody
  simp only []
  by_cases herr : ev.err = true
  · simp only [herr, if_true]
    constructor
    · intro st1 h
      injection h
    · intro r st1 h
      injection h with _ h
      subst h
      exact Or.inl rfl
  · by_cases hz : (ev.bytes.take bufBytes).length = 0
    · simp only [herr, if_false, hz, if_true, blockOf]
      constructor
      · intro st1 h
        injection h with h
        subst h
        rfl
      · intro r st1 h
        injection h
    · simp only [herr, if_false, hz, blockOf]
      obtain ⟨h1, h2⟩ := trimAndWrite_sig total ev.accept (ev.bytes.take bufBytes).length
        (inPlace stage st.sig (ev.bytes.take bufBytes)).1
        (inPlace stage st.sig (ev.bytes.take bufBytes)).2 st
      exact ⟨h1, fun r st1 h => Or.inr (h2 r st1 h)⟩

/-- However the loop is left, its filter state is the state after the reads it consumed,
carried from the initial state without a reset. -/
theorem recordLoop_sig {σ : Type} (stage : σ → List Int → List Int × σ)
    (bufBytes total : Nat) : ∀ (evs : List ReadEvent) (st : LoopState σ),
    ∃ k, k ≤ evs.length ∧
      (recordLoop stage bufBytes total evs st).state.sig =
        sigAfter stage bufBytes st.sig (evs.take k)
  | [], st => by
    refine ⟨0, Nat.le_refl _, ?_⟩
    unfold recordLoop
    split_ifs <;> rfl
  | ev :: rest, st => by
    obtain ⟨hn, hs⟩ := loopBody_sig stage bufBytes total ev st
    unfold recordLoop
    split_ifs with hlt
    · cases hb : loopBody stage bufBytes total ev st with
      | next st1 =>
        obtain ⟨k, hk, h⟩ := recordLoop_sig stage bufBytes total rest st1
        refine ⟨k + 1, by simpa using hk, ?_⟩
        simp only [List.take_succ_cons, sigAfter]
        rw [h, hn st1 hb]
      | stop r st1 =>
        simp only [LoopOut.state]
        rcases hs r st1 hb with h | h
        · exact ⟨0, Nat.zero_le _, by rw [h]; rfl⟩
        · exact ⟨1, by simp, by rw [h]; rfl⟩
    · exact ⟨0, Nat.zero_le _, rfl⟩

theorem blockOf_fixedStage (m : Libm K) (alpha : K) (g : FixedGainConfig K) (bufBytes : Nat)
    (dc : DcState K) (ev : ReadEvent) :
    (blockOf (fixedStage m alpha g) bufBytes dc ev).2 =
      (dcBlocker alpha dc (bytesToSamples (ev.bytes.take bufBytes))).2 := by
  unfold blockOf
  split_ifs with hz
  · rw [List.length_eq_zero.mp hz]
    rfl
  · rfl

theorem blockOf_autoStage (m : Libm K) (alpha : K) (a : AgcConfig K) (fs bufBytes : Nat)
    (st : DcState K × K) (ev : ReadEvent) :
    (blockOf (autoStage m alpha a fs) bufBytes st ev).2.1 =
      (dcBlocker alpha st.1 (bytesToSamples (ev.bytes.take bufBytes))).2 := by
  unfold blockOf
  split_ifs with hz
  · rw [List.length_eq_zero.mp hz]
    rfl
  · rfl

theorem sigAfter_fixedStage (m : Libm K) (alpha : K) (g : FixedGainConfig K) (bufBytes : Nat) :
    ∀ (evs : List ReadEvent) (dc : DcState K),
      sigAfter (fixedStage m alpha g) bufBytes dc evs =
        (dcBlocker alpha dc (samplesOf bufBytes evs)).2
  | [], _ => rfl
  | ev :: rest, dc => by
    rw [sigAfter, sigAfter_fixedStage m alpha g bufBytes rest, blockOf_fixedStage, samplesOf,
      dcBlocker_append]

theorem sigAfter_autoStage (m : Libm K) (alpha : K) (a : AgcConfig K) (fs bufBytes : Nat) :
    ∀ (evs : List ReadEvent) (st : DcState K × K),
      (sigAfter (autoStage m alpha a fs) bufBytes st evs).1 =
        (dcBlocker alpha st.1 (samplesOf bufBytes evs)).2
  | [], _ => rfl
  | ev :: rest, st => by
    rw [sigAfter, sigAfter_autoStage m alpha a fs bufBytes rest, blockOf_autoStage, samplesOf,
      dcBlocker_append]

/-- C13. Two runs of a recorder with the same configuration, duration, card and capture
reads return the same result code, leave the same file (the same bytes written) and the
same `outPath`/`outBytes`, whatever the DC-blocker memory `dc_x1`, `dc_y1` held before the
call (`agc_lin_gain` is a local variable set to 1, so no earlier gain can enter). The
memory is reset once before the loop and never inside it: whenever the call got as far as
the loop, the DC memory it leaves is that of one uninterrupted `dcBlocker` run from the
zero state over all samples of the reads the loop consumed. -/
theorem session_isolation (m : Libm K) (env : Env) (d : Nat) (s : SessionConfig)
    (g : FixedGainConfig K) (a : AgcConfig K) (outPath : Option String)
    (outBytes : Option Nat) (dc1 dc2 : DcState K) :
    (doRecordingFixedSeconds m env dc1 d s g outPath outBytes).map
        (fun o => (o.result, o.file, o.outPath, o.outBytes)) =
      (doRecordingFixedSeconds m env dc2 d s g outPath outBytes).map
        (fun o => (o.result, o.file, o.outPath, o.outBytes)) ∧
    (doRecordingAutoSeconds m env dc1 d s a outPath outBytes).map
        (fun o => (o.result, o.file, o.outPath, o.outBytes)) =
      (doRecordingAutoSeconds m env dc2 d s a outPath outBytes).map
        (fun o => (o.result, o.file, o.outPath, o.outBytes)) ∧
    (∀ o, doRecordingFixedSeconds m env dc1 d s g outPath outBytes = some o →
      o.result ≠ .FileOpenError → o.result ≠ .HeaderPlaceWriteError →
      ∃ k, k ≤ env.reads.length ∧
        o.dc = (dcBlocker (dc_alpha_for s.sampleRate) dcReset
          (samplesOf (bufBytes s) (env.reads.take k))).2) ∧
    (∀ o, doRecordingAutoSeconds m env dc1 d s a outPath outBytes = some o →
      o.result ≠ .FileOpenError → o.result ≠ .HeaderPlaceWriteError →
      ∃ k, k ≤ env.reads.length ∧
        o.dc = (dcBlocker (dc_alpha_for s.sampleRate) dcReset
          (samplesOf (bufBytes s) (env.reads.take k))).2) := by
  refine ⟨?_, ?_, ?_, ?_⟩
  · unfold doRecordingFixedSeconds
    simp only []
    split_ifs <;> rfl
  · unfold doRecordingAutoSeconds
    simp only []
    split_ifs <;> rfl
  · intro o hrun h1 h2
    obtain ⟨k, hk, hsig⟩ := recordLoop_sig (fixedStage m (dc_alpha_for s.sampleRate) g)
      (bufBytes s) (totalBytes s d) env.reads
      ⟨(File.create.write (List.replicate 44 0) env.hdrAccept).1, 0, dropBytes s, dcReset⟩
    rw [sigAfter_fixedStage] at hsig
    unfold doRecordingFixedSeconds at hrun
    simp only [] at hrun
    split_ifs at hrun with c1 c2
    · injection hrun with hrun
      subst hrun
      exact absurd rfl h1
    · injection hrun with hrun
      subst hrun
      exact absurd rfl h2
    · refine ⟨k, hk, ?_⟩
      rw [← hsig]
      split at hrun
      · cases hrun
      · rename_i r st hl
        injection hrun with hrun
        subst hrun
        rw [hl]
        rfl
      · rename_i st hl
        injection hrun with hrun
        subst hrun
        rw [hl]
        rfl
  · intro o hrun h1 h2
    obtain ⟨k, hk, hsig⟩ := recordLoop_sig
      (autoStage m (dc_alpha_for s.sampleRate) a s.sampleRate)
      (bufBytes s) (totalBytes s d) env.reads
      ⟨(File.create.write (List.replicate 44 0) env.hdrAccept).1, 0, dropBytes s,
        (dcReset, 1)⟩
    have hsig1 := congrArg Prod.fst hsig
    rw [sigAfter_autoStage] at hsig1
    unfold doRecordingAutoSeconds at hrun
    simp only [] at hrun
    split_ifs at hrun with c1 c2
    · injection hrun with hrun
      subst hrun
      exact absurd rfl h1
    · injection hrun with hrun
      subst hrun
      exact absurd rfl h2
    · refine ⟨k, hk, ?_⟩
      rw [← hsig1]
      split at hrun
      · cases hrun
      · rename_i r st hl
        injection hrun with hrun
        subst hrun
        rw [hl]
        rfl
      · rename_i st hl
        injection hrun with hrun
        subst hrun
        rw [hl]
        rfl

/-- Two runs for C13: 1 second at 4 Hz on two blocks of the constant 100, once with the
DC memory at (5, 7) and once at (-3, 1000) before the call. Both succeed with the same
file. -/
theorem session_isolation_witness :
    (doRecordingFixedSeconds qLibm (okEnv [okRead [100, 0, 100, 0], okRead [100, 0, 100, 0]])
        ⟨5, 7⟩ 1 { sampleRate := 4, dropHeadMs := 0 } qFixed (some "") (some 0)).map
        (fun o => (o.result, o.file, o.outPath, o.outBytes)) =
      (doRecordingFixedSeconds qLibm (okEnv [okRead [100, 0, 100, 0], okRead [100, 0, 100, 0]])
        ⟨-3, 1000⟩ 1 { sampleRate := 4, dropHeadMs := 0 } qFixed (some "") (some 0)).map
        (fun o => (o.result, o.file, o.outPath, o.outBytes)) ∧
    (doRecordingFixedSeconds qLibm (okEnv [okRead [100, 0, 100, 0], okRead [100, 0, 100, 0]])
        ⟨5, 7⟩ 1 { sampleRate := 4, dropHeadMs := 0 } qFixed (some "") (some 0)).map
        (fun o => (o.result, o.file.map (fun f => f.data.drop 44))) =
      some (.Success, some [100, 0, 99, 0, 98, 0, 97, 0]) :=
  ⟨(session_isolation qLibm (okEnv [okRead [100, 0, 100, 0], okRead [100, 0, 100, 0]]) 1
      { sampleRate := 4, dropHeadMs := 0 } qFixed qAgc (some "") (some 0) ⟨5, 7⟩ ⟨-3, 1000⟩).1,
   by decide!⟩

end Claims

end Mic
